import Mathlib

/-!
# go-storage-api: path safety and the local storage backend

A shallow embedding of `internal/storage/local/local.go`, `internal/storage/storage.go`
and `internal/middleware/pathguard.go`, together with the parts of the Go standard
library and of the operating system they call (`path`, `path/filepath`, `strings`,
`net/url`, `os`), on a Unix host (`filepath.Separator = '/'`, no volume names).

Definitions come first, theorems after them.
-/

set_option autoImplicit false

namespace GoStorage

/-- Results of fallible calls are compared by their content. -/
instance instDecidableEqExcept {ε α : Type} [DecidableEq ε] [DecidableEq α] :
    DecidableEq (Except ε α)
  | .ok a, .ok b => if h : a = b then isTrue (by rw [h]) else isFalse (fun h1 => h (by cases h1; rfl))
  | .error a, .error b =>
    if h : a = b then isTrue (by rw [h]) else isFalse (fun h1 => h (by cases h1; rfl))
  | .ok _, .error _ => isFalse (fun h => by cases h)
  | .error _, .ok _ => isFalse (fun h => by cases h)

/-! ## Strings -/

/-- A Go `string` is a sequence of bytes; each byte is written as one `Char`. -/
abbrev GoString := List Char

/-- The bytes of a string literal. -/
abbrev str (s : String) : GoString := s.toList

namespace strings

/-- Go `strings.HasPrefix(s, prefix)`. -/
def HasPrefix (s pre : GoString) : Bool := pre.isPrefixOf s

/-- Go `strings.Contains(s, substr)`: `substr` occurs at some offset of `s`. -/
def Contains : GoString → GoString → Bool
  | [], sub => sub.isPrefixOf []
  | c :: t, sub => sub.isPrefixOf (c :: t) || Contains t sub

/-- Go `strings.ContainsRune(s, r)` for a one-byte rune. -/
def ContainsRune (s : GoString) (r : Char) : Bool := s.elem r

/-- Go `strings.Count(s, sep)` for a one-byte separator. -/
def Count (s : GoString) (sep : Char) : Nat := s.count sep

end strings

/-! ## Lexical path cleaning (`path.Clean`, `filepath.Clean`) -/

namespace path

/-- The `..` case of `Clean` when it can backtrack:
`out.w--; for out.w > dotdot && out.index(out.w) != '/' { out.w-- }`.
The buffer is kept reversed (last written byte first), so `out.w` is its length and
`out.index(out.w)` after a decrement is the byte just dropped. -/
def backtrack (dotdot : Nat) : List Char → List Char
  | [] => []
  | c :: out => if out.length > dotdot ∧ c ≠ '/' then backtrack dotdot out else out

/-- The main loop `for r < n { switch { ... } }` of `Clean`. The arguments are the fuel
(the number of iterations still allowed; every iteration reads at least one byte, so
`len(path)` is enough), the unread input `path[r:]`, the output buffer (reversed) and
`dotdot`. The result is the output buffer when the input is exhausted. -/
def cleanLoop (rooted : Bool) : Nat → GoString → List Char → Nat → List Char
  | 0, _, out, _ => out
  | _ + 1, [], out, _ => out
  | fuel + 1, c :: t, out, dotdot =>
    if c = '/' then
      -- empty path element
      cleanLoop rooted fuel t out dotdot
    else if c = '.' ∧ (t = [] ∨ t.head? = some '/') then
      -- . element
      cleanLoop rooted fuel t out dotdot
    else if c = '.' ∧ t.head? = some '.' ∧ (t.tail = [] ∨ t.tail.head? = some '/') then
      -- .. element: remove to last /
      if out.length > dotdot then
        cleanLoop rooted fuel t.tail (backtrack dotdot out) dotdot
      else if rooted = false then
        let out2 := '.' :: '.' :: (if out.length > 0 then '/' :: out else out)
        cleanLoop rooted fuel t.tail out2 out2.length
      else
        cleanLoop rooted fuel t.tail out dotdot
    else
      -- real path element: add slash if needed, then copy the element
      let out1 :=
        if (rooted = true ∧ out.length ≠ 1) ∨ (rooted = false ∧ out.length ≠ 0) then '/' :: out
        else out
      cleanLoop rooted fuel ((c :: t).dropWhile (· != '/'))
        (((c :: t).takeWhile (· != '/')).reverse ++ out1) dotdot

/-- Go `path.Clean`: the shortest path name equivalent to `path` by purely lexical
processing. -/
def Clean (path : GoString) : GoString :=
  if path = [] then ['.']
  else
    let rooted : Bool := path.head? = some '/'
    let out := cleanLoop rooted path.length (if rooted then path.tail else path)
      (if rooted then ['/'] else []) (if rooted then 1 else 0)
    if out.length = 0 then ['.'] else out.reverse

end path

namespace filepath

/-- Go `filepath.Separator` on Unix. -/
def Separator : Char := '/'

/-- Go `filepath.Clean`; on Unix it runs the loop of `path.Clean` with `Separator = '/'`
and an empty volume name. -/
def Clean (p : GoString) : GoString := path.Clean p

/-- Go `filepath.FromSlash`: the identity where the separator is `/`. -/
def FromSlash (p : GoString) : GoString := p

/-- Go `filepath.ToSlash`: the identity where the separator is `/`. -/
def ToSlash (p : GoString) : GoString := p

/-- Go `filepath.IsAbs` on Unix: `strings.HasPrefix(path, "/")`. -/
def IsAbs (p : GoString) : Bool := strings.HasPrefix p ['/']

/-- Go `strings.Join(elem, "/")`. -/
def joinSep : List GoString → GoString
  | [] => []
  | [e] => e
  | e :: es => e ++ Separator :: joinSep es

/-- Go `filepath.Join` on Unix: from the first non-empty element on, the elements are
joined with `/` and the result is cleaned; with no non-empty element the result is `""`. -/
def Join : List GoString → GoString
  | [] => []
  | e :: es => if e ≠ [] then Clean (joinSep (e :: es)) else Join es

/-- The part `path[:i+1]` that `Dir` cleans: `path` without the bytes after its last
separator. -/
def dirPart (p : GoString) : GoString := (p.reverse.dropWhile (· != Separator)).reverse

/-- Go `filepath.Dir`: all but the last element of `path`, cleaned. -/
def Dir (p : GoString) : GoString := Clean (dirPart p)

/-- The loop of `filepath.Rel` that positions `base[b0:bi]` and `targ[t0:ti]` at the first
differing elements. The state is `base[b0:]` and `targ[t0:]`; the result is
`(base[b0:bi], base[b0:], targ[t0:])` when the loop ends. One unit of fuel per element. -/
def relLoop : Nat → GoString → GoString → GoString × GoString × GoString
  | 0, b, t => ([], b, t)
  | fuel + 1, b, t =>
    if b = [] ∨ t = [] then ([], b, t)
    else
      let be := b.takeWhile (· != Separator)
      let te := t.takeWhile (· != Separator)
      if te ≠ be then (be, b, t)
      else relLoop fuel (b.dropWhile (· != Separator)).tail (t.dropWhile (· != Separator)).tail

/-- Go `filepath.Rel` on Unix. The error text is not modelled. -/
def Rel (basepath targpath : GoString) : Option GoString :=
  let base := Clean basepath
  let targ := Clean targpath
  if targ = base then some ['.']
  else
    let base := if base = ['.'] then [] else base
    let baseSlashed : Bool := base.head? = some Separator
    let targSlashed : Bool := targ.head? = some Separator
    if baseSlashed ≠ targSlashed then none
    else
      let st := relLoop (base.length + 1) base targ
      if st.1 = ['.', '.'] then none
      else if st.2.1 ≠ [] then
        -- base elements left: go up before going down
        let seps := strings.Count st.2.1 Separator
        some (['.', '.'] ++ (List.replicate seps ['/', '.', '.']).flatten ++
          (if st.2.2 ≠ [] then Separator :: st.2.2 else []))
      else some st.2.2

end filepath

/-! ## Errors -/

/-- The `syscall.Errno` values the model of the operating system produces. -/
inductive Errno
  | ENOENT | EACCES | EPERM | ENOTDIR | EISDIR | ENOTEMPTY | EEXIST | EBUSY | EINVAL | EIO
  | ENAMETOOLONG | ENOSPC
deriving DecidableEq, Repr

/-- Go `error` values: a sentinel made by `errors.New` (identified by the package-level
variable that holds it), a bare `syscall.Errno`, an `*fs.PathError` as the `os` package
returns it, an error wrapped by `fmt.Errorf` with `%w`, and a `url.EscapeError`. -/
inductive GoError
  | New (ident : String) (text : String)
  | Syscall (errno : Errno)
  | PathError (op : String) (path : GoString) (err : Errno)
  | Errorf (format : String) (err : GoError)
  | EscapeError (s : GoString)
deriving DecidableEq, Repr

namespace errors

/-- Go `errors.Is(err, target)`: `err` or an error in its `Unwrap` chain equals `target`. -/
def Is : GoError → GoError → Bool
  | .Errorf f e, target => decide (GoError.Errorf f e = target) || Is e target
  | .PathError op p e, target =>
    decide (GoError.PathError op p e = target) || decide (GoError.Syscall e = target)
  | e, target => decide (e = target)

end errors

namespace storage

/-- The sentinel `storage.ErrNotFound = errors.New("file not found")`. -/
def ErrNotFound : GoError := .New "storage.ErrNotFound" "file not found"

/-- The sentinel `storage.ErrPermission = errors.New("permission denied")`. -/
def ErrPermission : GoError := .New "storage.ErrPermission" "permission denied"

/-- The struct `storage.FileInfo`. `ModTime` is left out: time is outside the model. -/
structure FileInfo where
  Name : GoString
  Path : GoString
  Size : Int
  IsDir : Bool
deriving DecidableEq, Repr

end storage

/-! ## The filesystem

A tree of directories and regular files, kept as a finite map from the location of a
node (its names from the filesystem root) to the node. Symbolic links, permission bits
and timestamps are outside the model: every node is accessible to the process. -/

/-- One name of a path. -/
abbrev Name := GoString

/-- The location of a node: its names, from the filesystem root downwards. -/
abbrev Path := List Name

/-- A node of the tree: a regular file with its content, or a directory. -/
inductive Node
  | file (data : GoString)
  | dir
deriving DecidableEq, Repr

/-- The first node stored under the location `p`. -/
def lookupNode (p : Path) : List (Path × Node) → Option Node
  | [] => none
  | e :: rest => if e.1 = p then some e.2 else lookupNode p rest

/-- The state of the filesystem: the working directory of the process, the nodes, and
the room left on the device for file content when it is short: `some (n, e)` says that
the device takes `n` more bytes of file content and that a write beyond them fails with
the errno `e` (`ENOSPC` where the space or a quota is used up, `EIO` on a failing
device); `none` says that writes succeed. The root directory `[]` always exists. -/
structure FS where
  cwd : Path
  nodes : List (Path × Node)
  room : Option (Nat × Errno) := none
deriving DecidableEq, Repr

/-- Linux `NAME_MAX`: the greatest length of a file name, in bytes. -/
def NAME_MAX : Nat := 255

/-- Linux `PATH_MAX`: the room for a path name and the zero byte that ends it. -/
def PATH_MAX : Nat := 4096

/-- What the operating system answers to a single name it is to create: Go's syscall layer
refuses a name that holds a zero byte with `EINVAL`, and the filesystem refuses a name
longer than `NAME_MAX` with `ENAMETOOLONG`. -/
def elemErr (c : Name) : Option Errno :=
  if '\x00' ∈ c then some .EINVAL
  else if NAME_MAX < c.length then some .ENAMETOOLONG
  else none

namespace FS

/-- The node at a location, if any. -/
def get (fs : FS) (p : Path) : Option Node :=
  if p = [] then some .dir else lookupNode p fs.nodes

/-- Put a node at a location, replacing what was there. -/
def set (fs : FS) (p : Path) (n : Node) : FS :=
  { fs with nodes := (p, n) :: fs.nodes.filter (fun e => decide (e.1 ≠ p)) }

/-- Take the node at a location away. -/
def erase (fs : FS) (p : Path) : FS :=
  { fs with nodes := fs.nodes.filter (fun e => decide (e.1 ≠ p)) }

/-- Every stored node has a directory as its parent: the map is a tree. -/
def WF (fs : FS) : Prop :=
  ∀ e ∈ fs.nodes, e.1 ≠ [] → fs.get e.1.dropLast = some .dir

/-- The names of the nodes directly inside the directory at `p`. -/
def children (fs : FS) (p : Path) : List Name :=
  (fs.nodes.filterMap (fun e => if e.1.dropLast = p then e.1.getLast? else none)).eraseDups

end FS

/-- Splitting a path name at its separators, as path resolution does: `acc` holds the
bytes (reversed) of the element being read; empty elements are dropped. -/
def splitElems : GoString → List Char → List Name
  | [], acc => if acc = [] then [] else [acc.reverse]
  | c :: t, acc =>
    if c = '/' then (if acc = [] then splitElems t [] else acc.reverse :: splitElems t [])
    else splitElems t (c :: acc)

/-- The non-empty elements of a path name. -/
def components (name : GoString) : List Name := splitElems name []

namespace FS

/-- Path resolution from the directory `cur` along the given elements. Every directory
passed through must exist and be a directory; `.` stays, `..` goes to the parent. The
result is the location named, which need not exist. -/
def walk (fs : FS) : Path → List Name → Except Errno Path
  | cur, [] => .ok cur
  | cur, c :: rest =>
    match fs.get cur with
    | none => .error .ENOENT
    | some (.file _) => .error .ENOTDIR
    | some .dir =>
      if c = ['.'] then walk fs cur rest
      else if c = ['.', '.'] then walk fs cur.dropLast rest
      else walk fs (cur ++ [c]) rest

/-- The location a path name denotes: absolute names start at the root, relative ones
at the working directory; the empty name denotes nothing. -/
def resolve (fs : FS) (name : GoString) : Except Errno Path :=
  if name = [] then .error .ENOENT
  else fs.walk (if name.head? = some '/' then [] else fs.cwd) (components name)

/-- The system call `lstat`: the location and node a path name denotes. A name with a
trailing separator must denote a directory. -/
def lstat (fs : FS) (name : GoString) : Except Errno (Path × Node) :=
  match fs.resolve name with
  | .error e => .error e
  | .ok p =>
    match fs.get p with
    | none => .error .ENOENT
    | some (.file d) =>
      if name.getLast? = some '/' then .error .ENOTDIR else .ok (p, .file d)
    | some .dir => .ok (p, .dir)

/-- Path resolution for `open` with `O_CREATE`: as `walk`, and an element longer than
`NAME_MAX` is refused with `ENAMETOOLONG` where the walk meets it. -/
def walkCreate (fs : FS) : Path → List Name → Except Errno Path
  | cur, [] => .ok cur
  | cur, c :: rest =>
    match fs.get cur with
    | none => .error .ENOENT
    | some (.file _) => .error .ENOTDIR
    | some .dir =>
      if c = ['.'] then walkCreate fs cur rest
      else if c = ['.', '.'] then walkCreate fs cur.dropLast rest
      else if NAME_MAX < c.length then .error .ENAMETOOLONG
      else walkCreate fs (cur ++ [c]) rest

/-- The directory-creating walk of `os.MkdirAll`: every element that is missing is created
as a directory; an element that is a regular file stops the walk with `ENOTDIR` at that
location, and an element the operating system refuses as a name (`elemErr`) stops it with
that error, after the directories before it have been created. `cur` is a directory. -/
def mkdirAll (fs : FS) : Path → List Name → Option (Errno × Path) × FS
  | _, [] => (none, fs)
  | cur, c :: rest =>
    if c = ['.'] then mkdirAll fs cur rest
    else if c = ['.', '.'] then mkdirAll fs cur.dropLast rest
    else
      match elemErr c with
      | some e => (some (e, cur ++ [c]), fs)
      | none =>
        match fs.get (cur ++ [c]) with
        | some .dir => mkdirAll fs (cur ++ [c]) rest
        | some (.file _) => (some (.ENOTDIR, cur ++ [c]), fs)
        | none => mkdirAll (fs.set (cur ++ [c]) .dir) (cur ++ [c]) rest

/-- Append bytes to the regular file at `p` (a `write` on an open file at its end). -/
def append (fs : FS) (p : Path) (data : GoString) : FS :=
  match fs.get p with
  | some (.file d) => fs.set p (.file (d ++ data))
  | _ => fs

/-- The location a path name denotes for `open` with `O_CREATE`: as `resolve`, with the
walk that refuses over-long elements. -/
def resolveCreate (fs : FS) (name : GoString) : Except Errno Path :=
  if name = [] then .error .ENOENT
  else fs.walkCreate (if name.head? = some '/' then [] else fs.cwd) (components name)

end FS

/-! ## The `os` and `io` calls the backend makes -/

/-- Bytewise order on strings, as Go compares them with `<`. -/
def strLess : GoString → GoString → Bool
  | _, [] => false
  | [], _ :: _ => true
  | a :: as, b :: bs => decide (a.toNat < b.toNat) || (decide (a = b) && strLess as bs)

/-- Insertion of a name into a list sorted by `strLess`. -/
def insertName (x : Name) : List Name → List Name
  | [] => [x]
  | y :: ys => if strLess y x then y :: insertName x ys else x :: y :: ys

/-- Sorting names bytewise. -/
def sortNames (l : List Name) : List Name := l.foldr insertName []

/-- The size `fs.FileInfo.Size()` reports for a directory; it depends on the host. -/
def dirSize : Int := 4096

/-- The length in bytes of a regular file, or `dirSize`. -/
def Node.size : Node → Int
  | .file d => d.length
  | .dir => dirSize

/-- Whether the node is a directory. -/
def Node.isDir : Node → Bool
  | .file _ => false
  | .dir => true

/-- An `io.Reader`: it yields `data` and then ends, with `io.EOF` (`err = none`) or with
an error. -/
structure Reader where
  data : GoString
  err : Option GoError
deriving DecidableEq, Repr

namespace os

/-- What `fs.FileInfo` (and `fs.DirEntry`) give the backend: name, size, directory flag. -/
structure FileStat where
  name : GoString
  size : Int
  isDir : Bool
deriving DecidableEq, Repr

/-- An open `*os.File`: the name it was opened with, its location and its node. -/
structure File where
  name : GoString
  loc : Path
  node : Node
deriving DecidableEq, Repr

/-- Go `os.underlyingError`: the error inside a `*PathError`. -/
def underlyingError : GoError → GoError
  | .PathError _ _ e => .Syscall e
  | e => e

/-- The sentinel `fs.ErrNotExist`. -/
def ErrNotExist : GoError := .New "fs.ErrNotExist" "file does not exist"

/-- The sentinel `fs.ErrPermission`. -/
def ErrPermission : GoError := .New "fs.ErrPermission" "permission denied"

/-- Go `os.IsNotExist`: the underlying error is `ErrNotExist` or the errno `ENOENT`. -/
def IsNotExist (err : GoError) : Bool :=
  decide (underlyingError err = ErrNotExist) || decide (underlyingError err = .Syscall .ENOENT)

/-- Go `os.IsPermission`: the underlying error is `ErrPermission` or one of the errnos
`EACCES`, `EPERM`. -/
def IsPermission (err : GoError) : Bool :=
  decide (underlyingError err = ErrPermission) ||
    decide (underlyingError err = .Syscall .EACCES) ||
    decide (underlyingError err = .Syscall .EPERM)

/-- Go `os.basename`: trailing slashes and the leading directory name removed. -/
def basename (name : GoString) : GoString :=
  let trimmed := (name.reverse.dropWhile (· == '/')).reverse
  let trimmed := if trimmed = [] then name.take 1 else trimmed
  match trimmed.reverse with
  | [] => []
  | c :: before => (c :: before.takeWhile (· != '/')).reverse

/-- The path name of a location, as `os.Getwd` gives it. -/
def pathName (p : Path) : GoString := '/' :: filepath.joinSep p

/-- Go `os.Stat`. -/
def Stat (fs : FS) (name : GoString) : Except GoError FileStat :=
  match fs.lstat name with
  | .error e => .error (.PathError "stat" name e)
  | .ok (_, n) => .ok { name := basename name, size := n.size, isDir := n.isDir }

/-- Go `os.Open`: opening for reading succeeds on files and on directories. -/
def Open (fs : FS) (name : GoString) : Except GoError File :=
  match fs.lstat name with
  | .error e => .error (.PathError "open" name e)
  | .ok (p, n) => .ok { name := name, loc := p, node := n }

/-- Go `os.ReadDir`: the entries of the directory, sorted by file name. Reading the
entries of a regular file fails with `ENOTDIR` (the `Op` recorded in that error differs
between Go releases; nothing below depends on it). -/
def ReadDir (fs : FS) (name : GoString) : Except GoError (List FileStat) :=
  match fs.lstat name with
  | .error e => .error (.PathError "open" name e)
  | .ok (_, .file _) => .error (.PathError "readdirent" name .ENOTDIR)
  | .ok (p, .dir) =>
    .ok ((sortNames (fs.children p)).filterMap (fun c =>
      (fs.get (p ++ [c])).map (fun n => { name := c, size := n.size, isDir := n.isDir })))

/-- Go `os.MkdirAll`: creates the directory and every missing parent; fails where a
parent is a regular file and where the operating system refuses a name: an element with a
zero byte (`EINVAL`) or longer than `NAME_MAX` (`ENAMETOOLONG`), after the parents before
it have been created, and a path name of `PATH_MAX` bytes or more (`ENAMETOOLONG`; that
name is refused as a whole here, the parents it shares with shorter names are not
created). -/
def MkdirAll (fs : FS) (name : GoString) : Option GoError × FS :=
  if name = [] then (some (.PathError "mkdir" name .ENOENT), fs)
  else if PATH_MAX ≤ name.length then (some (.PathError "mkdir" name .ENAMETOOLONG), fs)
  else
    let start := if name.head? = some '/' then [] else fs.cwd
    match fs.get start with
    | some .dir =>
      match fs.mkdirAll start (components name) with
      | (some (e, at_), fs1) => (some (.PathError "mkdir" (pathName at_) e), fs1)
      | (none, fs1) => (none, fs1)
    | _ => (some (.PathError "mkdir" name .ENOENT), fs)

/-- Go `os.Create`: `open` with `O_RDWR|O_CREATE|O_TRUNC`. Go's syscall layer refuses a
name with a zero byte (`EINVAL`), the kernel a name of `PATH_MAX` bytes or more and an
element longer than `NAME_MAX` (`ENAMETOOLONG`). The file is created empty or truncated;
the result is the open file. -/
def Create (fs : FS) (name : GoString) : Except GoError File × FS :=
  if '\x00' ∈ name then (.error (.PathError "open" name .EINVAL), fs)
  else if PATH_MAX ≤ name.length then (.error (.PathError "open" name .ENAMETOOLONG), fs)
  else
    match fs.resolveCreate name with
    | .error e => (.error (.PathError "open" name e), fs)
    | .ok p =>
      if name.getLast? = some '/' then (.error (.PathError "open" name .EISDIR), fs)
      else
        match fs.get p with
        | some .dir => (.error (.PathError "open" name .EISDIR), fs)
        | _ => (.ok { name := name, loc := p, node := .file [] }, fs.set p (.file []))

/-- Go `os.Remove`: `unlink`, and `rmdir` for a directory, which must be empty and not
the root of the filesystem. -/
def Remove (fs : FS) (name : GoString) : Option GoError × FS :=
  match fs.lstat name with
  | .error e => (some (.PathError "remove" name e), fs)
  | .ok (p, .file _) => (none, fs.erase p)
  | .ok (p, .dir) =>
    if p = [] then (some (.PathError "remove" name .EBUSY), fs)
    else if fs.children p ≠ [] then (some (.PathError "remove" name .ENOTEMPTY), fs)
    else (none, fs.erase p)

end os

namespace io

/-- Go `io.Copy(f, r)` into the open file `f`: the bytes the reader yields are written to
the file. When the device has no room for all of them, the bytes there is room for are
written and the copy ends with the `*PathError` of the failed `f.Write`; otherwise the
error is the reader's, if it ends with one. -/
def Copy (fs : FS) (f : os.File) (r : Reader) : Option GoError × FS :=
  match fs.room with
  | none => (r.err, fs.append f.loc r.data)
  | some (n, e) =>
    if n < r.data.length then
      (some (.PathError "write" f.name e),
        { fs.append f.loc (r.data.take n) with room := some (0, e) })
    else (r.err, { fs.append f.loc r.data with room := some (n - r.data.length, e) })

/-- Go `io.ReadAll` on an open file: the whole content of a regular file; reading a
directory fails with `EISDIR`. -/
def ReadAll (f : os.File) : Except GoError GoString :=
  match f.node with
  | .file d => .ok d
  | .dir => .error (.PathError "read" f.name .EISDIR)

end io

/-! ## The local storage backend (`internal/storage/local/local.go`) -/

/-- The struct `local.Storage`: the backend and its root directory. -/
structure Storage where
  root : GoString
deriving DecidableEq, Repr

/-- Go `filepath.Abs` on Unix: an absolute path is cleaned, a relative one is joined to
the working directory. -/
def filepath.Abs (fs : FS) (p : GoString) : GoString :=
  if filepath.IsAbs p then filepath.Clean p else filepath.Join [os.pathName fs.cwd, p]

/-- `New` creates a local storage backend rooted at the given directory. -/
def New (root : GoString) (fs : FS) : Except GoError Storage × FS :=
  let abs := filepath.Abs fs root
  match os.MkdirAll fs abs with
  | (some err, fs1) => (.error (.Errorf "create root directory: %w" err), fs1)
  | (none, fs1) => (.ok { root := abs }, fs1)

/-- `mapError` converts os-level errors to storage sentinel errors. -/
def mapError (err : GoError) : GoError :=
  if os.IsNotExist err then storage.ErrNotFound
  else if os.IsPermission err then storage.ErrPermission
  else err

/-- `safePath` resolves the requested path against the root directory and ensures the
result stays within root to prevent directory traversal. -/
def Storage.safePath (s : Storage) (requested : GoString) : Except GoError GoString :=
  -- Treat empty or "/" as the root directory.
  if requested = [] ∨ requested = ['/'] then .ok s.root
  else
    let joined := filepath.Join [s.root, filepath.FromSlash requested]
    let cleaned := filepath.Clean joined
    if !strings.HasPrefix cleaned s.root then .error storage.ErrPermission
    else .ok cleaned

/-- `Read` opens the file at the path. -/
def Storage.Read (s : Storage) (path : GoString) (fs : FS) : Except GoError os.File × FS :=
  match s.safePath path with
  | .error err => (.error err, fs)
  | .ok full =>
    match os.Open fs full with
    | .error err => (.error (mapError err), fs)
    | .ok f => (.ok f, fs)

/-- `Write` creates the parent directories and the file, and copies the reader into it. -/
def Storage.Write (s : Storage) (path : GoString) (r : Reader) (fs : FS) :
    Option GoError × FS :=
  match s.safePath path with
  | .error err => (some err, fs)
  | .ok full =>
    match os.MkdirAll fs (filepath.Dir full) with
    | (some err, fs1) => (some (mapError err), fs1)
    | (none, fs1) =>
      match os.Create fs1 full with
      | (.error err, fs2) => (some (mapError err), fs2)
      | (.ok f, fs2) =>
        match io.Copy fs2 f r with
        | (some err, fs3) => (some (.Errorf "write file: %w" err), fs3)
        | (none, fs3) => (none, fs3)

/-- `Delete` removes the file or empty directory at the path. -/
def Storage.Delete (s : Storage) (path : GoString) (fs : FS) : Option GoError × FS :=
  match s.safePath path with
  | .error err => (some err, fs)
  | .ok full =>
    match os.Remove fs full with
    | (some err, fs1) => (some (mapError err), fs1)
    | (none, fs1) => (none, fs1)

/-- `Stat` describes the node at the path. -/
def Storage.Stat (s : Storage) (path : GoString) (fs : FS) :
    Except GoError storage.FileInfo × FS :=
  match s.safePath path with
  | .error err => (.error err, fs)
  | .ok full =>
    match os.Stat fs full with
    | .error err => (.error (mapError err), fs)
    | .ok info =>
      let rel := (filepath.Rel s.root full).getD []
      (.ok { Name := info.name, Path := filepath.ToSlash rel, Size := info.size,
             IsDir := info.isDir }, fs)

/-- `List` describes the entries of the directory at the path. Each entry's `Info()` is
the `lstat` of the entry, which succeeds as nothing runs in between. -/
def Storage.List (s : Storage) (path : GoString) (fs : FS) :
    Except GoError (List storage.FileInfo) × FS :=
  match s.safePath path with
  | .error err => (.error err, fs)
  | .ok full =>
    match os.ReadDir fs full with
    | .error err => (.error (mapError err), fs)
    | .ok entries =>
      (.ok (entries.map (fun e =>
        let rel := (filepath.Rel s.root (filepath.Join [full, e.name])).getD []
        { Name := e.name, Path := filepath.ToSlash rel, Size := e.size, IsDir := e.isDir })),
       fs)

/-! ## Query strings (`net/url`) -/

namespace url

/-- Go `url.ishex`. -/
def ishex (c : Char) : Bool :=
  (48 ≤ c.toNat && c.toNat ≤ 57) || (97 ≤ c.toNat && c.toNat ≤ 102) ||
    (65 ≤ c.toNat && c.toNat ≤ 70)

/-- Go `url.unhex`. -/
def unhex (c : Char) : Nat :=
  if 48 ≤ c.toNat ∧ c.toNat ≤ 57 then c.toNat - 48
  else if 97 ≤ c.toNat ∧ c.toNat ≤ 102 then c.toNat - 97 + 10
  else if 65 ≤ c.toNat ∧ c.toNat ≤ 70 then c.toNat - 65 + 10
  else 0

/-- Go `url.QueryUnescape`, that is `unescape(s, encodeQueryComponent)`: `%XX` becomes
the byte `XX`, `+` becomes a space; a `%` not followed by two hex digits is an
`EscapeError` carrying the offending bytes. -/
def QueryUnescape : GoString → Except GoError GoString
  | [] => .ok []
  | c :: t =>
    if c = '%' then
      match t with
      | a :: b :: rest =>
        if ishex a && ishex b then
          match QueryUnescape rest with
          | .ok r => .ok (Char.ofNat (unhex a * 16 + unhex b) :: r)
          | .error e => .error e
        else .error (.EscapeError ((c :: t).take 3))
      | _ => .error (.EscapeError ((c :: t).take 3))
    else
      match QueryUnescape t with
      | .ok r => .ok ((if c = '+' then ' ' else c) :: r)
      | .error e => .error e

/-- Go `url.shouldEscape(c, encodeQueryComponent)`: everything but the unreserved
characters is escaped. -/
def shouldEscape (c : Char) : Bool :=
  !((97 ≤ c.toNat && c.toNat ≤ 122) || (65 ≤ c.toNat && c.toNat ≤ 90) ||
    (48 ≤ c.toNat && c.toNat ≤ 57) || c == '-' || c == '_' || c == '.' || c == '~')

/-- The digit `"0123456789ABCDEF"[n]` of Go `url.upperhex`. -/
def upperhex (n : Nat) : Char :=
  if n < 10 then Char.ofNat (48 + n) else Char.ofNat (65 + (n - 10))

/-- Go `url.QueryEscape`, that is `escape(s, encodeQueryComponent)`. -/
def QueryEscape : GoString → GoString
  | [] => []
  | c :: t =>
    if shouldEscape c then
      if c = ' ' then '+' :: QueryEscape t
      else '%' :: upperhex (c.toNat / 16 % 16) :: upperhex (c.toNat % 16) :: QueryEscape t
    else c :: QueryEscape t

/-- Go `url.Values`, a `map[string][]string`: every key occurs once. -/
abbrev Values := List (GoString × List GoString)

/-- The map lookup `v[key]`: the values of the key, `nil` when it is absent. -/
def Values.index : Values → GoString → List GoString
  | [], _ => []
  | e :: rest, key => if e.1 = key then e.2 else Values.index rest key

/-- The map update `v[key] = vs`. -/
def Values.assign : Values → GoString → List GoString → Values
  | [], key, vs => [(key, vs)]
  | e :: rest, key, vs => if e.1 = key then (key, vs) :: rest else e :: Values.assign rest key vs

/-- Go `Values.Get`: the first value of the key, or `""`. -/
def Values.Get (v : Values) (key : GoString) : GoString :=
  match v.index key with
  | [] => []
  | x :: _ => x

/-- Go `Values.Set`: `v[key] = []string{value}`. -/
def Values.Set (v : Values) (key value : GoString) : Values := v.assign key [value]

/-- Go `strings.Cut(s, sep)` for a one-byte separator: the text before the first
separator and the text after it (empty when there is none). -/
def cut (s : GoString) (sep : Char) : GoString × GoString :=
  (s.takeWhile (· != sep), (s.dropWhile (· != sep)).tail)

/-- Go `url.parseQuery` (Go 1.17 and later): the loop `for query != ""` over the
`&`-separated pairs. A pair with a semicolon, an empty pair, and a pair whose key or
value does not unescape are skipped (the error they raise is the one `URL.Query`
discards). One unit of fuel per pair. -/
def parseQuery : Nat → Values → GoString → Values
  | 0, m, _ => m
  | fuel + 1, m, query =>
    if query = [] then m
    else
      let pair := (cut query '&').1
      let rest := (cut query '&').2
      if strings.ContainsRune pair ';' then parseQuery fuel m rest
      else if pair = [] then parseQuery fuel m rest
      else
        match QueryUnescape (cut pair '=').1, QueryUnescape (cut pair '=').2 with
        | .ok key, .ok value => parseQuery fuel (m.assign key (m.index key ++ [value])) rest
        | _, _ => parseQuery fuel m rest

/-- One `key=value` item per value of every key, in the order of the keys given. -/
def encodePairs (v : Values) : List GoString → List GoString
  | [] => []
  | k :: ks => (v.index k).map (fun x => QueryEscape k ++ '=' :: QueryEscape x) ++ encodePairs v ks

/-- Go `Values.Encode`: the pairs, sorted by key, joined with `&`. -/
def Values.Encode (v : Values) : GoString :=
  (encodePairs v (sortNames (v.map (·.1)))).intersperse ['&'] |>.flatten

/-- The fields of Go `url.URL` a request for this service carries. -/
structure URL where
  Path : GoString
  RawQuery : GoString
deriving DecidableEq, Repr

/-- Go `URL.Query`: the parsed `RawQuery`; malformed pairs are dropped silently. -/
def URL.Query (u : URL) : Values := parseQuery (u.RawQuery.length + 1) [] u.RawQuery

end url

/-! ## Requests, responses and the path guard (`internal/middleware/pathguard.go`) -/

namespace middleware

/-- The struct `errorResponse`, the JSON shape of an error body. -/
structure errorResponse where
  Error : GoString
deriving DecidableEq, Repr

end middleware

namespace http

/-- Go `http.StatusBadRequest`. -/
def StatusBadRequest : Nat := 400

/-- Go `http.StatusOK`. -/
def StatusOK : Nat := 200

/-- One write to the body of a response: raw bytes, or the JSON document that
`json.NewEncoder(w).Encode(v)` writes for an `errorResponse`. -/
inductive Chunk
  | bytes (b : GoString)
  | json (v : middleware.errorResponse)
deriving DecidableEq, Repr

/-- The state of an `http.ResponseWriter`: the header map, the status code once the
header has been written, and the body written so far. -/
structure ResponseWriter where
  header : List (GoString × GoString)
  status : Option Nat
  body : List Chunk
deriving DecidableEq, Repr

/-- A response writer nothing has been written to. -/
def ResponseWriter.fresh : ResponseWriter := { header := [], status := none, body := [] }

/-- The call `w.Header().Set(key, value)`. -/
def ResponseWriter.SetHeader (w : ResponseWriter) (key value : GoString) : ResponseWriter :=
  { w with header := (key, value) :: w.header.filter (fun e => decide (e.1 ≠ key)) }

/-- The call `w.WriteHeader(code)`: the first call fixes the status code. -/
def ResponseWriter.WriteHeader (w : ResponseWriter) (code : Nat) : ResponseWriter :=
  match w.status with
  | some _ => w
  | none => { w with status := some code }

/-- The call `w.Write`: writes the header with `StatusOK` if it has not been written,
then the data. -/
def ResponseWriter.Write (w : ResponseWriter) (c : Chunk) : ResponseWriter :=
  let w1 := w.WriteHeader StatusOK
  { w1 with body := w1.body ++ [c] }

/-- The fields of Go `http.Request` the middleware reads and writes. -/
structure Request where
  Method : GoString
  URL : url.URL
deriving DecidableEq, Repr

/-- An `http.Handler`: `ServeHTTP(w, r)` writes to the response writer and may act on
the rest of the world, whose state has type `σ` (for the handlers behind the path guard:
the storage backend). -/
abbrev Handler (σ : Type) := ResponseWriter → Request → σ → ResponseWriter × σ

end http

namespace middleware

/-- `containsTraversal` reports a `..` anywhere in the string. -/
def containsTraversal (s : GoString) : Bool := strings.Contains s ['.', '.']

/-- `containsNullByte` reports a zero byte anywhere in the string. -/
def containsNullByte (s : GoString) : Bool := strings.ContainsRune s '\x00'

/-- `writeErrorJSON` sets the content type, writes the status and encodes the error. -/
def writeErrorJSON (w : http.ResponseWriter) (status : Nat) (msg : GoString) :
    http.ResponseWriter :=
  ((w.SetHeader (str "Content-Type") (str "application/json")).WriteHeader status).Write
    (.json { Error := msg })

/-- `PathGuard` rejects requests whose "path" query parameter contains directory
traversal sequences (..) or null bytes. Valid paths are normalized with `path.Clean`
before the request continues. -/
def PathGuard {σ : Type} (next : http.Handler σ) : http.Handler σ := fun w r st =>
  let raw := r.URL.Query.Get (str "path")
  if raw = [] then next w r st
  else
    -- Decode to catch double-encoded traversal (%252e%252e).
    match url.QueryUnescape raw with
    | .error _ => (writeErrorJSON w http.StatusBadRequest (str "invalid path encoding"), st)
    | .ok decoded =>
      if containsTraversal decoded || containsNullByte decoded then
        (writeErrorJSON w http.StatusBadRequest (str "invalid path"), st)
      else
        -- Normalize and replace the query parameter.
        let cleaned := path.Clean decoded
        let q := r.URL.Query.Set (str "path") cleaned
        next w { r with URL := { r.URL with RawQuery := q.Encode } } st

end middleware

/-! ## Notions of the specification -/

/-- Containment at a directory boundary, in the words of the specification: `q` is the
root itself, or the root followed by a path separator and further bytes. -/
def insideRoot (root q : GoString) : Bool :=
  decide (q = root) ||
    strings.HasPrefix q (if root.getLast? = some '/' then root else root ++ ['/'])

/-! ## Test fixtures (`net/http/httptest`) -/

namespace httptest

/-- Go `httptest.NewRequest(method, target, nil)`: the target is split at its `?` into
the path and the raw query. -/
def NewRequest (method target : GoString) : http.Request :=
  { Method := method, URL := { Path := (url.cut target '?').1, RawQuery := (url.cut target '?').2 } }

/-- Go `httptest.NewRecorder()`: a response writer nothing has been written to. -/
def NewRecorder : http.ResponseWriter := http.ResponseWriter.fresh

end httptest

/-- Something exists at a path name: the lookup of the name finds a node. -/
def FS.existsAt (fs : FS) (name : GoString) : Bool :=
  match fs.lstat name with
  | .ok _ => true
  | .error _ => false

/-! ## Test fixtures (`local_test.go`) -/

/-- The backend of `newTestStorage`: rooted at a fresh directory, here `/data`. -/
def newTestStorage : Storage := { root := str "/data" }

/-- The filesystem right after `newTestStorage`: the root directory exists and is empty. -/
def emptyRootFS : FS := { cwd := [], nodes := [([str "data"], .dir)] }

/-- The filesystem after `os.WriteFile(filepath.Join(s.root, name), content, 0o644)` in
the empty root. -/
def rootWithFile (name content : GoString) : FS :=
  { cwd := [], nodes := [([str "data"], .dir), ([str "data", name], .file content)] }

/-! ## Elements of a rooted path: the lexical reading of `Clean` -/

namespace path

/-- The elements that remain of a rooted path when its elements are read in order:
`.` is skipped, `..` removes the element before it (nothing at the root), any other
element is kept. `st` holds the elements kept so far, the last one first. -/
def normAbs : List Name → List Name → List Name
  | st, [] => st
  | st, e :: rest =>
    if e = ['.'] then normAbs st rest
    else if e = ['.', '.'] then normAbs st.tail rest
    else normAbs (e :: st) rest

/-- The output buffer of `Clean` (reversed, as `cleanLoop` keeps it) that holds a rooted
path with the given elements, the last element first. -/
def outAbs : List Name → List Char
  | [] => ['/']
  | e :: st => e.reverse ++ (if st = [] then ['/'] else '/' :: outAbs st)

end path

/-- An element of a cleaned path: not empty, without a separator, and not `.` or `..`. -/
def Regular (e : Name) : Prop := e ≠ [] ∧ '/' ∉ e ∧ e ≠ ['.'] ∧ e ≠ ['.', '.']

/-- The root of the backend is an absolute, cleaned path; `New` makes it so with
`filepath.Abs`. -/
def Storage.Valid (s : Storage) : Prop :=
  filepath.IsAbs s.root = true ∧ filepath.Clean s.root = s.root

/-! ## Composing middleware (`internal/middleware/middleware.go`) -/

namespace middleware

/-- `Middleware` is a function that wraps an `http.Handler`. -/
abbrev Middleware (σ : Type) := http.Handler σ → http.Handler σ

/-- The loop `for i := len(mws) - 1; i >= 0; i-- { final = mws[i](final) }` of `Chain`;
the first argument is `i + 1`, the number of middleware still to apply. -/
def chainLoop {σ : Type} (mws : List (Middleware σ)) : Nat → http.Handler σ → http.Handler σ
  | 0, final => final
  | i + 1, final =>
    match mws[i]? with
    | some mw => chainLoop mws i (mw final)
    | none => chainLoop mws i final

/-- `Chain` composes middleware so the first argument is the outermost layer.
`Chain(A, B, C)(handler)` produces `A(B(C(handler)))`. -/
def Chain {σ : Type} (mws : List (Middleware σ)) : Middleware σ :=
  fun final => chainLoop mws mws.length final

/-- The test helper `orderMiddleware`: appends a marker before and after calling next;
the world is the slice `order`. -/
def orderMiddleware (name : String) : Middleware (List String) :=
  fun next w r order =>
    let res := next w r (order ++ [name ++ "-before"])
    (res.1, res.2 ++ [name ++ "-after"])

end middleware

/-! ## Request identifiers (`internal/middleware/requestid.go`) -/

namespace fmt

/-- The digit `"0123456789abcdef"[n]` that `%x` writes. -/
def lowerhex (n : Nat) : Char :=
  if n < 10 then Char.ofNat (48 + n) else Char.ofNat (97 + (n - 10))

/-- The verb `%x` on a byte slice: two lowercase hex digits per byte. -/
def hexBytes : List Nat → GoString
  | [] => []
  | b :: bs => lowerhex (b / 16 % 16) :: lowerhex (b % 16) :: hexBytes bs

/-- The flag and width of `%08x`, `%04x`, `%012x`: zeros on the left up to the width. -/
def padZero (width : Nat) (s : GoString) : GoString :=
  List.replicate (width - s.length) '0' ++ s

end fmt

namespace middleware

/-- `newUUIDv4` generates a RFC 4122 version 4 UUID using crypto/rand. The argument is
the outcome of `rand.Read(uuid[:])`: the 16 bytes read, or `none` when it fails. -/
def newUUIDv4 (rnd : Option (List Nat)) : GoString :=
  match rnd with
  | none =>
    -- fall back to a zero UUID rather than panicking
    str "00000000-0000-4000-8000-000000000000"
  | some uuid =>
    -- Set version 4 (bits 4-7 of byte 6).
    let uuid := uuid.set 6 ((uuid.getD 6 0 &&& 0x0f) ||| 0x40)
    -- Set variant 10xx (bits 6-7 of byte 8).
    let uuid := uuid.set 8 ((uuid.getD 8 0 &&& 0x3f) ||| 0x80)
    fmt.padZero 8 (fmt.hexBytes ((uuid.drop 0).take 4)) ++ '-' ::
      fmt.padZero 4 (fmt.hexBytes ((uuid.drop 4).take 2)) ++ '-' ::
      fmt.padZero 4 (fmt.hexBytes ((uuid.drop 6).take 2)) ++ '-' ::
      fmt.padZero 4 (fmt.hexBytes ((uuid.drop 8).take 2)) ++ '-' ::
      fmt.padZero 12 (fmt.hexBytes ((uuid.drop 10).take 6))

/-- A lowercase hex digit, `[0-9a-f]`. -/
def isLowerHex (c : Char) : Bool :=
  (48 ≤ c.toNat && c.toNat ≤ 57) || (97 ≤ c.toNat && c.toNat ≤ 102)

/-- The pattern `uuidV4Re` of the tests, one character class per position:
`^[0-9a-f]{8}-[0-9a-f]{4}-4[0-9a-f]{3}-[89ab][0-9a-f]{3}-[0-9a-f]{12}$`. -/
def uuidV4Re : List (Char → Bool) :=
  List.replicate 8 isLowerHex ++ [(· == '-')] ++ List.replicate 4 isLowerHex ++ [(· == '-')] ++
    [(· == '4')] ++ List.replicate 3 isLowerHex ++ [(· == '-')] ++
    [fun c => c == '8' || c == '9' || c == 'a' || c == 'b'] ++ List.replicate 3 isLowerHex ++
    [(· == '-')] ++ List.replicate 12 isLowerHex

/-- A string matches `uuidV4Re`: it has 36 characters, each in the class of its position. -/
def matchesUUIDv4 (s : GoString) : Bool :=
  decide (s.length = 36) && (List.zipWith (fun cls c => cls c) uuidV4Re s).all id

/-- The bytes a hex string stands for, two digits per byte, hyphens skipped. -/
def uuidBytes : GoString → List Nat
  | '-' :: rest => uuidBytes rest
  | a :: b :: rest => (url.unhex a * 16 + url.unhex b) :: uuidBytes rest
  | _ => []

end middleware

/-! ## Elements of a relative path and the lexically normal form -/

/-- The output buffer of `Clean` (reversed, as `cleanLoop` keeps it) that holds a relative
path with the given elements, the last element first. -/
def path.outRel : List Name → List Char
  | [] => []
  | e :: st => e.reverse ++ (if st = [] then [] else '/' :: path.outRel st)

/-- The elements of a path name that are not `.`. -/
def properElems (d : GoString) : List Name :=
  (components d).filter (fun e => decide (e ≠ ['.']))

/-- The lexically normal form of a path without `..` elements, in the words of the
specification: repeated separators are collapsed, `.` segments are removed and a trailing
separator is dropped, so the elements left are joined by single separators, after the
leading separator if the path has one; a relative path with nothing left is `.`. -/
def lexicalNormal (d : GoString) : GoString :=
  if d.head? = some '/' then '/' :: filepath.joinSep (properElems d)
  else if properElems d = [] then ['.']
  else filepath.joinSep (properElems d)

/-! ## Query values as Go holds them -/

/-- A Go string is a sequence of bytes: every character of the model stands for one
byte. -/
def IsBytes (s : GoString) : Prop := ∀ c ∈ s, c.toNat < 256

instance (s : GoString) : Decidable (IsBytes s) := by
  unfold IsBytes
  infer_instance

/-- What one round of the loop of `url.parseQuery` does with the pair it cut off. -/
def url.parsePair (m : url.Values) (pair : GoString) : url.Values :=
  if strings.ContainsRune pair ';' then m
  else if pair = [] then m
  else
    match url.QueryUnescape (url.cut pair '=').1, url.QueryUnescape (url.cut pair '=').2 with
    | .ok key, .ok value => m.assign key (m.index key ++ [value])
    | _, _ => m

/-- The invariant of a Go `map[string][]string`: no key occurs twice, and keys and values
are byte strings. -/
def url.Values.Sound (v : url.Values) : Prop :=
  (v.map (·.1)).Nodup ∧ ∀ e ∈ v, IsBytes e.1 ∧ ∀ x ∈ e.2, IsBytes x

/-- The `key`, `value` pairs that `Values.Encode` writes for the keys given. -/
def url.pairsOf (v : url.Values) (ks : List GoString) : List (GoString × GoString) :=
  ks.flatMap (fun k => (v.index k).map (fun x => (k, x)))

/-! ## File names and the fixtures of the `List` tests -/

instance (e : Name) : Decidable (Regular e) := by
  unfold Regular
  infer_instance

/-- Every name stored in the filesystem is a file name: not empty, without a separator,
and not `.` or `..`. -/
def FS.NamesRegular (fs : FS) : Prop := ∀ e ∈ fs.nodes, ∀ c ∈ e.1, Regular c

instance (fs : FS) : Decidable fs.NamesRegular := by
  unfold FS.NamesRegular
  infer_instance

/-- The filesystem of `TestList_WithFiles`: the root holds the file `a.txt` with the bytes
`aaa` and the directory `subdir`. -/
def listWithFilesFS : FS :=
  { cwd := [],
    nodes := [([str "data"], .dir), ([str "data", str "a.txt"], .file (str "aaa")),
      ([str "data", str "subdir"], .dir)] }

/-- The filesystem of `TestList_SubDir`: the root holds the directory `docs`, which holds
the file `readme.md` with the bytes `hi`. -/
def listSubDirFS : FS :=
  { cwd := [],
    nodes := [([str "data"], .dir), ([str "data", str "docs"], .dir),
      ([str "data", str "docs", str "readme.md"], .file (str "hi"))] }

/-! ## Names and room the operating system accepts -/

/-- The operating system takes the path name as a name: it holds no zero byte, it is
shorter than `PATH_MAX`, and none of its elements is longer than `NAME_MAX`. -/
def os.nameOK (name : GoString) : Prop :=
  '\x00' ∉ name ∧ name.length < PATH_MAX ∧ ∀ c ∈ components name, c.length ≤ NAME_MAX

instance (name : GoString) : Decidable (os.nameOK name) := by
  unfold os.nameOK
  infer_instance

/-- The device has room for `k` more bytes of file content. -/
def FS.hasRoom (fs : FS) (k : Nat) : Bool :=
  match fs.room with
  | none => true
  | some (n, _) => decide (k ≤ n)

/-! # Theorems -/

/-! ## `safePath` -/

theorem safePath_root (s : Storage) (p : GoString) (h : p = [] ∨ p = ['/']) :
    s.safePath p = .ok s.root := by
  simp [Storage.safePath, h]

theorem safePath_eq (s : Storage) (p : GoString) (h1 : p ≠ []) (h2 : p ≠ ['/']) :
    s.safePath p =
      if strings.HasPrefix (filepath.Clean (filepath.Join [s.root, filepath.FromSlash p])) s.root
      then .ok (filepath.Clean (filepath.Join [s.root, filepath.FromSlash p]))
      else .error storage.ErrPermission := by
  unfold Storage.safePath
  rw [if_neg (by simp [h1, h2])]
  by_cases hb :
      strings.HasPrefix (filepath.Clean (filepath.Join [s.root, filepath.FromSlash p])) s.root = true
  · simp [hb]
  · simp [hb]

theorem safePath_error (s : Storage) (p : GoString) (e : GoError)
    (h : s.safePath p = .error e) : e = storage.ErrPermission := by
  by_cases h0 : p = [] ∨ p = ['/']
  · rw [safePath_root s p h0] at h
    cases h
  · have h1 : p ≠ [] := fun hp => h0 (Or.inl hp)
    have h2 : p ≠ ['/'] := fun hp => h0 (Or.inr hp)
    rw [safePath_eq s p h1 h2] at h
    split at h
    · cases h
    · injection h with h
      exact h.symm

/-- C1 (the code at the failing input): with root `/data`, `safePath("../data-evil/x")`
succeeds and returns `/data-evil/x`, a path that has the root as a string prefix but is
neither the root nor under it at a directory boundary; it is not answered with
`ErrPermission`. -/
theorem C1_safePath_accepts_sibling_sharing_prefix :
    Storage.safePath { root := str "/data" } (str "../data-evil/x") = .ok (str "/data-evil/x") ∧
      strings.HasPrefix (str "/data-evil/x") (str "/data") = true ∧
      insideRoot (str "/data") (str "/data-evil/x") = false := by
  decide

/-- C2: for every root and every requested path other than `""` and `"/"`, if the cleaned
join of root and path does not have the root as a prefix, `safePath` returns
`ErrPermission` and no path. -/
theorem C2_safePath_rejects_unprefixed (s : Storage) (p : GoString)
    (h1 : p ≠ []) (h2 : p ≠ ['/'])
    (h : strings.HasPrefix (filepath.Clean (filepath.Join [s.root, filepath.FromSlash p]))
      s.root = false) :
    s.safePath p = .error storage.ErrPermission := by
  rw [safePath_eq s p h1 h2, h]
  rfl

/-- C2 at the four attack strings of `TestSafePath_BlocksTraversal`, for the root
`/tmp/TestSafePath/001`. -/
theorem C2_safePath_rejects_unprefixed_witness :
    Storage.safePath { root := str "/tmp/TestSafePath/001" } (str "../etc/passwd")
        = .error storage.ErrPermission ∧
      Storage.safePath { root := str "/tmp/TestSafePath/001" } (str "../../etc/shadow")
        = .error storage.ErrPermission ∧
      Storage.safePath { root := str "/tmp/TestSafePath/001" } (str "subdir/../../etc/passwd")
        = .error storage.ErrPermission ∧
      Storage.safePath { root := str "/tmp/TestSafePath/001" } (str "/../../etc/passwd")
        = .error storage.ErrPermission :=
  ⟨C2_safePath_rejects_unprefixed _ _ (by decide) (by decide) (by decide),
   C2_safePath_rejects_unprefixed _ _ (by decide) (by decide) (by decide),
   C2_safePath_rejects_unprefixed _ _ (by decide) (by decide) (by decide),
   C2_safePath_rejects_unprefixed _ _ (by decide) (by decide) (by decide)⟩

/-- C5: when `safePath` fails for a path, each of `List`, `Read`, `Write`, `Delete` and
`Stat` returns `ErrPermission`, whatever the filesystem holds, and hands the filesystem
back unchanged: the check precedes every filesystem access. -/
theorem C5_escape_denied_before_any_access (s : Storage) (p : GoString) (e : GoError)
    (h : s.safePath p = .error e) (r : Reader) (fs : FS) :
    s.List p fs = (.error storage.ErrPermission, fs) ∧
      s.Read p fs = (.error storage.ErrPermission, fs) ∧
      s.Write p r fs = (some storage.ErrPermission, fs) ∧
      s.Delete p fs = (some storage.ErrPermission, fs) ∧
      s.Stat p fs = (.error storage.ErrPermission, fs) := by
  have he := safePath_error s p e h
  subst he
  simp [Storage.List, Storage.Read, Storage.Write, Storage.Delete, Storage.Stat, h]

/-- C5 at the root `/data` holding a file, for the path `../etc/passwd`. -/
theorem C5_escape_denied_before_any_access_witness :
    Storage.safePath { root := str "/data" } (str "../etc/passwd") = .error storage.ErrPermission ∧
      Storage.Write { root := str "/data" } (str "../etc/passwd") ⟨str "x", none⟩
          { cwd := [], nodes := [([str "data"], .dir), ([str "data", str "a.txt"], .file (str "aaa"))] }
        = (some storage.ErrPermission,
          { cwd := [], nodes := [([str "data"], .dir), ([str "data", str "a.txt"], .file (str "aaa"))] }) ∧
      Storage.Delete { root := str "/data" } (str "../etc/passwd")
          { cwd := [], nodes := [([str "data"], .dir), ([str "data", str "a.txt"], .file (str "aaa"))] }
        = (some storage.ErrPermission,
          { cwd := [], nodes := [([str "data"], .dir), ([str "data", str "a.txt"], .file (str "aaa"))] }) :=
  have h := C5_escape_denied_before_any_access { root := str "/data" } (str "../etc/passwd")
    storage.ErrPermission (by decide) ⟨str "x", none⟩
    { cwd := [], nodes := [([str "data"], .dir), ([str "data", str "a.txt"], .file (str "aaa"))] }
  ⟨by decide, h.2.2.1, h.2.2.2.1⟩

open middleware in
theorem containsTraversal_cons (c : Char) (t : GoString) :
    containsTraversal (c :: t) = true ↔
      (c = '.' ∧ t.head? = some '.') ∨ containsTraversal t = true := by
  cases t with
  | nil => simp [containsTraversal, strings.Contains, List.isPrefixOf]
  | cons d t' =>
    simp only [containsTraversal, strings.Contains, List.isPrefixOf, Bool.or_eq_true,
      Bool.and_eq_true, beq_iff_eq, List.head?_cons, Option.some.injEq, Bool.and_true]
    constructor
    · rintro (⟨h1, h2⟩ | h)
      · exact Or.inl ⟨h1.symm, h2.symm⟩
      · exact Or.inr h
    · rintro (⟨h1, h2⟩ | h)
      · exact Or.inl ⟨h1.symm, h2.symm⟩
      · exact Or.inr h

theorem ishex_ne_dot (a : Char) (h : url.ishex a = true) : a ≠ '.' := by
  rintro rfl
  revert h
  decide

theorem ishex_ne_zero (a : Char) (h : url.ishex a = true) : a ≠ '\x00' := by
  rintro rfl
  revert h
  decide

theorem QueryUnescape_cons_ok (c : Char) (t d : GoString)
    (h : url.QueryUnescape (c :: t) = .ok d) :
    (c = '%' ∧ ∃ a b rest r, t = a :: b :: rest ∧ url.ishex a = true ∧ url.ishex b = true ∧
        url.QueryUnescape rest = .ok r ∧ d = Char.ofNat (url.unhex a * 16 + url.unhex b) :: r) ∨
    (c ≠ '%' ∧ ∃ r, url.QueryUnescape t = .ok r ∧ d = (if c = '+' then ' ' else c) :: r) := by
  unfold url.QueryUnescape at h
  by_cases hc : c = '%'
  · left
    refine ⟨hc, ?_⟩
    rw [if_pos hc] at h
    match t, h with
    | [], h => simp at h
    | [_], h => simp at h
    | a :: b :: rest, h =>
      simp only at h
      by_cases hx : (url.ishex a && url.ishex b) = true
      · rw [if_pos hx] at h
        cases hr : url.QueryUnescape rest with
        | error e => rw [hr] at h; simp at h
        | ok r =>
          rw [hr] at h
          simp only [Except.ok.injEq] at h
          simp only [Bool.and_eq_true] at hx
          exact ⟨a, b, rest, r, rfl, hx.1, hx.2, hr, h.symm⟩
      · rw [if_neg hx] at h
        simp at h
  · right
    refine ⟨hc, ?_⟩
    rw [if_neg hc] at h
    cases hr : url.QueryUnescape t with
    | error e => rw [hr] at h; simp at h
    | ok r =>
      rw [hr] at h
      simp only [Except.ok.injEq] at h
      exact ⟨r, rfl, h.symm⟩

open middleware in
theorem QueryUnescape_keeps_traversal_aux (n : Nat) :
    ∀ v d, v.length ≤ n → url.QueryUnescape v = .ok d → containsTraversal v = true →
      containsTraversal d = true := by
  induction n with
  | zero =>
    intro v d hn _ hc
    have : v = [] := List.length_eq_zero.mp (Nat.le_zero.mp hn)
    subst this
    simp [containsTraversal, strings.Contains, List.isPrefixOf] at hc
  | succ n ih =>
    intro v d hn hd hc
    cases v with
    | nil => simp [containsTraversal, strings.Contains, List.isPrefixOf] at hc
    | cons c t =>
      rcases QueryUnescape_cons_ok c t d hd with ⟨hc1, a, b, rest, r, ht, ha, hb, hr, hd'⟩ |
        ⟨hc1, r, hr, hd'⟩
      · subst ht hd' hc1
        rw [containsTraversal_cons] at hc
        rcases hc with ⟨h1, _⟩ | hc
        · exact absurd h1 (by decide)
        rw [containsTraversal_cons] at hc
        rcases hc with ⟨h1, _⟩ | hc
        · exact absurd h1 (ishex_ne_dot a ha)
        rw [containsTraversal_cons] at hc
        rcases hc with ⟨h1, _⟩ | hc
        · exact absurd h1 (ishex_ne_dot b hb)
        rw [containsTraversal_cons]
        right
        exact ih rest r (by simp at hn; omega) hr hc
      · subst hd'
        rw [containsTraversal_cons] at hc
        rw [containsTraversal_cons]
        rcases hc with ⟨h1, h2⟩ | hc
        · left
          subst h1
          refine ⟨by decide, ?_⟩
          cases t with
          | nil => simp at h2
          | cons c2 t2 =>
            simp only [List.head?_cons, Option.some.injEq] at h2
            subst h2
            rcases QueryUnescape_cons_ok _ _ _ hr with ⟨h3, _⟩ | ⟨_, r2, _, hr2⟩
            · exact absurd h3 (by decide)
            · subst hr2
              simp
        · right
          exact ih t r (by simp at hn; omega) hr hc

open middleware in
theorem QueryUnescape_keeps_null_aux (n : Nat) :
    ∀ v d, v.length ≤ n → url.QueryUnescape v = .ok d → containsNullByte v = true →
      containsNullByte d = true := by
  induction n with
  | zero =>
    intro v d hn _ hc
    have : v = [] := List.length_eq_zero.mp (Nat.le_zero.mp hn)
    subst this
    simp [containsNullByte, strings.ContainsRune] at hc
  | succ n ih =>
    intro v d hn hd hc
    cases v with
    | nil => simp [containsNullByte, strings.ContainsRune] at hc
    | cons c t =>
      simp only [containsNullByte, strings.ContainsRune, List.elem_eq_mem, decide_eq_true_eq] at hc ih ⊢
      rcases QueryUnescape_cons_ok c t d hd with ⟨hc1, a, b, rest, r, ht, ha, hb, hr, hd'⟩ |
        ⟨hc1, r, hr, hd'⟩
      · subst ht hd' hc1
        simp only [List.mem_cons] at hc
        rcases hc with h1 | h1 | h1 | h1
        · exact absurd h1 (by decide)
        · exact absurd h1.symm (ishex_ne_zero a ha)
        · exact absurd h1.symm (ishex_ne_zero b hb)
        · exact List.mem_cons_of_mem _ (ih rest r (by simp at hn; omega) hr h1)
      · subst hd'
        simp only [List.mem_cons] at hc
        rcases hc with h1 | h1
        · rw [← h1]
          simp
        · exact List.mem_cons_of_mem _ (ih t r (by simp at hn; omega) hr h1)
/-! ## The path guard -/

open middleware in
theorem QueryUnescape_keeps_traversal (v d : GoString) (h : url.QueryUnescape v = .ok d)
    (hc : containsTraversal v = true) : containsTraversal d = true :=
  QueryUnescape_keeps_traversal_aux v.length v d (Nat.le_refl _) h hc

open middleware in
theorem QueryUnescape_keeps_null (v d : GoString) (h : url.QueryUnescape v = .ok d)
    (hc : containsNullByte v = true) : containsNullByte d = true :=
  QueryUnescape_keeps_null_aux v.length v d (Nat.le_refl _) h hc

open middleware in
theorem writeErrorJSON_status (w : http.ResponseWriter) (code : Nat) (msg : GoString)
    (hw : w.status = none) : (writeErrorJSON w code msg).status = some code := by
  simp [writeErrorJSON, http.ResponseWriter.Write, http.ResponseWriter.WriteHeader,
    http.ResponseWriter.SetHeader, hw]

open middleware in
theorem writeErrorJSON_body (w : http.ResponseWriter) (code : Nat) (msg : GoString) :
    (writeErrorJSON w code msg).body = w.body ++ [.json { Error := msg }] := by
  unfold writeErrorJSON http.ResponseWriter.Write http.ResponseWriter.WriteHeader
    http.ResponseWriter.SetHeader
  cases w.status <;> rfl

open middleware in
theorem PathGuard_rejects (w : http.ResponseWriter) (r : http.Request)
    (hne : r.URL.Query.Get (str "path") ≠ [])
    (h : ∀ d, url.QueryUnescape (r.URL.Query.Get (str "path")) = .ok d →
      containsTraversal d = true ∨ containsNullByte d = true) :
    ∃ msg : GoString, msg ≠ [] ∧
      ∀ (σ : Type) (next : http.Handler σ) (st : σ),
        PathGuard next w r st = (writeErrorJSON w http.StatusBadRequest msg, st) := by
  cases hd : url.QueryUnescape (r.URL.Query.Get (str "path")) with
  | error e =>
    refine ⟨str "invalid path encoding", by decide, ?_⟩
    intro σ next st
    simp only [PathGuard, hne, hd, if_false]
  | ok d =>
    refine ⟨str "invalid path", by decide, ?_⟩
    intro σ next st
    have := h d hd
    simp only [PathGuard, hne, hd, if_false]
    rw [if_pos (by simpa using this)]

open middleware in
/-- C3: when the `path` query value holds `..`, as it stands or once percent-decoded,
`PathGuard` answers with status 400 and a JSON body whose `error` field is not empty,
whatever the next handler is: the next handler is not invoked and the state of the world
behind it is untouched. -/
theorem C3_traversal_rejected_with_400 (w : http.ResponseWriter) (r : http.Request)
    (hw : w.status = none)
    (h : containsTraversal (r.URL.Query.Get (str "path")) = true ∨
      ∃ d, url.QueryUnescape (r.URL.Query.Get (str "path")) = .ok d ∧
        containsTraversal d = true) :
    ∃ msg : GoString, msg ≠ [] ∧
      ∀ (σ : Type) (next : http.Handler σ) (st : σ),
        PathGuard next w r st = (writeErrorJSON w http.StatusBadRequest msg, st) ∧
          (PathGuard next w r st).1.status = some 400 ∧
          (PathGuard next w r st).1.body = w.body ++ [.json { Error := msg }] := by
  have hne : r.URL.Query.Get (str "path") ≠ [] := by
    intro h0
    rw [h0] at h
    rcases h with h | ⟨d, hd, hc⟩
    · exact absurd h (by decide)
    · simp only [url.QueryUnescape, Except.ok.injEq] at hd
      subst hd
      exact absurd hc (by decide)
  have hall : ∀ d, url.QueryUnescape (r.URL.Query.Get (str "path")) = .ok d →
      containsTraversal d = true ∨ containsNullByte d = true := by
    intro d hd
    left
    rcases h with h | ⟨d', hd', hc⟩
    · exact QueryUnescape_keeps_traversal _ _ hd h
    · rw [hd] at hd'
      cases hd'
      exact hc
  obtain ⟨msg, hmsg, hall'⟩ := PathGuard_rejects w r hne hall
  refine ⟨msg, hmsg, fun σ next st => ?_⟩
  rw [hall' σ next st]
  exact ⟨rfl, writeErrorJSON_status w _ msg hw, writeErrorJSON_body w _ msg⟩

open middleware in
/-- C4: when the `path` query value holds a null byte, as it stands or once
percent-decoded, `PathGuard` answers with status 400 and a JSON error body, whatever the
next handler is: the next handler is not invoked. -/
theorem C4_null_byte_rejected_with_400 (w : http.ResponseWriter) (r : http.Request)
    (hw : w.status = none)
    (h : containsNullByte (r.URL.Query.Get (str "path")) = true ∨
      ∃ d, url.QueryUnescape (r.URL.Query.Get (str "path")) = .ok d ∧
        containsNullByte d = true) :
    ∃ msg : GoString, msg ≠ [] ∧
      ∀ (σ : Type) (next : http.Handler σ) (st : σ),
        PathGuard next w r st = (writeErrorJSON w http.StatusBadRequest msg, st) ∧
          (PathGuard next w r st).1.status = some 400 ∧
          (PathGuard next w r st).1.body = w.body ++ [.json { Error := msg }] := by
  have hne : r.URL.Query.Get (str "path") ≠ [] := by
    intro h0
    rw [h0] at h
    rcases h with h | ⟨d, hd, hc⟩
    · exact absurd h (by decide)
    · simp only [url.QueryUnescape, Except.ok.injEq] at hd
      subst hd
      exact absurd hc (by decide)
  have hall : ∀ d, url.QueryUnescape (r.URL.Query.Get (str "path")) = .ok d →
      containsTraversal d = true ∨ containsNullByte d = true := by
    intro d hd
    right
    rcases h with h | ⟨d', hd', hc⟩
    · exact QueryUnescape_keeps_null _ _ hd h
    · rw [hd] at hd'
      cases hd'
      exact hc
  obtain ⟨msg, hmsg, hall'⟩ := PathGuard_rejects w r hne hall
  refine ⟨msg, hmsg, fun σ next st => ?_⟩
  rw [hall' σ next st]
  exact ⟨rfl, writeErrorJSON_status w _ msg hw, writeErrorJSON_body w _ msg⟩
open middleware in
/-- C3 at the request `GET /files?path=%252e%252e/etc/passwd` (double-encoded `..`). -/
theorem C3_traversal_rejected_with_400_witness :
    ∃ msg : GoString, msg ≠ [] ∧
      ∀ (σ : Type) (next : http.Handler σ) (st : σ),
        PathGuard next httptest.NewRecorder
            (httptest.NewRequest (str "GET") (str "/files?path=%252e%252e/etc/passwd")) st
          = (writeErrorJSON httptest.NewRecorder http.StatusBadRequest msg, st) ∧
        (PathGuard next httptest.NewRecorder
            (httptest.NewRequest (str "GET") (str "/files?path=%252e%252e/etc/passwd")) st).1.status
          = some 400 ∧
        (PathGuard next httptest.NewRecorder
            (httptest.NewRequest (str "GET") (str "/files?path=%252e%252e/etc/passwd")) st).1.body
          = httptest.NewRecorder.body ++ [.json { Error := msg }] :=
  C3_traversal_rejected_with_400 httptest.NewRecorder
    (httptest.NewRequest (str "GET") (str "/files?path=%252e%252e/etc/passwd")) rfl
    (Or.inr ⟨str "../etc/passwd", by decide, by decide⟩)

open middleware in
/-- The traversal cases of `TestPathGuard_BlocksTraversal` reach the guard with `..` in
the value, literally or after the decoding of the query string. -/
theorem PathGuard_test_traversal_values :
    containsTraversal ((httptest.NewRequest (str "GET")
        (str "/files?path=../etc/passwd")).URL.Query.Get (str "path")) = true ∧
      containsTraversal ((httptest.NewRequest (str "GET")
        (str "/files?path=%2e%2e/etc/passwd")).URL.Query.Get (str "path")) = true ∧
      containsTraversal ((httptest.NewRequest (str "GET")
        (str "/files?path=%2e%2e%2fetc%2fpasswd")).URL.Query.Get (str "path")) = true ∧
      containsTraversal ((httptest.NewRequest (str "GET")
        (str "/files?path=..%2fetc/passwd")).URL.Query.Get (str "path")) = true := by
  decide

open middleware in
/-- C4 at the request `GET /files?path=file%00.txt`. -/
theorem C4_null_byte_rejected_with_400_witness :
    ∃ msg : GoString, msg ≠ [] ∧
      ∀ (σ : Type) (next : http.Handler σ) (st : σ),
        PathGuard next httptest.NewRecorder
            (httptest.NewRequest (str "GET") (str "/files?path=file%00.txt")) st
          = (writeErrorJSON httptest.NewRecorder http.StatusBadRequest msg, st) ∧
        (PathGuard next httptest.NewRecorder
            (httptest.NewRequest (str "GET") (str "/files?path=file%00.txt")) st).1.status
          = some 400 ∧
        (PathGuard next httptest.NewRecorder
            (httptest.NewRequest (str "GET") (str "/files?path=file%00.txt")) st).1.body
          = httptest.NewRecorder.body ++ [.json { Error := msg }] :=
  C4_null_byte_rejected_with_400 httptest.NewRecorder
    (httptest.NewRequest (str "GET") (str "/files?path=file%00.txt")) rfl
    (Or.inl (by decide))

/-! ## The filesystem map -/

theorem lookupNode_filter_ne (p q : Path) (l : List (Path × Node)) :
    lookupNode q (l.filter (fun e => decide (e.1 ≠ p))) = if q = p then none else lookupNode q l := by
  induction l with
  | nil => simp [lookupNode]
  | cons e rest ih =>
    by_cases he : e.1 = p
    · have : List.filter (fun e => decide (e.1 ≠ p)) (e :: rest)
          = List.filter (fun e => decide (e.1 ≠ p)) rest := by
        simp [List.filter, he]
      rw [this, ih]
      by_cases hq : q = p
      · simp [hq]
      · have hne : e.1 ≠ q := fun h => hq (h.symm.trans he)
        simp [hq, lookupNode, hne]
    · have : List.filter (fun e => decide (e.1 ≠ p)) (e :: rest)
          = e :: List.filter (fun e => decide (e.1 ≠ p)) rest := by
        simp [List.filter, he]
      rw [this]
      simp only [lookupNode, ih]
      by_cases hq : q = p
      · have hne : e.1 ≠ q := fun h => he (h.trans hq)
        simp [hq, hne, he]
      · simp [hq]

theorem FS.get_nil (fs : FS) : fs.get [] = some .dir := by
  simp [FS.get]

theorem FS.get_set (fs : FS) (p q : Path) (n : Node) :
    (fs.set p n).get q = if q = [] then some .dir else if q = p then some n else fs.get q := by
  by_cases h0 : q = []
  · simp [FS.get, h0]
  · simp only [FS.get, FS.set, h0, if_false, lookupNode]
    rw [lookupNode_filter_ne]
    by_cases hq : q = p
    · simp [hq]
    · have : p ≠ q := fun h => hq h.symm
      simp [hq, this]

theorem FS.get_erase (fs : FS) (p q : Path) :
    (fs.erase p).get q = if q = [] then some .dir else if q = p then none else fs.get q := by
  by_cases h0 : q = []
  · simp [FS.get, h0]
  · simp only [FS.get, FS.erase, h0, if_false, lookupNode_filter_ne]

theorem FS.cwd_set (fs : FS) (p : Path) (n : Node) : (fs.set p n).cwd = fs.cwd := rfl

theorem FS.cwd_erase (fs : FS) (p : Path) : (fs.erase p).cwd = fs.cwd := rfl

theorem FS.walk_erase (fs : FS) (target : Path) (ht : target ≠ []) (comps : List Name) :
    ∀ cur, fs.walk cur comps = .ok target →
      (fs.erase target).walk cur comps = .ok target ∨
        (fs.erase target).walk cur comps = .error .ENOENT := by
  induction comps with
  | nil =>
    intro cur h
    left
    simpa [FS.walk] using h
  | cons c rest ih =>
    intro cur h
    unfold FS.walk at h ⊢
    by_cases hcur : cur = target
    · right
      have : (fs.erase target).get cur = none := by
        rw [FS.get_erase, hcur]
        simp [ht]
      rw [this]
    · have hget : (fs.erase target).get cur = fs.get cur := by
        rw [FS.get_erase]
        by_cases h0 : cur = []
        · simp [h0, FS.get_nil]
        · simp [h0, hcur]
      rw [hget]
      cases hg : fs.get cur with
      | none => rw [hg] at h; cases h
      | some n =>
        rw [hg] at h
        cases n with
        | file d => cases h
        | dir =>
          simp only at h ⊢
          split
          · rename_i hc
            rw [if_pos hc] at h
            exact ih _ h
          · rename_i hc
            rw [if_neg hc] at h
            split
            · rename_i hc2
              rw [if_pos hc2] at h
              exact ih _ h
            · rename_i hc2
              rw [if_neg hc2] at h
              exact ih _ h

theorem FS.lstat_erase (fs : FS) (name : GoString) (target : Path) (ht : target ≠ [])
    (h : fs.resolve name = .ok target) : (fs.erase target).lstat name = .error .ENOENT := by
  unfold FS.lstat
  unfold FS.resolve at h ⊢
  by_cases hn : name = []
  · simp [hn] at h
  · rw [if_neg hn] at h ⊢
    rw [FS.cwd_erase]
    rcases FS.walk_erase fs target ht _ _ h with h1 | h1
    · rw [h1]
      simp only
      rw [FS.get_erase]
      simp [ht]
    · rw [h1]

theorem FS.lstat_ok (fs : FS) (name : GoString) (p : Path) (n : Node)
    (h : fs.lstat name = .ok (p, n)) : fs.resolve name = .ok p ∧ fs.get p = some n := by
  unfold FS.lstat at h
  cases hr : fs.resolve name with
  | error e => rw [hr] at h; cases h
  | ok q =>
    rw [hr] at h
    simp only at h
    cases hg : fs.get q with
    | none => rw [hg] at h; cases h
    | some m =>
      rw [hg] at h
      cases m with
      | file d =>
        simp only at h
        split at h
        · cases h
        · cases h
          exact ⟨rfl, hg⟩
      | dir =>
        cases h
        exact ⟨rfl, hg⟩

/-! ## `mapError` -/

theorem mapError_PathError_ENOENT (op : String) (name : GoString) :
    mapError (.PathError op name .ENOENT) = storage.ErrNotFound := by
  simp [mapError, os.IsNotExist, os.underlyingError]

theorem mapError_PathError_ENOTDIR (op : String) (name : GoString) :
    mapError (.PathError op name .ENOTDIR) = .PathError op name .ENOTDIR := by
  simp [mapError, os.IsNotExist, os.IsPermission, os.underlyingError, os.ErrNotExist,
    os.ErrPermission]

/-! ## The backend operations -/

theorem os.Remove_ok (fs fs1 : FS) (name : GoString) (h : os.Remove fs name = (none, fs1)) :
    fs1.lstat name = .error .ENOENT := by
  unfold os.Remove at h
  cases hls : fs.lstat name with
  | error e => rw [hls] at h; cases h
  | ok pn =>
    obtain ⟨q, n⟩ := pn
    have hq := FS.lstat_ok fs name q n hls
    rw [hls] at h
    cases n with
    | file d =>
      simp only at h
      have hq0 : q ≠ [] := by
        intro h0
        rw [h0, FS.get_nil] at hq
        cases hq.2
      cases h
      exact FS.lstat_erase fs name q hq0 hq.1
    | dir =>
      simp only at h
      by_cases hq0 : q = []
      · rw [if_pos hq0] at h
        cases h
      · rw [if_neg hq0] at h
        split at h
        · cases h
        · cases h
          exact FS.lstat_erase fs name q hq0 hq.1

theorem mapError_PathError_eq_ErrNotFound (op : String) (name : GoString) (e : Errno)
    (h : mapError (.PathError op name e) = storage.ErrNotFound) : e = .ENOENT := by
  cases e <;>
    first
    | rfl
    | (simp [mapError, os.IsNotExist, os.IsPermission, os.underlyingError, os.ErrNotExist,
        os.ErrPermission, storage.ErrNotFound, storage.ErrPermission] at h)

theorem os.Remove_not_found (fs fs1 : FS) (name : GoString) (err : GoError)
    (h : os.Remove fs name = (some err, fs1)) (hm : mapError err = storage.ErrNotFound) :
    fs1 = fs ∧ fs.lstat name = .error .ENOENT := by
  unfold os.Remove at h
  cases hls : fs.lstat name with
  | error e =>
    rw [hls] at h
    cases h
    exact ⟨rfl, by rw [mapError_PathError_eq_ErrNotFound _ _ e hm]⟩
  | ok pn =>
    obtain ⟨q, n⟩ := pn
    rw [hls] at h
    cases n with
    | file d => cases h
    | dir =>
      simp only at h
      split at h
      · cases h
        exact absurd (mapError_PathError_eq_ErrNotFound _ _ _ hm) (by decide)
      · split at h
        · cases h
          exact absurd (mapError_PathError_eq_ErrNotFound _ _ _ hm) (by decide)
        · cases h

/-- C8: once `Delete(p)` has removed the entry at `p` (it returned no error), and also
when it found nothing to remove there (it returned `ErrNotFound`), `Stat(p)` on the
filesystem `Delete` leaves yields `ErrNotFound`. -/
theorem C8_delete_then_stat_not_found (s : Storage) (p : GoString) (fs : FS)
    (h : (s.Delete p fs).1 = none ∨ (s.Delete p fs).1 = some storage.ErrNotFound) :
    s.Stat p (s.Delete p fs).2 = (.error storage.ErrNotFound, (s.Delete p fs).2) := by
  unfold Storage.Delete at h ⊢
  unfold Storage.Stat
  cases hp : s.safePath p with
  | error e =>
    rw [hp] at h
    have := safePath_error s p e hp
    subst this
    simp only at h
    rcases h with h | h
    · cases h
    · simp [storage.ErrPermission, storage.ErrNotFound] at h
  | ok full =>
    rw [hp] at h
    simp only at h ⊢
    cases hr : os.Remove fs full with
    | mk e fs2 =>
      rw [hr] at h
      cases e with
      | none =>
        simp only [os.Stat, os.Remove_ok fs fs2 full hr, mapError_PathError_ENOENT]
      | some err =>
        simp only at h ⊢
        rcases h with h | h
        · cases h
        · have hm : mapError err = storage.ErrNotFound := by
            simpa using h
          obtain ⟨rfl, hl⟩ := os.Remove_not_found fs fs2 full err hr hm
          simp only [os.Stat, hl, mapError_PathError_ENOENT]

/-- C8 at the root `/data` holding the file `doomed.txt`. -/
theorem C8_delete_then_stat_not_found_witness :
    Storage.Delete newTestStorage (str "doomed.txt")
        (rootWithFile (str "doomed.txt") (str "bye")) = (none, emptyRootFS) ∧
    Storage.Stat newTestStorage (str "doomed.txt")
        (Storage.Delete newTestStorage (str "doomed.txt")
          (rootWithFile (str "doomed.txt") (str "bye"))).2
      = (.error storage.ErrNotFound,
        (Storage.Delete newTestStorage (str "doomed.txt")
          (rootWithFile (str "doomed.txt") (str "bye"))).2) :=
  ⟨by decide, C8_delete_then_stat_not_found newTestStorage (str "doomed.txt")
    (rootWithFile (str "doomed.txt") (str "bye")) (Or.inl (by decide))⟩

/-- C9 as stated fails: in the root `/data` holding the regular file `a`, nothing exists
at `a/b`, yet `Read`, `Stat` and `Delete` return the operating system's not-a-directory
error as it is, which is not `ErrNotFound`. -/
theorem C9_path_below_a_file_is_not_ErrNotFound :
    Storage.safePath newTestStorage (str "a/b") = .ok (str "/data/a/b") ∧
      FS.existsAt (rootWithFile (str "a") (str "x")) (str "/data/a/b") = false ∧
      (Storage.Read newTestStorage (str "a/b")
          (rootWithFile (str "a") (str "x"))).1
        = .error (.PathError "open" (str "/data/a/b") .ENOTDIR) ∧
      (Storage.Stat newTestStorage (str "a/b")
          (rootWithFile (str "a") (str "x"))).1
        = .error (.PathError "stat" (str "/data/a/b") .ENOTDIR) ∧
      (Storage.Delete newTestStorage (str "a/b")
          (rootWithFile (str "a") (str "x"))).1
        = some (.PathError "remove" (str "/data/a/b") .ENOTDIR) ∧
      errors.Is (.PathError "open" (str "/data/a/b") .ENOTDIR) storage.ErrNotFound = false ∧
      errors.Is (.PathError "stat" (str "/data/a/b") .ENOTDIR) storage.ErrNotFound = false ∧
      errors.Is (.PathError "remove" (str "/data/a/b") .ENOTDIR) storage.ErrNotFound = false := by
  decide

/-- C9, amended: for a path inside the root at which nothing exists and which the
operating system reports as not existing (no directory on the way to it is a regular
file), `Read`, `Stat` and `Delete` each return `ErrNotFound`, with no stream and no
`FileInfo`, and leave the filesystem unchanged. -/
theorem C9_missing_path_is_ErrNotFound (s : Storage) (p full : GoString) (fs : FS)
    (hp : s.safePath p = .ok full) (hm : fs.lstat full = .error .ENOENT) :
    s.Read p fs = (.error storage.ErrNotFound, fs) ∧
      s.Stat p fs = (.error storage.ErrNotFound, fs) ∧
      s.Delete p fs = (some storage.ErrNotFound, fs) ∧
      errors.Is storage.ErrNotFound storage.ErrNotFound = true := by
  refine ⟨?_, ?_, ?_, by decide⟩
  · simp only [Storage.Read, hp, os.Open, hm, mapError_PathError_ENOENT]
  · simp only [Storage.Stat, hp, os.Stat, hm, mapError_PathError_ENOENT]
  · simp only [Storage.Delete, hp, os.Remove, hm, mapError_PathError_ENOENT]

/-- C9, amended, at the empty root `/data` and the paths `missing.txt` and
`no/such/file`. -/
theorem C9_missing_path_is_ErrNotFound_witness :
    (Storage.Read newTestStorage (str "missing.txt")
          emptyRootFS
        = (.error storage.ErrNotFound, emptyRootFS) ∧
      Storage.Stat newTestStorage (str "missing.txt")
          emptyRootFS
        = (.error storage.ErrNotFound, emptyRootFS) ∧
      Storage.Delete newTestStorage (str "missing.txt")
          emptyRootFS
        = (some storage.ErrNotFound, emptyRootFS) ∧
      errors.Is storage.ErrNotFound storage.ErrNotFound = true) ∧
    (Storage.Read newTestStorage (str "no/such/file")
          emptyRootFS
        = (.error storage.ErrNotFound, emptyRootFS) ∧
      Storage.Stat newTestStorage (str "no/such/file")
          emptyRootFS
        = (.error storage.ErrNotFound, emptyRootFS) ∧
      Storage.Delete newTestStorage (str "no/such/file")
          emptyRootFS
        = (some storage.ErrNotFound, emptyRootFS) ∧
      errors.Is storage.ErrNotFound storage.ErrNotFound = true) :=
  ⟨C9_missing_path_is_ErrNotFound newTestStorage (str "missing.txt")
      (str "/data/missing.txt") emptyRootFS (by decide) (by decide),
   C9_missing_path_is_ErrNotFound newTestStorage (str "no/such/file")
      (str "/data/no/such/file") emptyRootFS (by decide) (by decide)⟩

/-- C10 as stated fails: in the root `/data` holding the regular file `a.txt`,
`List("a.txt")` returns the operating system's not-a-directory error as it is, which is
not `ErrNotFound`. -/
theorem C10_list_of_a_file_is_not_ErrNotFound :
    Storage.safePath newTestStorage (str "a.txt") = .ok (str "/data/a.txt") ∧
      FS.existsAt (rootWithFile (str "a.txt") (str "aaa")) (str "/data/a.txt") = true ∧
      (Storage.List newTestStorage (str "a.txt")
          (rootWithFile (str "a.txt") (str "aaa"))).1
        = .error (.PathError "readdirent" (str "/data/a.txt") .ENOTDIR) ∧
      errors.Is (.PathError "readdirent" (str "/data/a.txt") .ENOTDIR) storage.ErrNotFound
        = false := by
  decide

/-- C10, amended: for a path inside the root, `List` returns `ErrNotFound` when the
operating system reports the path as not existing; when the path is a regular file,
`List` returns an error and no entries, and the error is the operating system's
not-a-directory error, which is not `ErrNotFound`. The filesystem is unchanged. -/
theorem C10_list_missing_or_file (s : Storage) (p full : GoString) (fs : FS)
    (hp : s.safePath p = .ok full) :
    (fs.lstat full = .error .ENOENT → s.List p fs = (.error storage.ErrNotFound, fs)) ∧
      (∀ loc d, fs.lstat full = .ok (loc, .file d) →
        ∃ op, s.List p fs = (.error (.PathError op full .ENOTDIR), fs) ∧
          errors.Is (.PathError op full .ENOTDIR) storage.ErrNotFound = false) := by
  constructor
  · intro hm
    simp only [Storage.List, hp, os.ReadDir, hm, mapError_PathError_ENOENT]
  · intro loc d hf
    refine ⟨"readdirent", ?_, ?_⟩
    · simp only [Storage.List, hp, os.ReadDir, hf, mapError_PathError_ENOTDIR]
    · simp [errors.Is, storage.ErrNotFound]

/-- C10, amended, at the root `/data` holding the regular file `a.txt`, for the paths
`nonexistent` and `a.txt`. -/
theorem C10_list_missing_or_file_witness :
    Storage.List newTestStorage (str "nonexistent")
        (rootWithFile (str "a.txt") (str "aaa"))
      = (.error storage.ErrNotFound,
        (rootWithFile (str "a.txt") (str "aaa"))) ∧
    ∃ op, Storage.List newTestStorage (str "a.txt")
        (rootWithFile (str "a.txt") (str "aaa"))
      = (.error (.PathError op (str "/data/a.txt") .ENOTDIR),
        (rootWithFile (str "a.txt") (str "aaa"))) ∧
      errors.Is (.PathError op (str "/data/a.txt") .ENOTDIR) storage.ErrNotFound = false :=
  ⟨(C10_list_missing_or_file newTestStorage (str "nonexistent")
      (str "/data/nonexistent") (rootWithFile (str "a.txt") (str "aaa")) (by decide)).1 (by decide),
   (C10_list_missing_or_file newTestStorage (str "a.txt")
      (str "/data/a.txt") (rootWithFile (str "a.txt") (str "aaa")) (by decide)).2 [str "data", str "a.txt"] (str "aaa") (by decide)⟩

/-! ## Splitting a path name into its elements -/

theorem takeWhile_sep_cons (c : Char) (t : GoString) (hc : c ≠ '/') :
    (c :: t).takeWhile (· != '/') = c :: t.takeWhile (· != '/') :=
  List.takeWhile_cons_of_pos (by simpa using hc)

theorem dropWhile_sep_cons (c : Char) (t : GoString) (hc : c ≠ '/') :
    (c :: t).dropWhile (· != '/') = t.dropWhile (· != '/') :=
  List.dropWhile_cons_of_pos (by simpa using hc)

theorem dropWhile_sep_length (l : GoString) : (l.dropWhile (· != '/')).length ≤ l.length :=
  (List.dropWhile_suffix _).length_le

theorem dropWhile_sep_head (l : GoString) :
    l.dropWhile (· != '/') = [] ∨ ∃ t, l.dropWhile (· != '/') = '/' :: t := by
  induction l with
  | nil => left; rfl
  | cons c t ih =>
    by_cases hc : c = '/'
    · right
      exact ⟨t, by simp [List.dropWhile, hc]⟩
    · rw [dropWhile_sep_cons c t hc]
      exact ih

theorem takeWhile_sep_not_mem (l : GoString) : '/' ∉ l.takeWhile (· != '/') := by
  intro h
  have := List.mem_takeWhile_imp h
  simp at this

theorem splitElems_eq (l : GoString) : ∀ acc : List Char,
    splitElems l acc =
      if acc.reverse ++ l.takeWhile (· != '/') = [] then
        components (l.dropWhile (· != '/')).tail
      else (acc.reverse ++ l.takeWhile (· != '/')) :: components (l.dropWhile (· != '/')).tail := by
  induction l with
  | nil =>
    intro acc
    by_cases ha : acc = []
    · simp [splitElems, components, ha]
    · simp [splitElems, components, ha]
  | cons c t ih =>
    intro acc
    by_cases hc : c = '/'
    · subst hc
      by_cases ha : acc = []
      · simp [splitElems, components, ha]
      · simp [splitElems, components, ha]
    · rw [takeWhile_sep_cons c t hc, dropWhile_sep_cons c t hc]
      unfold splitElems
      rw [if_neg hc, ih (c :: acc)]
      simp

theorem components_nil : components [] = [] := by
  simp [components, splitElems]

theorem components_sep (t : GoString) : components ('/' :: t) = components t := by
  simp [components, splitElems]

theorem components_tail_dropWhile (l : GoString) :
    components (l.dropWhile (· != '/')).tail = components (l.dropWhile (· != '/')) := by
  rcases dropWhile_sep_head l with h | ⟨t, h⟩
  · rw [h]
    rfl
  · rw [h, components_sep]
    rfl

theorem components_cons (c : Char) (t : GoString) (hc : c ≠ '/') :
    components (c :: t) =
      (c :: t.takeWhile (· != '/')) :: components (t.dropWhile (· != '/')) := by
  have := splitElems_eq (c :: t) []
  rw [takeWhile_sep_cons c t hc, dropWhile_sep_cons c t hc, components_tail_dropWhile] at this
  simpa [components] using this

/-- Every element of a path name is non-empty and holds no separator. -/
theorem components_good (n : Nat) : ∀ l : GoString, l.length ≤ n →
    ∀ e ∈ components l, e ≠ [] ∧ '/' ∉ e := by
  induction n with
  | zero =>
    intro l hl e he
    have : l = [] := List.length_eq_zero.mp (Nat.le_zero.mp hl)
    subst this
    simp [components_nil] at he
  | succ n ih =>
    intro l hl e he
    cases l with
    | nil => simp [components_nil] at he
    | cons c t =>
      by_cases hc : c = '/'
      · subst hc
        rw [components_sep] at he
        exact ih t (by simp at hl; omega) e he
      · rw [components_cons c t hc] at he
        rcases List.mem_cons.mp he with h | h
        · subst h
          refine ⟨by simp, ?_⟩
          intro hm
          rcases List.mem_cons.mp hm with h1 | h1
          · exact hc h1.symm
          · exact takeWhile_sep_not_mem t h1
        · refine ih _ ?_ e h
          have := dropWhile_sep_length t
          simp at hl
          omega
theorem takeWhile_sep_eq_nil (t : GoString) :
    t.takeWhile (· != '/') = [] ↔ t = [] ∨ t.head? = some '/' := by
  cases t with
  | nil => simp
  | cons d t' =>
    by_cases hd : d = '/'
    · subst hd
      simp
    · rw [takeWhile_sep_cons d t' hd]
      simp [hd]

theorem dropWhile_sep_of_boundary (t : GoString) (h : t = [] ∨ t.head? = some '/') :
    t.dropWhile (· != '/') = t := by
  cases t with
  | nil => rfl
  | cons d t' =>
    rcases h with h | h
    · cases h
    · simp only [List.head?_cons, Option.some.injEq] at h
      subst h
      simp

theorem takeWhile_sep_eq_dot (t : GoString) :
    t.takeWhile (· != '/') = ['.'] ↔
      t.head? = some '.' ∧ (t.tail = [] ∨ t.tail.head? = some '/') := by
  cases t with
  | nil => simp
  | cons d t' =>
    by_cases hd : d = '/'
    · subst hd
      simp
    · rw [takeWhile_sep_cons d t' hd]
      simp only [List.cons.injEq, List.head?_cons, Option.some.injEq, List.tail_cons,
        takeWhile_sep_eq_nil]

/-! ## `Clean` on rooted paths -/

theorem outAbs_ne_nil (st : List Name) : path.outAbs st ≠ [] := by
  cases st with
  | nil => simp [path.outAbs]
  | cons e st =>
    unfold path.outAbs
    split <;> simp

theorem outAbs_cons (e : Name) (st : List Name) :
    path.outAbs (e :: st) = e.reverse ++ (if st = [] then ['/'] else '/' :: path.outAbs st) := by
  simp [path.outAbs]

theorem outAbs_length_one (st : List Name) (h : ∀ e ∈ st, e ≠ [] ∧ '/' ∉ e) :
    (path.outAbs st).length = 1 ↔ st = [] := by
  cases st with
  | nil => simp [path.outAbs]
  | cons e st =>
    have he := (h e (List.mem_cons_self _ _)).1
    have hl : 0 < e.length := List.length_pos.mpr he
    constructor
    · intro h1
      rw [outAbs_cons] at h1
      split at h1
      · rw [List.length_append, List.length_reverse] at h1
        simp only [List.length_cons, List.length_nil] at h1
        omega
      · rw [List.length_append, List.length_reverse] at h1
        simp only [List.length_cons] at h1
        omega
    · intro h1
      cases h1

theorem backtrack_elem_root (l : List Char) (hl : l ≠ []) (hs : '/' ∉ l) :
    path.backtrack 1 (l ++ ['/']) = ['/'] := by
  induction l with
  | nil => exact absurd rfl hl
  | cons c l ih =>
    have hc : c ≠ '/' := fun h => hs (h ▸ List.mem_cons_self _ _)
    have hs' : '/' ∉ l := fun h => hs (List.mem_cons_of_mem _ h)
    cases l with
    | nil => simp [path.backtrack]
    | cons c' l' =>
      have : path.backtrack 1 (c :: (c' :: l') ++ ['/']) = path.backtrack 1 ((c' :: l') ++ ['/']) := by
        simp [path.backtrack, hc]
      rw [this]
      exact ih (by simp) hs'

theorem backtrack_elem_sub (l Y : List Char) (hl : l ≠ []) (hs : '/' ∉ l) (hY : Y ≠ []) :
    path.backtrack 1 (l ++ '/' :: Y) = Y := by
  have hYl : 0 < Y.length := List.length_pos.mpr hY
  induction l with
  | nil => exact absurd rfl hl
  | cons c l ih =>
    have hc : c ≠ '/' := fun h => hs (h ▸ List.mem_cons_self _ _)
    have hs' : '/' ∉ l := fun h => hs (List.mem_cons_of_mem _ h)
    cases l with
    | nil =>
      have h1 : 1 < ('/' :: Y).length := by simp; omega
      simp only [List.nil_append, List.cons_append, path.backtrack]
      rw [if_pos ⟨h1, hc⟩, if_neg (by simp)]
    | cons c' l' =>
      have h1 : 1 < ((c' :: l') ++ '/' :: Y).length := by
        simp only [List.length_append, List.length_cons]
        omega
      have : path.backtrack 1 (c :: (c' :: l') ++ '/' :: Y)
          = path.backtrack 1 ((c' :: l') ++ '/' :: Y) := by
        simp only [List.cons_append, path.backtrack]
        rw [if_pos ⟨by simp, hc⟩]
      rw [this]
      exact ih (by simp) hs'

theorem backtrack_outAbs (e : Name) (st : List Name) (he : e ≠ []) (hs : '/' ∉ e) :
    path.backtrack 1 (path.outAbs (e :: st)) = path.outAbs st := by
  have he' : e.reverse ≠ [] := by simpa using he
  have hs' : '/' ∉ e.reverse := by simpa using hs
  rw [outAbs_cons]
  split
  · rename_i h
    subst h
    rw [backtrack_elem_root _ he' hs']
    rfl
  · rw [backtrack_elem_sub _ _ he' hs' (outAbs_ne_nil st)]

theorem cleanLoop_rooted (fuel : Nat) : ∀ (rest : GoString) (st : List Name),
    rest.length ≤ fuel → (∀ e ∈ st, e ≠ [] ∧ '/' ∉ e) →
    path.cleanLoop true fuel rest (path.outAbs st) 1
      = path.outAbs (path.normAbs st (components rest)) := by
  induction fuel with
  | zero =>
    intro rest st hl _
    have : rest = [] := List.length_eq_zero.mp (Nat.le_zero.mp hl)
    subst this
    simp [path.cleanLoop, components_nil, path.normAbs]
  | succ n ih =>
    intro rest st hl hst
    cases rest with
    | nil => simp [path.cleanLoop, components_nil, path.normAbs]
    | cons c t =>
      have hlt : t.length ≤ n := by simp at hl; omega
      rw [path.cleanLoop]
      by_cases hc : c = '/'
      · rw [if_pos hc]
        subst hc
        rw [components_sep]
        exact ih t st hlt hst
      · rw [if_neg hc, components_cons c t hc]
        by_cases h1 : c = '.' ∧ (t = [] ∨ t.head? = some '/')
        · rw [if_pos h1]
          rw [(takeWhile_sep_eq_nil t).mpr h1.2, dropWhile_sep_of_boundary t h1.2, h1.1]
          simp only [path.normAbs, if_true]
          exact ih t st hlt hst
        · rw [if_neg h1]
          by_cases h2 : c = '.' ∧ t.head? = some '.' ∧ (t.tail = [] ∨ t.tail.head? = some '/')
          · rw [if_pos h2]
            have htl : t.tail.length ≤ n := by
              have := List.length_tail t
              omega
            have hdrop : t.dropWhile (· != '/') = t.tail := by
              cases t with
              | nil => simp at h2
              | cons d t' =>
                have hd : d = '.' := by simpa using h2.2.1
                subst hd
                rw [dropWhile_sep_cons _ _ (by decide)]
                exact dropWhile_sep_of_boundary t' (by simpa using h2.2.2)
            rw [(takeWhile_sep_eq_dot t).mpr h2.2, hdrop, h2.1]
            have hn : path.normAbs st (['.', '.'] :: components t.tail)
                = path.normAbs st.tail (components t.tail) := by
              simp [path.normAbs]
            rw [hn]
            cases st with
            | nil =>
              simp only [path.outAbs, List.length_singleton, gt_iff_lt, Nat.lt_irrefl, if_false,
                Bool.true_eq_false, List.tail_nil]
              exact ih t.tail [] htl hst
            | cons e st' =>
              have hgt : (path.outAbs (e :: st')).length > 1 := by
                have h0 := outAbs_length_one (e :: st') hst
                have h3 := List.length_pos.mpr (outAbs_ne_nil (e :: st'))
                have : (path.outAbs (e :: st')).length ≠ 1 := fun h => by simpa using h0.mp h
                omega
              rw [if_pos hgt, backtrack_outAbs e st' (hst e (List.mem_cons_self _ _)).1
                (hst e (List.mem_cons_self _ _)).2]
              exact ih t.tail st' htl (fun x hx => hst x (List.mem_cons_of_mem _ hx))
          · rw [if_neg h2]
            have he1 : c :: t.takeWhile (· != '/') ≠ ['.'] := by
              intro h
              simp only [List.cons.injEq] at h
              exact h1 ⟨h.1, (takeWhile_sep_eq_nil t).mp h.2⟩
            have he2 : c :: t.takeWhile (· != '/') ≠ ['.', '.'] := by
              intro h
              simp only [List.cons.injEq] at h
              exact h2 ⟨h.1, (takeWhile_sep_eq_dot t).mp (by simp [h.2])⟩
            have hn : path.normAbs st ((c :: t.takeWhile (· != '/')) :: components (t.dropWhile (· != '/')))
                = path.normAbs ((c :: t.takeWhile (· != '/')) :: st)
                    (components (t.dropWhile (· != '/'))) := by
              simp only [path.normAbs, if_neg he1, if_neg he2]
            rw [hn, takeWhile_sep_cons c t hc, dropWhile_sep_cons c t hc]
            have hout : (c :: t.takeWhile (· != '/')).reverse ++
                (if (true = true ∧ (path.outAbs st).length ≠ 1) ∨
                    (true = false ∧ (path.outAbs st).length ≠ 0)
                  then '/' :: path.outAbs st else path.outAbs st)
                = path.outAbs ((c :: t.takeWhile (· != '/')) :: st) := by
              have h0 := outAbs_length_one st hst
              by_cases hst0 : st = []
              · subst hst0
                simp [path.outAbs]
              · have : (path.outAbs st).length ≠ 1 := fun h => hst0 (h0.mp h)
                simp [path.outAbs, hst0, this]
            dsimp only
            rw [hout]
            refine ih _ _ ?_ ?_
            · have := dropWhile_sep_length t
              omega
            · intro x hx
              rcases List.mem_cons.mp hx with h | h
              · subst h
                refine ⟨by simp, ?_⟩
                intro hm
                rcases List.mem_cons.mp hm with h3 | h3
                · exact hc h3.symm
                · exact takeWhile_sep_not_mem t h3
              · exact hst x h
theorem Clean_rooted (t : GoString) :
    path.Clean ('/' :: t) = (path.outAbs (path.normAbs [] (components t))).reverse := by
  have h := cleanLoop_rooted (t.length + 1) t [] (Nat.le_succ _) (by simp)
  have h0 : path.outAbs [] = ['/'] := rfl
  rw [h0] at h
  unfold path.Clean
  simp only [List.cons_ne_nil, if_false, List.head?_cons, decide_True, if_true, List.tail_cons,
    List.length_cons, h]
  rw [if_neg]
  intro hl
  exact outAbs_ne_nil _ (List.length_eq_zero.mp hl)

theorem joinSep_append_singleton (l : List GoString) (e : GoString) (hl : l ≠ []) :
    filepath.joinSep (l ++ [e]) = filepath.joinSep l ++ '/' :: e := by
  induction l with
  | nil => exact absurd rfl hl
  | cons a l ih =>
    cases l with
    | nil => simp [filepath.joinSep, filepath.Separator]
    | cons b l' =>
      have h1 : filepath.joinSep (a :: b :: l' ++ [e])
          = a ++ '/' :: filepath.joinSep (b :: l' ++ [e]) := rfl
      have h2 : filepath.joinSep (a :: b :: l') = a ++ '/' :: filepath.joinSep (b :: l') := rfl
      rw [h1, h2, ih (by simp)]
      simp

theorem reverse_outAbs (st : List Name) : (path.outAbs st).reverse = os.pathName st.reverse := by
  induction st with
  | nil => rfl
  | cons e st ih =>
    rw [outAbs_cons]
    by_cases hst : st = []
    · subst hst
      simp [os.pathName, filepath.joinSep]
    · rw [if_neg hst, List.reverse_append, List.reverse_cons, ih, List.reverse_reverse,
        List.reverse_cons]
      have hr : st.reverse ≠ [] := by simpa using hst
      simp [os.pathName, joinSep_append_singleton _ _ hr]

theorem normAbs_regular (cs : List Name) : ∀ st : List Name,
    (∀ e ∈ st, Regular e) → (∀ e ∈ cs, e ≠ [] ∧ '/' ∉ e) →
    ∀ e ∈ path.normAbs st cs, Regular e := by
  induction cs with
  | nil =>
    intro st hst _
    simpa [path.normAbs] using hst
  | cons c cs ih =>
    intro st hst hcs
    have hcs' : ∀ e ∈ cs, e ≠ [] ∧ '/' ∉ e := fun e he => hcs e (List.mem_cons_of_mem _ he)
    unfold path.normAbs
    split
    · exact ih st hst hcs'
    · split
      · exact ih st.tail (fun e he => hst e (List.mem_of_mem_tail he)) hcs'
      · rename_i h1 h2
        refine ih (c :: st) ?_ hcs'
        intro e he
        rcases List.mem_cons.mp he with h | h
        · subst h
          exact ⟨(hcs e (List.mem_cons_self _ _)).1, (hcs e (List.mem_cons_self _ _)).2, h1, h2⟩
        · exact hst e h

theorem normAbs_of_regular (cs : List Name) : ∀ st : List Name,
    (∀ e ∈ cs, Regular e) → path.normAbs st cs = cs.reverse ++ st := by
  induction cs with
  | nil =>
    intro st _
    simp [path.normAbs]
  | cons c cs ih =>
    intro st hcs
    have hc := hcs c (List.mem_cons_self _ _)
    unfold path.normAbs
    rw [if_neg hc.2.2.1, if_neg hc.2.2.2, ih _ (fun e he => hcs e (List.mem_cons_of_mem _ he))]
    simp

/-- Cleaning a rooted path gives `/` followed by regular elements joined with `/`. -/
theorem Clean_rooted_pathName (t : GoString) :
    ∃ cs : List Name, (∀ e ∈ cs, Regular e) ∧ path.Clean ('/' :: t) = os.pathName cs := by
  refine ⟨(path.normAbs [] (components t)).reverse, ?_, ?_⟩
  · intro e he
    exact normAbs_regular (components t) [] (by simp)
      (components_good t.length t (Nat.le_refl _)) e (List.mem_reverse.mp he)
  · rw [Clean_rooted, reverse_outAbs]

theorem takeWhile_sep_append (e sfx : GoString) (he : '/' ∉ e)
    (hs : sfx = [] ∨ sfx.head? = some '/') : (e ++ sfx).takeWhile (· != '/') = e := by
  rw [List.takeWhile_append_of_pos, (takeWhile_sep_eq_nil sfx).mpr hs, List.append_nil]
  intro a ha
  have : a ≠ '/' := fun h => he (h ▸ ha)
  simpa using this

theorem dropWhile_sep_append (e sfx : GoString) (he : '/' ∉ e)
    (hs : sfx = [] ∨ sfx.head? = some '/') : (e ++ sfx).dropWhile (· != '/') = sfx := by
  rw [List.dropWhile_append_of_pos, dropWhile_sep_of_boundary sfx hs]
  intro a ha
  have : a ≠ '/' := fun h => he (h ▸ ha)
  simpa using this

theorem components_elem_append (e sfx : GoString) (he0 : e ≠ []) (he : '/' ∉ e)
    (hs : sfx = [] ∨ sfx.head? = some '/') : components (e ++ sfx) = e :: components sfx := by
  cases e with
  | nil => exact absurd rfl he0
  | cons c e' =>
    have hc : c ≠ '/' := fun h => he (h ▸ List.mem_cons_self _ _)
    have he' : '/' ∉ e' := fun h => he (List.mem_cons_of_mem _ h)
    rw [List.cons_append, components_cons c _ hc, takeWhile_sep_append e' sfx he' hs,
      dropWhile_sep_append e' sfx he' hs]

theorem components_joinSep (cs : List Name) (sfx : GoString)
    (hcs : ∀ e ∈ cs, e ≠ [] ∧ '/' ∉ e) (hs : sfx = [] ∨ sfx.head? = some '/') :
    components (filepath.joinSep cs ++ sfx) = cs ++ components sfx := by
  induction cs with
  | nil => simp [filepath.joinSep]
  | cons e cs ih =>
    have he := hcs e (List.mem_cons_self _ _)
    have hcs' : ∀ x ∈ cs, x ≠ [] ∧ '/' ∉ x := fun x hx => hcs x (List.mem_cons_of_mem _ hx)
    cases cs with
    | nil =>
      simp only [filepath.joinSep, List.singleton_append]
      exact components_elem_append e sfx he.1 he.2 hs
    | cons e2 cs2 =>
      have h1 : filepath.joinSep (e :: e2 :: cs2) ++ sfx
          = e ++ '/' :: (filepath.joinSep (e2 :: cs2) ++ sfx) := by
        simp [filepath.joinSep, filepath.Separator]
      have hx := components_elem_append e ('/' :: (filepath.joinSep (e2 :: cs2) ++ sfx))
        he.1 he.2 (Or.inr rfl)
      rw [h1, hx, components_sep, ih hcs']
      simp

theorem components_pathName (cs : List Name) (hcs : ∀ e ∈ cs, e ≠ [] ∧ '/' ∉ e) :
    components (os.pathName cs) = cs := by
  have := components_joinSep cs [] hcs (Or.inl rfl)
  rw [List.append_nil, components_nil, List.append_nil] at this
  rw [os.pathName, components_sep, this]

theorem Regular.good {e : Name} (h : Regular e) : e ≠ [] ∧ '/' ∉ e := ⟨h.1, h.2.1⟩

/-- A cleaned rooted path is a fixed point of `Clean`. -/
theorem Clean_pathName (cs : List Name) (hcs : ∀ e ∈ cs, Regular e) :
    path.Clean (os.pathName cs) = os.pathName cs := by
  have hg : ∀ e ∈ cs, e ≠ [] ∧ '/' ∉ e := fun e he => (hcs e he).good
  have h := components_pathName cs hg
  rw [os.pathName, components_sep] at h
  rw [os.pathName, Clean_rooted, h, normAbs_of_regular cs [] hcs, reverse_outAbs]
  simp [os.pathName]

theorem pathName_snoc (cs : List Name) (e : Name) :
    os.pathName (cs ++ [e]) = (if cs = [] then [] else os.pathName cs) ++ '/' :: e := by
  by_cases h : cs = []
  · subst h
    simp [os.pathName, filepath.joinSep]
  · simp [os.pathName, joinSep_append_singleton cs e h, h]

theorem dirPart_snoc (X e : GoString) (he : '/' ∉ e) :
    filepath.dirPart (X ++ '/' :: e) = X ++ ['/'] := by
  unfold filepath.dirPart
  have h1 : (X ++ '/' :: e).reverse = e.reverse ++ ('/' :: X.reverse) := by simp
  have he' : '/' ∉ e.reverse := by simpa using he
  rw [h1]
  have := dropWhile_sep_append e.reverse ('/' :: X.reverse) he' (Or.inr rfl)
  simp only [filepath.Separator]
  rw [this]
  simp

/-- `Dir` of a cleaned rooted path drops its last element. -/
theorem Dir_pathName (cs : List Name) (e : Name) (hcs : ∀ x ∈ cs, Regular x) (he : Regular e) :
    filepath.Dir (os.pathName (cs ++ [e])) = os.pathName cs := by
  unfold filepath.Dir filepath.Clean
  rw [pathName_snoc, dirPart_snoc _ _ he.2.1]
  by_cases h : cs = []
  · subst h
    simp only [if_true, List.nil_append]
    rw [Clean_rooted, components_nil]
    rfl
  · rw [if_neg h]
    have hg : ∀ x ∈ cs, x ≠ [] ∧ '/' ∉ x := fun x hx => (hcs x hx).good
    have hc := components_joinSep cs ['/'] hg (Or.inr rfl)
    rw [components_sep, components_nil, List.append_nil] at hc
    rw [os.pathName, List.cons_append, Clean_rooted, hc, normAbs_of_regular cs [] hcs,
      reverse_outAbs]
    simp [os.pathName]

theorem pathName_ne_nil (cs : List Name) : os.pathName cs ≠ [] := by
  simp [os.pathName]

theorem pathName_head (cs : List Name) : (os.pathName cs).head? = some '/' := by
  simp [os.pathName]

theorem pathName_getLast (cs : List Name) (e : Name) (he : e ≠ [] ∧ '/' ∉ e) :
    (os.pathName (cs ++ [e])).getLast? ≠ some '/' := by
  rw [pathName_snoc]
  obtain ⟨l, a, rfl⟩ : ∃ l a, e = l ++ [a] := ⟨e.dropLast, e.getLast he.1, (List.dropLast_append_getLast he.1).symm⟩
  have : (if cs = [] then [] else os.pathName cs) ++ '/' :: (l ++ [a])
      = ((if cs = [] then [] else os.pathName cs) ++ '/' :: l) ++ [a] := by simp
  rw [this, List.getLast?_append, List.getLast?_singleton]
  intro h
  have ha : a = '/' := by simpa [Option.or] using h
  exact he.2 (by simp [ha])

/-! ## Paths inside a valid root -/

theorem IsAbs_cons (p : GoString) (h : filepath.IsAbs p = true) : ∃ t, p = '/' :: t := by
  cases p with
  | nil => simp [filepath.IsAbs, strings.HasPrefix, List.isPrefixOf] at h
  | cons c t =>
    simp [filepath.IsAbs, strings.HasPrefix, List.isPrefixOf] at h
    exact ⟨t, by rw [h]⟩

/-- What `safePath` returns for a valid root is `/` followed by regular elements joined
with `/`. -/
theorem safePath_pathName (s : Storage) (hs : s.Valid) (p full : GoString)
    (h : s.safePath p = .ok full) :
    ∃ cs : List Name, (∀ e ∈ cs, Regular e) ∧ full = os.pathName cs := by
  obtain ⟨t, ht⟩ := IsAbs_cons s.root hs.1
  by_cases h0 : p = [] ∨ p = ['/']
  · rw [safePath_root s p h0] at h
    cases h
    obtain ⟨cs, hcs, hc⟩ := Clean_rooted_pathName t
    refine ⟨cs, hcs, ?_⟩
    rw [← hs.2, filepath.Clean, ht, hc]
  · have h1 : p ≠ [] := fun hp => h0 (Or.inl hp)
    have h2 : p ≠ ['/'] := fun hp => h0 (Or.inr hp)
    rw [safePath_eq s p h1 h2] at h
    split at h
    · cases h
      have hj : filepath.Join [s.root, filepath.FromSlash p]
          = path.Clean ('/' :: (t ++ '/' :: p)) := by
        simp [filepath.Join, filepath.Clean, filepath.joinSep, filepath.FromSlash, ht,
          filepath.Separator]
      obtain ⟨cs, hcs, hc⟩ := Clean_rooted_pathName (t ++ '/' :: p)
      refine ⟨cs, hcs, ?_⟩
      rw [hj, hc, filepath.Clean, Clean_pathName cs hcs]
    · cases h

/-! ## Walking and creating directories along regular elements -/

theorem FS.walk_regular (fs : FS) (cs : List Name) (hcs : ∀ e ∈ cs, Regular e) :
    ∀ cur : Path, (∀ r, r <+: cs → r ≠ cs → fs.get (cur ++ r) = some .dir) →
      fs.walk cur cs = .ok (cur ++ cs) := by
  induction cs with
  | nil =>
    intro cur _
    simp [FS.walk]
  | cons c cs ih =>
    intro cur h
    have hc := hcs c (List.mem_cons_self _ _)
    have hcur : fs.get cur = some .dir := by
      have := h [] (List.nil_prefix) (by simp)
      simpa using this
    unfold FS.walk
    rw [hcur]
    simp only
    rw [if_neg hc.2.2.1, if_neg hc.2.2.2]
    have := ih (fun e he => hcs e (List.mem_cons_of_mem _ he)) (cur ++ [c]) (by
      intro r hr hne
      have := h (c :: r) (by simpa using hr) (by simpa using hne)
      simpa using this)
    simpa using this

theorem FS.mkdirAll_regular (cs : List Name) (hcs : ∀ e ∈ cs, Regular e)
    (hok : ∀ e ∈ cs, elemErr e = none) :
    ∀ (fs : FS) (cur : Path),
      (∀ r, r <+: cs → r ≠ [] → ∀ d, fs.get (cur ++ r) ≠ some (.file d)) →
      ∃ fs1, fs.mkdirAll cur cs = (none, fs1) ∧ fs1.cwd = fs.cwd ∧ fs1.room = fs.room ∧
        (∀ r, r <+: cs → r ≠ [] → fs1.get (cur ++ r) = some .dir) ∧
        (∀ q, (∀ r, r <+: cs → r ≠ [] → q ≠ cur ++ r) → fs1.get q = fs.get q) := by
  induction cs with
  | nil =>
    intro fs cur _
    refine ⟨fs, by simp [FS.mkdirAll], rfl, rfl, ?_, fun q _ => rfl⟩
    intro r hr hne
    exact absurd (List.prefix_nil.mp hr) hne
  | cons c cs ih =>
    intro fs cur h
    have hc := hcs c (List.mem_cons_self _ _)
    have hcok := hok c (List.mem_cons_self _ _)
    have hcs' : ∀ e ∈ cs, Regular e := fun e he => hcs e (List.mem_cons_of_mem _ he)
    have hok' : ∀ e ∈ cs, elemErr e = none := fun e he => hok e (List.mem_cons_of_mem _ he)
    have hne : cur ++ [c] ≠ [] := by simp
    -- one step: the element exists as a directory afterwards
    obtain ⟨fs0, hstep, hcwd0, hroom0, hget0⟩ : ∃ fs0 : FS,
        fs.mkdirAll cur (c :: cs) = fs0.mkdirAll (cur ++ [c]) cs ∧ fs0.cwd = fs.cwd ∧
        fs0.room = fs.room ∧
        ∀ q, fs0.get q = if q = cur ++ [c] then some .dir else fs.get q := by
      cases hg : fs.get (cur ++ [c]) with
      | none =>
        refine ⟨fs.set (cur ++ [c]) .dir, ?_, rfl, rfl, ?_⟩
        · rw [FS.mkdirAll, if_neg hc.2.2.1, if_neg hc.2.2.2, hcok, hg]
        · intro q
          rw [FS.get_set]
          by_cases hq0 : q = []
          · have : q ≠ cur ++ [c] := by rw [hq0]; exact fun h => hne h.symm
            simp [hq0, FS.get_nil, this]
          · simp [hq0]
      | some n =>
        cases n with
        | file d => exact absurd hg (h [c] (by simp) (by simp) d)
        | dir =>
          refine ⟨fs, ?_, rfl, rfl, ?_⟩
          · rw [FS.mkdirAll, if_neg hc.2.2.1, if_neg hc.2.2.2, hcok, hg]
          · intro q
            by_cases hq : q = cur ++ [c]
            · simp [hq, hg]
            · simp [hq]
    have hlen : ∀ r : List Name, r ≠ [] → cur ++ [c] ++ r ≠ cur ++ [c] := by
      intro r hr he
      have := congrArg List.length he
      simp at this
      exact hr this
    obtain ⟨fs1, h1, hcwd1, hroom1, ha, hb⟩ := ih hcs' hok' fs0 (cur ++ [c]) (by
      intro r hr hrne d
      rw [hget0, if_neg (hlen r hrne)]
      have := h (c :: r) (by simpa using hr) (by simp) d
      simpa using this)
    refine ⟨fs1, hstep.trans h1, hcwd1.trans hcwd0, hroom1.trans hroom0, ?_, ?_⟩
    · intro r hr hrne
      cases r with
      | nil => exact absurd rfl hrne
      | cons x r' =>
        have hx : x = c ∧ r' <+: cs := by simpa [List.cons_prefix_cons] using hr
        obtain ⟨rfl, hr'⟩ := hx
        by_cases hr0 : r' = []
        · subst hr0
          rw [hb _ (fun r hr hrne => (hlen r hrne).symm), hget0]
          simp
        · have := ha r' hr' hr0
          simpa using this
    · intro q hq
      rw [hb q (by
        intro r hr hrne
        have := hq (c :: r) (by simpa using hr) (by simp)
        simpa using this), hget0]
      have := hq [c] (by simp) (by simp)
      simp [this]

theorem os.MkdirAll_pathName (fs : FS) (cs : List Name) (hcs : ∀ e ∈ cs, Regular e)
    (hok : ∀ e ∈ cs, elemErr e = none) (hlen : (os.pathName cs).length < PATH_MAX)
    (h : ∀ r, r <+: cs → r ≠ [] → ∀ d, fs.get r ≠ some (.file d)) :
    ∃ fs1, os.MkdirAll fs (os.pathName cs) = (none, fs1) ∧ fs1.cwd = fs.cwd ∧
      fs1.room = fs.room ∧
      (∀ r, r <+: cs → fs1.get r = some .dir) ∧
      (∀ q, ¬ q <+: cs → fs1.get q = fs.get q) := by
  obtain ⟨fs1, h1, hcwd, hroom, ha, hb⟩ :=
    FS.mkdirAll_regular cs hcs hok fs [] (by simpa using h)
  refine ⟨fs1, ?_, hcwd, hroom, ?_, ?_⟩
  · unfold os.MkdirAll
    rw [if_neg (pathName_ne_nil cs), if_neg (Nat.not_le.mpr hlen), pathName_head]
    simp only [if_true, FS.get_nil]
    rw [components_pathName cs (fun e he => (hcs e he).good), h1]
  · intro r hr
    by_cases hr0 : r = []
    · rw [hr0, FS.get_nil]
    · simpa using ha r hr hr0
  · intro q hq
    exact hb q (fun r hr _ hqr => hq (by simpa [hqr] using hr))

theorem FS.resolve_pathName (fs : FS) (cs : List Name) (hcs : ∀ e ∈ cs, Regular e)
    (h : ∀ r, r <+: cs → r ≠ cs → fs.get r = some .dir) :
    fs.resolve (os.pathName cs) = .ok cs := by
  unfold FS.resolve
  rw [if_neg (pathName_ne_nil cs), pathName_head]
  simp only [if_true]
  rw [components_pathName cs (fun e he => (hcs e he).good)]
  have := FS.walk_regular fs cs hcs [] (by simpa using h)
  simpa using this
/-! ## `Write` and `Read` -/

theorem prefix_snoc_ne (cs : List Name) (e : Name) (r : List Name)
    (hr : r <+: cs ++ [e]) (hne : r ≠ cs ++ [e]) : r <+: cs := by
  rcases List.prefix_concat_iff.mp hr with h | h
  · exact absurd h hne
  · exact h

/-! ### Names the operating system accepts, and the calls that create -/

theorem elemErr_none (c : Name) (h0 : '\x00' ∉ c) (hl : c.length ≤ NAME_MAX) :
    elemErr c = none := by
  unfold elemErr
  rw [if_neg h0, if_neg (Nat.not_lt.mpr hl)]

theorem mem_joinSep_of_mem (cs : List Name) (e : Name) (x : Char) (he : e ∈ cs)
    (hx : x ∈ e) : x ∈ filepath.joinSep cs := by
  induction cs with
  | nil => cases he
  | cons a l ih =>
    cases l with
    | nil =>
      rw [List.mem_singleton] at he
      subst he
      exact hx
    | cons b l2 =>
      have h1 : filepath.joinSep (a :: b :: l2) = a ++ '/' :: filepath.joinSep (b :: l2) := rfl
      rw [h1]
      rcases List.mem_cons.mp he with h | h
      · subst h
        exact List.mem_append_left _ hx
      · exact List.mem_append_right _ (List.mem_cons_of_mem _ (ih h))

/-- The elements of a cleaned rooted name the operating system accepts are names it
accepts. -/
theorem nameOK_elems (cs : List Name) (hcs : ∀ e ∈ cs, Regular e)
    (h : os.nameOK (os.pathName cs)) :
    ∀ e ∈ cs, elemErr e = none ∧ e.length ≤ NAME_MAX := by
  intro e he
  have hl : e.length ≤ NAME_MAX := by
    apply h.2.2 e
    rw [components_pathName cs (fun x hx => (hcs x hx).good)]
    exact he
  refine ⟨elemErr_none e ?_ hl, hl⟩
  intro h0
  exact h.1 (List.mem_cons_of_mem _ (mem_joinSep_of_mem cs e _ he h0))

/-- The directory of a cleaned rooted name the operating system accepts is such a name. -/
theorem nameOK_parent (cs : List Name) (e : Name) (hcs : ∀ x ∈ cs ++ [e], Regular x)
    (h : os.nameOK (os.pathName (cs ++ [e]))) :
    (∀ x ∈ cs, elemErr x = none) ∧ (os.pathName cs).length < PATH_MAX := by
  refine ⟨fun x hx => (nameOK_elems _ hcs h x (List.mem_append_left _ hx)).1, ?_⟩
  have hl := h.2.1
  rw [pathName_snoc] at hl
  by_cases h0 : cs = []
  · subst h0
    decide
  · rw [if_neg h0, List.length_append] at hl
    omega

theorem FS.walkCreate_regular (fs : FS) (cs : List Name) (hcs : ∀ e ∈ cs, Regular e)
    (hlen : ∀ e ∈ cs, e.length ≤ NAME_MAX) :
    ∀ cur : Path, (∀ r, r <+: cs → r ≠ cs → fs.get (cur ++ r) = some .dir) →
      fs.walkCreate cur cs = .ok (cur ++ cs) := by
  induction cs with
  | nil =>
    intro cur _
    simp [FS.walkCreate]
  | cons c cs ih =>
    intro cur h
    have hc := hcs c (List.mem_cons_self _ _)
    have hcur : fs.get cur = some .dir := by
      have := h [] (List.nil_prefix) (by simp)
      simpa using this
    unfold FS.walkCreate
    rw [hcur]
    simp only
    rw [if_neg hc.2.2.1, if_neg hc.2.2.2,
      if_neg (Nat.not_lt.mpr (hlen c (List.mem_cons_self _ _)))]
    have := ih (fun e he => hcs e (List.mem_cons_of_mem _ he))
      (fun e he => hlen e (List.mem_cons_of_mem _ he)) (cur ++ [c]) (by
      intro r hr hne
      have := h (c :: r) (by simpa using hr) (by simpa using hne)
      simpa using this)
    simpa using this

/-- A walk that succeeds along regular elements ends at the location they name, and
every directory on the way is a directory. -/
theorem FS.walkCreate_ok (fs : FS) (cs : List Name) (hcs : ∀ e ∈ cs, Regular e) :
    ∀ cur q : Path, fs.walkCreate cur cs = .ok q →
      q = cur ++ cs ∧ ∀ r, r <+: cs → r ≠ cs → fs.get (cur ++ r) = some .dir := by
  induction cs with
  | nil =>
    intro cur q h
    simp only [FS.walkCreate, Except.ok.injEq] at h
    refine ⟨by simp [h], ?_⟩
    intro r hr hne
    exact absurd (List.prefix_nil.mp hr) hne
  | cons c rest ih =>
    intro cur q h
    have hc := hcs c (List.mem_cons_self _ _)
    rw [FS.walkCreate] at h
    cases hg : fs.get cur with
    | none =>
      rw [hg] at h
      cases h
    | some n =>
      rw [hg] at h
      cases n with
      | file d => cases h
      | dir =>
        simp only [if_neg hc.2.2.1, if_neg hc.2.2.2] at h
        by_cases hl : NAME_MAX < c.length
        · rw [if_pos hl] at h
          cases h
        · rw [if_neg hl] at h
          obtain ⟨hq, hd⟩ := ih (fun e he => hcs e (List.mem_cons_of_mem _ he)) _ _ h
          refine ⟨by rw [hq]; simp, ?_⟩
          intro r hr hne
          cases r with
          | nil => simpa using hg
          | cons x r2 =>
            have hx : x = c ∧ r2 <+: rest := by simpa [List.cons_prefix_cons] using hr
            obtain ⟨rfl, hr2⟩ := hx
            have := hd r2 hr2 (fun he => hne (by rw [he]))
            simpa using this

theorem FS.get_room (fs : FS) (rm : Option (Nat × Errno)) (q : Path) :
    FS.get { fs with room := rm } q = fs.get q := rfl

/-- What a successful `os.Create` has done. -/
theorem os.Create_ok (fs fs2 : FS) (name : GoString) (f : os.File)
    (h : os.Create fs name = (.ok f, fs2)) :
    ∃ loc, fs.resolveCreate name = .ok loc ∧ name.getLast? ≠ some '/' ∧
      fs.get loc ≠ some .dir ∧ f = { name := name, loc := loc, node := .file [] } ∧
      fs2 = fs.set loc (.file []) := by
  unfold os.Create at h
  by_cases h0 : '\x00' ∈ name
  · rw [if_pos h0] at h
    cases h
  · rw [if_neg h0] at h
    by_cases h1 : PATH_MAX ≤ name.length
    · rw [if_pos h1] at h
      cases h
    · rw [if_neg h1] at h
      cases hr : fs.resolveCreate name with
      | error e =>
        rw [hr] at h
        cases h
      | ok loc =>
        rw [hr] at h
        simp only at h
        by_cases h2 : name.getLast? = some '/'
        · rw [if_pos h2] at h
          cases h
        · rw [if_neg h2] at h
          cases hg : fs.get loc with
          | none =>
            rw [hg] at h
            simp only [Prod.mk.injEq, Except.ok.injEq] at h
            exact ⟨loc, rfl, h2, by rw [hg]; simp, h.1.symm, h.2.symm⟩
          | some n =>
            rw [hg] at h
            cases n with
            | dir => cases h
            | file d =>
              simp only [Prod.mk.injEq, Except.ok.injEq] at h
              exact ⟨loc, rfl, h2, by rw [hg]; simp, h.1.symm, h.2.symm⟩

/-- What `os.Create` does with a cleaned rooted name the operating system accepts, all
of whose parent directories exist, at a location that is not a directory. -/
theorem os.Create_pathName (fs : FS) (cs : List Name) (hcs : ∀ e ∈ cs, Regular e)
    (hne : cs ≠ []) (hname : os.nameOK (os.pathName cs))
    (hdirs : ∀ r, r <+: cs → r ≠ cs → fs.get r = some .dir)
    (htgt : fs.get cs ≠ some .dir) :
    os.Create fs (os.pathName cs)
      = (.ok { name := os.pathName cs, loc := cs, node := .file [] },
         fs.set cs (.file [])) := by
  have hres : fs.resolveCreate (os.pathName cs) = .ok cs := by
    unfold FS.resolveCreate
    rw [if_neg (pathName_ne_nil cs), pathName_head]
    simp only [if_true]
    rw [components_pathName cs (fun e he => (hcs e he).good)]
    have := FS.walkCreate_regular fs cs hcs (fun e he => (nameOK_elems cs hcs hname e he).2) []
      (by simpa using hdirs)
    simpa using this
  have hlast : (os.pathName cs).getLast? ≠ some '/' := by
    have h1 := List.dropLast_append_getLast hne
    rw [← h1]
    exact pathName_getLast _ _ (hcs _ (List.getLast_mem hne)).good
  unfold os.Create
  rw [if_neg hname.1, if_neg (Nat.not_le.mpr hname.2.1), hres]
  simp only
  rw [if_neg hlast]

/-- What `io.Copy` does when the device has room for the bytes. -/
theorem io.Copy_spec (fs : FS) (f : os.File) (r : Reader) (d0 : GoString)
    (hfile : fs.get f.loc = some (.file d0)) (hroom : fs.hasRoom r.data.length = true) :
    ∃ fs3, io.Copy fs f r = (r.err, fs3) ∧ fs3.cwd = fs.cwd ∧
      ∀ q, fs3.get q = (fs.set f.loc (.file (d0 ++ r.data))).get q := by
  unfold io.Copy
  unfold FS.hasRoom at hroom
  cases hr : fs.room with
  | none =>
    refine ⟨_, rfl, ?_, fun q => ?_⟩
    · simp only [FS.append, hfile]
      rfl
    · simp only [FS.append, hfile]
  | some ne =>
    obtain ⟨n, e⟩ := ne
    rw [hr] at hroom
    have hle : r.data.length ≤ n := by simpa using hroom
    simp only
    rw [if_neg (Nat.not_lt.mpr hle)]
    refine ⟨_, rfl, ?_, fun q => ?_⟩
    · simp only [FS.append, hfile]
      rfl
    · rw [FS.get_room]
      simp only [FS.append, hfile]

/-- What a copy that ended without an error has done. -/
theorem io.Copy_ok (fs fs3 : FS) (f : os.File) (r : Reader) (d0 : GoString)
    (hfile : fs.get f.loc = some (.file d0)) (h : io.Copy fs f r = (none, fs3)) :
    r.err = none ∧ fs3.cwd = fs.cwd ∧
      ∀ q, fs3.get q = (fs.set f.loc (.file (d0 ++ r.data))).get q := by
  unfold io.Copy at h
  cases hr : fs.room with
  | none =>
    rw [hr] at h
    simp only [Prod.mk.injEq] at h
    obtain ⟨h1, h2⟩ := h
    subst h2
    refine ⟨h1, ?_, fun q => ?_⟩
    · simp only [FS.append, hfile]
      rfl
    · simp only [FS.append, hfile]
  | some ne =>
    obtain ⟨n, e⟩ := ne
    rw [hr] at h
    simp only at h
    by_cases hlt : n < r.data.length
    · rw [if_pos hlt] at h
      cases h
    · rw [if_neg hlt] at h
      simp only [Prod.mk.injEq] at h
      obtain ⟨h1, h2⟩ := h
      subst h2
      refine ⟨h1, ?_, fun q => ?_⟩
      · simp only [FS.append, hfile]
        rfl
      · rw [FS.get_room]
        simp only [FS.append, hfile]

/-- What `Write` does to the filesystem when the operating system accepts the resolved
name, the device has room for the bytes, the target is not a directory and no directory
on the way to it is a regular file: the missing directories are created, the file holds
exactly the bytes read, and nothing else changes. -/
theorem Write_spec (s : Storage) (hs : s.Valid) (p full : GoString) (r : Reader) (fs : FS)
    (hp : s.safePath p = .ok full)
    (hname : os.nameOK full)
    (hroom : fs.hasRoom r.data.length = true)
    (hanc : ∀ q, q <+: components full → q ≠ components full →
      fs.get q = none ∨ fs.get q = some .dir)
    (htgt : fs.get (components full) ≠ some .dir) :
    ∃ fs1, s.Write p r fs = (r.err.map (GoError.Errorf "write file: %w"), fs1) ∧
      fs1.cwd = fs.cwd ∧
      fs1.get (components full) = some (.file r.data) ∧
      (∀ q, q <+: components full → q ≠ components full → fs1.get q = some .dir) ∧
      (∀ q, ¬ q <+: components full → fs1.get q = fs.get q) := by
  obtain ⟨cs, hcs, rfl⟩ := safePath_pathName s hs p full hp
  have hg : ∀ e ∈ cs, e ≠ [] ∧ '/' ∉ e := fun e he => (hcs e he).good
  rw [components_pathName cs hg] at hanc htgt ⊢
  have hcs0 : cs ≠ [] := by
    intro h0
    rw [h0, FS.get_nil] at htgt
    exact htgt rfl
  obtain ⟨cs', e, rfl⟩ : ∃ cs' e, cs = cs' ++ [e] :=
    ⟨cs.dropLast, cs.getLast hcs0, (List.dropLast_append_getLast hcs0).symm⟩
  have hcs' : ∀ x ∈ cs', Regular x := fun x hx => hcs x (List.mem_append_left _ hx)
  have he : Regular e := hcs e (by simp)
  have hproper : ∀ q, q <+: cs' → q ≠ cs' ++ [e] := by
    intro q hq h
    have := hq.length_le
    rw [h] at this
    simp at this
  obtain ⟨hok', hlen'⟩ := nameOK_parent cs' e hcs hname
  -- the parent directories
  obtain ⟨fs1, hmk, hcwd1, hroom1, ha, hb⟩ := os.MkdirAll_pathName fs cs' hcs' hok' hlen' (by
    intro q hq _ d hd
    rcases hanc q (hq.trans (List.prefix_append _ _)) (hproper q hq) with h | h
    · rw [h] at hd
      cases hd
    · rw [h] at hd
      cases hd)
  -- the file
  have hnp : ¬ (cs' ++ [e]) <+: cs' := fun h => hproper _ h rfl
  have htgt1 : fs1.get (cs' ++ [e]) ≠ some .dir := by
    rw [hb _ hnp]
    exact htgt
  have hne : cs' ++ [e] ≠ [] := by simp
  have hcreate := os.Create_pathName fs1 (cs' ++ [e]) hcs hne hname
    (fun q hq hqne => ha q (prefix_snoc_ne cs' e q hq hqne)) htgt1
  have hfile2 : (fs1.set (cs' ++ [e]) (.file [])).get (cs' ++ [e]) = some (.file []) := by
    rw [FS.get_set]
    simp [hne]
  have hroom2 : (fs1.set (cs' ++ [e]) (.file [])).hasRoom r.data.length = true := by
    have : (fs1.set (cs' ++ [e]) (.file [])).room = fs.room := hroom1
    unfold FS.hasRoom at hroom ⊢
    rw [this]
    exact hroom
  obtain ⟨fs3, hcopy, hcwd3, hget3⟩ := io.Copy_spec (fs1.set (cs' ++ [e]) (.file []))
    { name := os.pathName (cs' ++ [e]), loc := cs' ++ [e], node := .file [] } r [] hfile2 hroom2
  simp only [List.nil_append] at hget3
  refine ⟨fs3, ?_, ?_, ?_, ?_, ?_⟩
  · unfold Storage.Write
    rw [hp]
    simp only
    rw [Dir_pathName cs' e hcs' he, hmk]
    simp only
    rw [hcreate]
    simp only
    rw [hcopy]
    cases r.err <;> rfl
  · rw [hcwd3]
    exact hcwd1
  · rw [hget3, FS.get_set]
    simp [hne]
  · intro q hq hqne
    rw [hget3, FS.get_set, FS.get_set]
    by_cases hq0 : q = []
    · simp [hq0]
    · simp only [hq0, hqne, if_false]
      exact ha q (prefix_snoc_ne cs' e q hq hqne)
  · intro q hq
    have hq0 : q ≠ [] := fun h => hq (h ▸ List.nil_prefix)
    have hqne : q ≠ cs' ++ [e] := fun h => hq (h ▸ List.prefix_refl _)
    rw [hget3, FS.get_set, FS.get_set]
    simp only [hq0, hqne, if_false]
    exact hb q (fun h => hq (h.trans (List.prefix_append _ _)))

/-- What `Read` returns for a regular file all of whose parent directories exist: the
open file with the file's content. -/
theorem Read_spec (s : Storage) (hs : s.Valid) (p full : GoString) (data : GoString) (fs : FS)
    (hp : s.safePath p = .ok full)
    (hfile : fs.get (components full) = some (.file data))
    (hdirs : ∀ q, q <+: components full → q ≠ components full → fs.get q = some .dir) :
    s.Read p fs = (.ok { name := full, loc := components full, node := .file data }, fs) := by
  obtain ⟨cs, hcs, rfl⟩ := safePath_pathName s hs p full hp
  have hg : ∀ e ∈ cs, e ≠ [] ∧ '/' ∉ e := fun e he => (hcs e he).good
  rw [components_pathName cs hg] at hfile hdirs ⊢
  have hcs0 : cs ≠ [] := by
    intro h0
    rw [h0, FS.get_nil] at hfile
    cases hfile
  obtain ⟨cs', e, rfl⟩ : ∃ cs' e, cs = cs' ++ [e] :=
    ⟨cs.dropLast, cs.getLast hcs0, (List.dropLast_append_getLast hcs0).symm⟩
  have he : Regular e := hcs e (by simp)
  have hres := FS.resolve_pathName fs _ hcs hdirs
  unfold Storage.Read
  rw [hp]
  simp only [os.Open, FS.lstat, hres, hfile]
  rw [if_neg (pathName_getLast cs' e he.good)]
theorem forall_prefix_of_inits {cs : List Name} {P : List Name → Prop}
    (h : ∀ q ∈ cs.inits, P q) : ∀ q, q <+: cs → P q :=
  fun q hq => h q ((List.mem_inits _ _).mpr hq)

open middleware in
/-- C6 as stated fails: the guard accepts the path `.` and forwards it as it is; in the
empty root `/data`, `Write(".", data)` fails with the operating system's is-a-directory
error and stores nothing, and what `Read(".")` then opens is the root directory, whose
content cannot be read. -/
theorem C6_write_to_a_directory_path_fails :
    PathGuard (fun w r st => (w, st ++ [r.URL.Query.Get (str "path")])) httptest.NewRecorder
        (httptest.NewRequest (str "PUT") (str "/files?path=.")) []
      = (httptest.NewRecorder, [str "."]) ∧
    Storage.Write newTestStorage (str ".") ⟨str "hello", none⟩ emptyRootFS
      = (some (.PathError "open" (str "/data") .EISDIR), emptyRootFS) ∧
    (Storage.Read newTestStorage (str ".") emptyRootFS).1
      = .ok { name := str "/data", loc := [str "data"], node := .dir } ∧
    io.ReadAll { name := str "/data", loc := [str "data"], node := .dir }
      = .error (.PathError "read" (str "/data") .EISDIR) := by
  decide

/-- What a `Write` that returned no error has done: the path resolved, the reader ended
without an error, the file at the resolved location holds exactly the bytes read, and
every directory on the way to it is a directory. -/
theorem Write_ok (s : Storage) (hs : s.Valid) (p : GoString) (r : Reader) (fs : FS)
    (h : (s.Write p r fs).1 = none) :
    ∃ full, s.safePath p = .ok full ∧ r.err = none ∧
      (s.Write p r fs).2.get (components full) = some (.file r.data) ∧
      ∀ q, q <+: components full → q ≠ components full →
        (s.Write p r fs).2.get q = some .dir := by
  cases hp : s.safePath p with
  | error e0 =>
    simp only [Storage.Write, hp] at h
    cases h
  | ok full =>
    obtain ⟨cs, hcs, hfull⟩ := safePath_pathName s hs p full hp
    have hW : s.Write p r fs =
        match os.MkdirAll fs (filepath.Dir full) with
        | (some err, fs1) => (some (mapError err), fs1)
        | (none, fs1) =>
          match os.Create fs1 full with
          | (.error err, fs2) => (some (mapError err), fs2)
          | (.ok f, fs2) =>
            match io.Copy fs2 f r with
            | (some err, fs3) => (some (.Errorf "write file: %w" err), fs3)
            | (none, fs3) => (none, fs3) := by
      simp only [Storage.Write, hp]
    cases hm : os.MkdirAll fs (filepath.Dir full) with
    | mk em fs1 =>
      rw [hm] at hW
      cases em with
      | some err =>
        rw [hW] at h
        cases h
      | none =>
        simp only at hW
        cases hc : os.Create fs1 full with
        | mk ec fs2 =>
          rw [hc] at hW
          cases ec with
          | error err =>
            rw [hW] at h
            cases h
          | ok f =>
            simp only at hW
            cases hcp : io.Copy fs2 f r with
            | mk e3 fs3 =>
              rw [hcp] at hW
              cases e3 with
              | some err =>
                rw [hW] at h
                cases h
              | none =>
                simp only at hW
                obtain ⟨loc, hres, _, htgt, hf, hfs2⟩ := os.Create_ok fs1 fs2 full f hc
                have hwalk : fs1.walkCreate [] cs = .ok loc := by
                  unfold FS.resolveCreate at hres
                  rw [hfull, if_neg (pathName_ne_nil cs), pathName_head] at hres
                  simp only [if_true] at hres
                  rw [components_pathName cs (fun e he => (hcs e he).good)] at hres
                  exact hres
                obtain ⟨hloc, hdirs⟩ := FS.walkCreate_ok fs1 cs hcs [] loc hwalk
                simp only [List.nil_append] at hloc hdirs
                subst hloc
                have hne : loc ≠ [] := by
                  intro h0
                  rw [h0, FS.get_nil] at htgt
                  exact htgt rfl
                have hfloc : f.loc = loc := by rw [hf]
                have hfile : fs2.get f.loc = some (.file []) := by
                  rw [hfloc, hfs2, FS.get_set]
                  simp [hne]
                obtain ⟨herr, _, hget⟩ := io.Copy_ok fs2 fs3 f r [] hfile hcp
                simp only [List.nil_append] at hget
                refine ⟨full, rfl, herr, ?_, ?_⟩
                · rw [hW, hfull, components_pathName loc (fun e he => (hcs e he).good)]
                  simp only
                  rw [hget, hfloc, FS.get_set]
                  simp [hne]
                · rw [hW, hfull, components_pathName loc (fun e he => (hcs e he).good)]
                  intro q hq hqne
                  simp only
                  rw [hget, hfloc, FS.get_set, hfs2, FS.get_set]
                  by_cases hq0 : q = []
                  · simp [hq0]
                  · simp only [hq0, hqne, if_false]
                    exact hdirs q hq hqne

/-- C6, amended: for a valid root, any path (so any path the guard accepts) and any bytes
`data` (also none), whenever `Write(p, data)` returns no error, `Read(p)` after it yields
a stream whose complete content is exactly `data`, whatever was stored there before; and
whenever a second `Write(p, data2)` returns no error, `Read(p)` then yields exactly
`data2`: the content is replaced in full. -/
theorem C6_write_then_read_yields_data (s : Storage) (hs : s.Valid) (p : GoString)
    (data : GoString) (fs : FS)
    (hw : (s.Write p ⟨data, none⟩ fs).1 = none) :
    (∃ f, (s.Read p (s.Write p ⟨data, none⟩ fs).2).1 = .ok f ∧ io.ReadAll f = .ok data) ∧
      (∀ data2 : GoString,
        (s.Write p ⟨data2, none⟩ (s.Write p ⟨data, none⟩ fs).2).1 = none →
        ∃ f, (s.Read p (s.Write p ⟨data2, none⟩ (s.Write p ⟨data, none⟩ fs).2).2).1 = .ok f ∧
          io.ReadAll f = .ok data2) := by
  have key : ∀ (d : GoString) (fs0 : FS), (s.Write p ⟨d, none⟩ fs0).1 = none →
      ∃ f, (s.Read p (s.Write p ⟨d, none⟩ fs0).2).1 = .ok f ∧ io.ReadAll f = .ok d := by
    intro d fs0 h0
    obtain ⟨full, hp, _, hfile, hdirs⟩ := Write_ok s hs p ⟨d, none⟩ fs0 h0
    exact ⟨{ name := full, loc := components full, node := .file d },
      by rw [Read_spec s hs p full d _ hp hfile hdirs], rfl⟩
  exact ⟨key data fs hw, fun data2 h2 => key data2 _ h2⟩

/-- C6, amended, at the root `/data` holding `file.txt` with the content `original`: the
content `updated` is written and read back, and after it the content `new`. -/
theorem C6_write_then_read_yields_data_witness :
    (∃ f, (Storage.Read newTestStorage (str "file.txt")
          (Storage.Write newTestStorage (str "file.txt") ⟨str "updated", none⟩
            (rootWithFile (str "file.txt") (str "original"))).2).1 = .ok f ∧
        io.ReadAll f = .ok (str "updated")) ∧
      (∃ f, (Storage.Read newTestStorage (str "file.txt")
          (Storage.Write newTestStorage (str "file.txt") ⟨str "new", none⟩
            (Storage.Write newTestStorage (str "file.txt") ⟨str "updated", none⟩
              (rootWithFile (str "file.txt") (str "original"))).2).2).1 = .ok f ∧
        io.ReadAll f = .ok (str "new")) :=
  have h := C6_write_then_read_yields_data newTestStorage ⟨by decide, by decide⟩
    (str "file.txt") (str "updated") (rootWithFile (str "file.txt") (str "original"))
    (by decide)
  ⟨h.1, h.2 (str "new") (by decide)⟩

theorem FS.get_some_mem (fs : FS) (q : Path) (n : Node) (hq : q ≠ [])
    (h : fs.get q = some n) : (q, n) ∈ fs.nodes := by
  unfold FS.get at h
  rw [if_neg hq] at h
  generalize fs.nodes = l at h
  induction l with
  | nil => simp [lookupNode] at h
  | cons e rest ih =>
    unfold lookupNode at h
    by_cases he : e.1 = q
    · rw [if_pos he] at h
      obtain ⟨k, v⟩ := e
      simp only [Option.some.injEq] at h he
      subst h he
      exact List.mem_cons_self _ _
    · rw [if_neg he] at h
      exact List.mem_cons_of_mem _ (ih h)

/-- C7 as stated fails: in the empty root `/data` the path made of a directory name of
256 bytes and `file.txt` lies inside the root and its directory does not exist, and
`Write` fails with the operating system's name-too-long error for the directory, creating
nothing; a directory name with a zero byte fails with `EINVAL` in the same way; and on a
device with room for two more bytes the directories and the file of
`deep/nested/file.txt` are created but the copy of the four bytes `deep` fails, and
`Write` returns the wrapped write error. -/
theorem C7_write_below_an_overlong_name_fails :
    Storage.safePath newTestStorage (List.replicate 256 'a' ++ str "/file.txt")
      = .ok (str "/data/" ++ List.replicate 256 'a' ++ str "/file.txt") ∧
    emptyRootFS.get [str "data", List.replicate 256 'a'] = none ∧
    Storage.Write newTestStorage (List.replicate 256 'a' ++ str "/file.txt")
        ⟨str "deep", none⟩ emptyRootFS
      = (some (.PathError "mkdir" (str "/data/" ++ List.replicate 256 'a') .ENAMETOOLONG),
        emptyRootFS) ∧
    Storage.Write newTestStorage (str "d\x00x/f.txt") ⟨str "deep", none⟩ emptyRootFS
      = (some (.PathError "mkdir" (str "/data/d\x00x") .EINVAL), emptyRootFS) ∧
    (Storage.Write newTestStorage (str "deep/nested/file.txt") ⟨str "deep", none⟩
        { emptyRootFS with room := some (2, .ENOSPC) }).1
      = some (.Errorf "write file: %w"
          (.PathError "write" (str "/data/deep/nested/file.txt") .ENOSPC)) := by
  set_option maxRecDepth 100000 in decide

/-- C7, amended: for a path inside a valid root whose intermediate directories (the
directories on the way to it that are not the root or above the root; there is at least
one) do not exist, in a well-formed filesystem in which the root is a directory, when the
operating system accepts the resolved name (no zero byte, no element longer than
`NAME_MAX`, shorter than `PATH_MAX`) and the device has room for `data`, `Write(p, data)`
succeeds; afterwards every directory on the way to the path exists as a directory and
the file at the path holds `data`. -/
theorem C7_write_creates_missing_directories (s : Storage) (hs : s.Valid)
    (p full : GoString) (data : GoString) (fs : FS)
    (hwf : fs.WF)
    (hp : s.safePath p = .ok full)
    (hname : os.nameOK full)
    (hroom : fs.hasRoom data.length = true)
    (hroot : ∀ q, q <+: components s.root → fs.get q = some .dir)
    (hsome : ¬ (components full).dropLast <+: components s.root)
    (hmiss : ∀ q, q <+: components full → q ≠ components full →
      ¬ q <+: components s.root → fs.get q = none) :
    ∃ fs1, s.Write p ⟨data, none⟩ fs = (none, fs1) ∧
      (∀ q, q <+: components full → q ≠ components full → fs1.get q = some .dir) ∧
      fs1.get (components full) = some (.file data) ∧
      ∃ f, (s.Read p fs1).1 = .ok f ∧ io.ReadAll f = .ok data := by
  have hne : components full ≠ [] := by
    intro h0
    rw [h0] at hsome
    exact hsome List.nil_prefix
  have hparent : (components full).dropLast ≠ components full := by
    intro h
    have := congrArg List.length h
    rw [List.length_dropLast] at this
    have := List.length_pos.mpr hne
    omega
  have hnone := hmiss _ (List.dropLast_prefix _) hparent hsome
  have htgt : fs.get (components full) ≠ some .dir := by
    intro h
    have hmem := FS.get_some_mem fs _ _ hne h
    have := hwf _ hmem hne
    rw [hnone] at this
    cases this
  have hanc : ∀ q, q <+: components full → q ≠ components full →
      fs.get q = none ∨ fs.get q = some .dir := by
    intro q hq hqne
    by_cases hr : q <+: components s.root
    · exact Or.inr (hroot q hr)
    · exact Or.inl (hmiss q hq hqne hr)
  obtain ⟨fs1, hw, _, hfile, hdirs, _⟩ :=
    Write_spec s hs p full ⟨data, none⟩ fs hp hname hroom hanc htgt
  refine ⟨fs1, hw, hdirs, hfile,
    { name := full, loc := components full, node := .file data }, ?_, rfl⟩
  rw [Read_spec s hs p full data fs1 hp hfile hdirs]

/-- C7, amended, at the empty root `/data`, for the path `deep/nested/file.txt` of
`TestWrite_CreatesParentDirs`. -/
theorem C7_write_creates_missing_directories_witness :
    ∃ fs1, Storage.Write newTestStorage (str "deep/nested/file.txt") ⟨str "deep", none⟩
        emptyRootFS = (none, fs1) ∧
      (∀ q, q <+: components (str "/data/deep/nested/file.txt") →
        q ≠ components (str "/data/deep/nested/file.txt") → fs1.get q = some .dir) ∧
      fs1.get (components (str "/data/deep/nested/file.txt")) = some (.file (str "deep")) ∧
      ∃ f, (Storage.Read newTestStorage (str "deep/nested/file.txt") fs1).1 = .ok f ∧
        io.ReadAll f = .ok (str "deep") :=
  C7_write_creates_missing_directories newTestStorage ⟨by decide, by decide⟩
    (str "deep/nested/file.txt") (str "/data/deep/nested/file.txt") (str "deep") emptyRootFS
    (by unfold FS.WF; decide) (by decide) (by decide) (by decide) (forall_prefix_of_inits (by decide))
    (by decide) (forall_prefix_of_inits (by decide))

theorem Valid_pathName (cs : List Name) (hcs : ∀ e ∈ cs, Regular e) :
    Storage.Valid { root := os.pathName cs } := by
  refine ⟨by simp [filepath.IsAbs, strings.HasPrefix, os.pathName, List.isPrefixOf], ?_⟩
  exact Clean_pathName cs hcs

/-- The backend `New` returns has a valid root: absolute and cleaned. -/
theorem New_valid (root : GoString) (fs fs1 : FS) (s : Storage)
    (h : New root fs = (.ok s, fs1)) : s.Valid := by
  unfold New at h
  have habs : ∃ cs : List Name, (∀ e ∈ cs, Regular e) ∧ filepath.Abs fs root = os.pathName cs := by
    unfold filepath.Abs
    by_cases ha : filepath.IsAbs root = true
    · obtain ⟨t, rfl⟩ := IsAbs_cons root ha
      rw [if_pos ha]
      exact Clean_rooted_pathName t
    · rw [if_neg ha]
      have : filepath.Join [os.pathName fs.cwd, root]
          = path.Clean ('/' :: (filepath.joinSep fs.cwd ++ '/' :: root)) := by
        simp [filepath.Join, filepath.Clean, filepath.joinSep, os.pathName, filepath.Separator]
      rw [this]
      exact Clean_rooted_pathName _
  obtain ⟨cs, hcs, hc⟩ := habs
  rw [hc] at h
  dsimp only at h
  cases hm : os.MkdirAll fs (os.pathName cs) with
  | mk e fs2 =>
    rw [hm] at h
    cases e with
    | some err => cases h
    | none =>
      cases h
      exact Valid_pathName cs hcs

/-! ## Requests without a path -/

open middleware in
/-- C16: when the `path` query parameter of a request is absent or empty (the query parser
gives `""` for it), `PathGuard` is the next handler on the same request: the next
handler is invoked once with the request as it came, and its response and its effect on
the world are the result. -/
theorem C16_no_path_passes_through {σ : Type} (next : http.Handler σ)
    (w : http.ResponseWriter) (r : http.Request) (st : σ)
    (h : r.URL.Query.Get (str "path") = []) :
    PathGuard next w r st = next w r st := by
  simp only [PathGuard, h, if_true]

open middleware in
/-- C16 at the requests `GET /health` and `GET /files?path=` with a handler that records
the requests it receives and answers 200. -/
theorem C16_no_path_passes_through_witness :
    PathGuard (fun w r st => (w.WriteHeader http.StatusOK, st ++ [r])) httptest.NewRecorder
        (httptest.NewRequest (str "GET") (str "/health")) []
      = ((httptest.NewRecorder).WriteHeader http.StatusOK,
        [httptest.NewRequest (str "GET") (str "/health")]) ∧
    PathGuard (fun w r st => (w.WriteHeader http.StatusOK, st ++ [r])) httptest.NewRecorder
        (httptest.NewRequest (str "GET") (str "/files?path=")) []
      = ((httptest.NewRecorder).WriteHeader http.StatusOK,
        [httptest.NewRequest (str "GET") (str "/files?path=")]) :=
  ⟨C16_no_path_passes_through _ _ _ _ (by decide),
   C16_no_path_passes_through _ _ _ _ (by decide)⟩

/-! ## The errors the backend returns -/

theorem mapError_PathError_cases (op : String) (name : GoString) (e : Errno) :
    (e = .ENOENT ∧ mapError (.PathError op name e) = storage.ErrNotFound) ∨
      ((e = .EACCES ∨ e = .EPERM) ∧ mapError (.PathError op name e) = storage.ErrPermission) ∨
      (e ≠ .ENOENT ∧ e ≠ .EACCES ∧ e ≠ .EPERM ∧
        mapError (.PathError op name e) = .PathError op name e) := by
  cases e <;>
    simp [mapError, os.IsNotExist, os.IsPermission, os.underlyingError, os.ErrNotExist,
      os.ErrPermission]

theorem mapError_PathError_kind (op : String) (name : GoString) (e : Errno) :
    mapError (.PathError op name e) = storage.ErrNotFound ∨
      mapError (.PathError op name e) = storage.ErrPermission ∨
      ∃ op1 name1 errno, mapError (.PathError op name e) = .PathError op1 name1 errno ∧
        errno ≠ .ENOENT ∧ errno ≠ .EACCES ∧ errno ≠ .EPERM := by
  rcases mapError_PathError_cases op name e with h | h | h
  · exact Or.inl h.2
  · exact Or.inr (Or.inl h.2)
  · exact Or.inr (Or.inr ⟨op, name, e, h.2.2.2, h.1, h.2.1, h.2.2.1⟩)

theorem os.Open_error (fs : FS) (name : GoString) (err : GoError)
    (h : os.Open fs name = .error err) : ∃ op e, err = .PathError op name e := by
  unfold os.Open at h
  split at h
  · cases h
    exact ⟨_, _, rfl⟩
  · cases h

theorem os.Stat_error (fs : FS) (name : GoString) (err : GoError)
    (h : os.Stat fs name = .error err) : ∃ op e, err = .PathError op name e := by
  unfold os.Stat at h
  split at h
  · cases h
    exact ⟨_, _, rfl⟩
  · cases h

theorem os.ReadDir_error (fs : FS) (name : GoString) (err : GoError)
    (h : os.ReadDir fs name = .error err) : ∃ op e, err = .PathError op name e := by
  unfold os.ReadDir at h
  split at h
  · cases h
    exact ⟨_, _, rfl⟩
  · cases h
    exact ⟨_, _, rfl⟩
  · cases h

theorem os.Remove_error (fs fs1 : FS) (name : GoString) (err : GoError)
    (h : os.Remove fs name = (some err, fs1)) : ∃ op e, err = .PathError op name e := by
  unfold os.Remove at h
  split at h
  · cases h
    exact ⟨_, _, rfl⟩
  · cases h
  · split at h
    · cases h
      exact ⟨_, _, rfl⟩
    · split at h
      · cases h
        exact ⟨_, _, rfl⟩
      · cases h

theorem os.MkdirAll_error (fs fs1 : FS) (name : GoString) (err : GoError)
    (h : os.MkdirAll fs name = (some err, fs1)) : ∃ op name1 e, err = .PathError op name1 e := by
  unfold os.MkdirAll at h
  by_cases hn : name = []
  · rw [if_pos hn] at h
    cases h
    exact ⟨_, _, _, rfl⟩
  · rw [if_neg hn] at h
    by_cases hl : PATH_MAX ≤ name.length
    · rw [if_pos hl] at h
      cases h
      exact ⟨_, _, _, rfl⟩
    · rw [if_neg hl] at h
      dsimp only at h
      generalize (if name.head? = some '/' then ([] : Path) else fs.cwd) = start at h
      cases hg : fs.get start with
      | none =>
        rw [hg] at h
        cases h
        exact ⟨_, _, _, rfl⟩
      | some n =>
        rw [hg] at h
        cases n with
        | file d =>
          cases h
          exact ⟨_, _, _, rfl⟩
        | dir =>
          dsimp only at h
          cases hm : fs.mkdirAll start (components name) with
          | mk e fs2 =>
            rw [hm] at h
            cases e with
            | none => cases h
            | some ea =>
              cases h
              exact ⟨_, _, _, rfl⟩

theorem os.Create_error (fs fs1 : FS) (name : GoString) (err : GoError)
    (h : os.Create fs name = (.error err, fs1)) : ∃ op e, err = .PathError op name e := by
  unfold os.Create at h
  by_cases h0 : '\x00' ∈ name
  · rw [if_pos h0] at h
    cases h
    exact ⟨_, _, rfl⟩
  · rw [if_neg h0] at h
    by_cases h1 : PATH_MAX ≤ name.length
    · rw [if_pos h1] at h
      cases h
      exact ⟨_, _, rfl⟩
    · rw [if_neg h1] at h
      split at h
      · cases h
        exact ⟨_, _, rfl⟩
      · split at h
        · cases h
          exact ⟨_, _, rfl⟩
        · split at h
          · cases h
            exact ⟨_, _, rfl⟩
          · cases h

/-- The error of a copy is the reader's error or the `*PathError` of a failed write to
the file. -/
theorem io.Copy_error (fs fs3 : FS) (f : os.File) (r : Reader) (err : GoError)
    (h : io.Copy fs f r = (some err, fs3)) :
    r.err = some err ∨ ∃ e, err = .PathError "write" f.name e := by
  unfold io.Copy at h
  cases hr : fs.room with
  | none =>
    rw [hr] at h
    simp only [Prod.mk.injEq] at h
    exact Or.inl h.1
  | some ne =>
    obtain ⟨n, e⟩ := ne
    rw [hr] at h
    simp only at h
    by_cases hlt : n < r.data.length
    · rw [if_pos hlt] at h
      simp only [Prod.mk.injEq, Option.some.injEq] at h
      exact Or.inr ⟨e, h.1.symm⟩
    · rw [if_neg hlt] at h
      simp only [Prod.mk.injEq] at h
      exact Or.inl h.1
/-- C11 as stated fails: in the root `/data` holding the directory `docs` with a file in
it, `Delete("docs")` returns the operating system's directory-not-empty error as it is,
an `*fs.PathError`: it is neither `ErrNotFound` nor `ErrPermission`, and it is not
wrapped in anything. -/
theorem C11_delete_of_a_full_directory_returns_the_raw_error :
    (Storage.Delete newTestStorage (str "docs")
        { cwd := [], nodes := [([str "data"], .dir), ([str "data", str "docs"], .dir),
            ([str "data", str "docs", str "readme.md"], .file (str "hi"))] }).1
      = some (.PathError "remove" (str "/data/docs") .ENOTEMPTY) ∧
    mapError (.PathError "remove" (str "/data/docs") .ENOTEMPTY)
      = .PathError "remove" (str "/data/docs") .ENOTEMPTY ∧
    errors.Is (.PathError "remove" (str "/data/docs") .ENOTEMPTY) storage.ErrNotFound = false ∧
    errors.Is (.PathError "remove" (str "/data/docs") .ENOTEMPTY) storage.ErrPermission
      = false := by
  decide

/-- C11, amended: `mapError` turns an operating-system "does not exist" failure into
`ErrNotFound` and a "permission denied" failure into `ErrPermission`, and returns every
other operating-system failure as it is. So an error returned by `List`, `Read`, `Write`,
`Delete` or `Stat` is `ErrNotFound`, or `ErrPermission`, or the unwrapped `*fs.PathError`
of another operating-system failure, or (from `Write` only) the error of the copy wrapped
as `write file: %w`: the reader's error, or the `*fs.PathError` of a failed write to the
file, whatever its errno. -/
theorem C11_errors_of_the_backend (s : Storage) (p : GoString) (r : Reader) (fs : FS)
    (e : GoError)
    (h : (s.List p fs).1 = .error e ∨ (s.Read p fs).1 = .error e ∨
      (s.Write p r fs).1 = some e ∨ (s.Delete p fs).1 = some e ∨ (s.Stat p fs).1 = .error e) :
    (e = storage.ErrNotFound ∨ e = storage.ErrPermission ∨
        (∃ op name errno, e = .PathError op name errno ∧
          errno ≠ .ENOENT ∧ errno ≠ .EACCES ∧ errno ≠ .EPERM) ∨
        (∃ cause, e = .Errorf "write file: %w" cause ∧
          (r.err = some cause ∨ ∃ name errno, cause = .PathError "write" name errno))) ∧
      (∀ op name, mapError (.PathError op name .ENOENT) = storage.ErrNotFound) ∧
      (∀ op name, mapError (.PathError op name .EACCES) = storage.ErrPermission) ∧
      (∀ op name, mapError (.PathError op name .EPERM) = storage.ErrPermission) ∧
      (∀ op name errno, errno ≠ .ENOENT → errno ≠ .EACCES → errno ≠ .EPERM →
        mapError (.PathError op name errno) = .PathError op name errno) := by
  refine ⟨?_, ?_, ?_, ?_, ?_⟩
  · have hk : ∀ op name errno, e = mapError (.PathError op name errno) →
        (e = storage.ErrNotFound ∨ e = storage.ErrPermission ∨
          (∃ op name errno, e = .PathError op name errno ∧
            errno ≠ .ENOENT ∧ errno ≠ .EACCES ∧ errno ≠ .EPERM) ∨
          (∃ cause, e = .Errorf "write file: %w" cause ∧
            (r.err = some cause ∨ ∃ name errno, cause = .PathError "write" name errno))) := by
      intro op name errno he
      rcases mapError_PathError_kind op name errno with h1 | h1 | h1
      · exact Or.inl (he.trans h1)
      · exact Or.inr (Or.inl (he.trans h1))
      · obtain ⟨a, b, c, h2, h3⟩ := h1
        exact Or.inr (Or.inr (Or.inl ⟨a, b, c, he.trans h2, h3⟩))
    cases hp : s.safePath p with
    | error e0 =>
      have he0 := safePath_error s p e0 hp
      subst he0
      have hall : e = storage.ErrPermission := by
        simp only [Storage.List, Storage.Read, Storage.Write, Storage.Delete, Storage.Stat, hp,
          Except.error.injEq, Option.some.injEq, or_self] at h
        exact h.symm
      exact Or.inr (Or.inl hall)
    | ok full =>
      rcases h with h | h | h | h | h
      · simp only [Storage.List, hp] at h
        cases hr : os.ReadDir fs full with
        | error err =>
          rw [hr] at h
          obtain ⟨op, en, rfl⟩ := os.ReadDir_error fs full err hr
          simp only [Except.error.injEq] at h
          exact hk _ _ _ h.symm
        | ok entries => rw [hr] at h; cases h
      · simp only [Storage.Read, hp] at h
        cases hr : os.Open fs full with
        | error err =>
          rw [hr] at h
          obtain ⟨op, en, rfl⟩ := os.Open_error fs full err hr
          simp only [Except.error.injEq] at h
          exact hk _ _ _ h.symm
        | ok f => rw [hr] at h; cases h
      · simp only [Storage.Write, hp] at h
        cases hm : os.MkdirAll fs (filepath.Dir full) with
        | mk em fs1 =>
          rw [hm] at h
          cases em with
          | some err =>
            obtain ⟨op, n1, en, rfl⟩ := os.MkdirAll_error fs fs1 _ err hm
            simp only [Option.some.injEq] at h
            exact hk _ _ _ h.symm
          | none =>
            simp only at h
            cases hc : os.Create fs1 full with
            | mk ec fs2 =>
              rw [hc] at h
              cases ec with
              | error err =>
                obtain ⟨op, en, rfl⟩ := os.Create_error fs1 fs2 full err hc
                simp only [Option.some.injEq] at h
                exact hk _ _ _ h.symm
              | ok f =>
                simp only at h
                cases hcp : io.Copy fs2 f r with
                | mk e3 fs3 =>
                  rw [hcp] at h
                  cases e3 with
                  | none => cases h
                  | some cause =>
                    simp only [Option.some.injEq] at h
                    refine Or.inr (Or.inr (Or.inr ⟨cause, h.symm, ?_⟩))
                    rcases io.Copy_error fs2 fs3 f r cause hcp with h1 | ⟨en, h1⟩
                    · exact Or.inl h1
                    · exact Or.inr ⟨_, en, h1⟩
      · simp only [Storage.Delete, hp] at h
        cases hr : os.Remove fs full with
        | mk er fs1 =>
          rw [hr] at h
          cases er with
          | some err =>
            obtain ⟨op, en, rfl⟩ := os.Remove_error fs fs1 full err hr
            simp only [Option.some.injEq] at h
            exact hk _ _ _ h.symm
          | none => cases h
      · simp only [Storage.Stat, hp] at h
        cases hr : os.Stat fs full with
        | error err =>
          rw [hr] at h
          obtain ⟨op, en, rfl⟩ := os.Stat_error fs full err hr
          simp only [Except.error.injEq] at h
          exact hk _ _ _ h.symm
        | ok info => rw [hr] at h; cases h
  · intro op name
    exact mapError_PathError_ENOENT op name
  · intro op name
    simp [mapError, os.IsNotExist, os.IsPermission, os.underlyingError, os.ErrNotExist,
      os.ErrPermission]
  · intro op name
    simp [mapError, os.IsNotExist, os.IsPermission, os.underlyingError, os.ErrNotExist,
      os.ErrPermission]
  · intro op name errno h1 h2 h3
    rcases mapError_PathError_cases op name errno with h | h | h
    · exact absurd h.1 h1
    · rcases h.1 with h | h
      · exact absurd h h2
      · exact absurd h h3
    · exact h.2.2.2

/-- C11, amended, at the error `Read("missing.txt")` returns in the empty root `/data`,
and at the error `Write("a.txt", "hello")` returns there when the device has room for two
more bytes. -/
theorem C11_errors_of_the_backend_witness :
    ((Storage.Read newTestStorage (str "missing.txt") emptyRootFS).1
        = .error storage.ErrNotFound ∧
      (storage.ErrNotFound = storage.ErrNotFound ∨ storage.ErrNotFound = storage.ErrPermission ∨
        (∃ op name errno, storage.ErrNotFound = .PathError op name errno ∧
          errno ≠ .ENOENT ∧ errno ≠ .EACCES ∧ errno ≠ .EPERM) ∨
        (∃ cause, storage.ErrNotFound = .Errorf "write file: %w" cause ∧
          ((⟨[], none⟩ : Reader).err = some cause ∨
            ∃ name errno, cause = .PathError "write" name errno)))) ∧
    ((Storage.Write newTestStorage (str "a.txt") ⟨str "hello", none⟩
          { emptyRootFS with room := some (2, .ENOSPC) }).1
        = some (.Errorf "write file: %w" (.PathError "write" (str "/data/a.txt") .ENOSPC)) ∧
      (GoError.Errorf "write file: %w" (.PathError "write" (str "/data/a.txt") .ENOSPC)
          = storage.ErrNotFound ∨
        GoError.Errorf "write file: %w" (.PathError "write" (str "/data/a.txt") .ENOSPC)
          = storage.ErrPermission ∨
        (∃ op name errno,
          GoError.Errorf "write file: %w" (.PathError "write" (str "/data/a.txt") .ENOSPC)
            = .PathError op name errno ∧
          errno ≠ .ENOENT ∧ errno ≠ .EACCES ∧ errno ≠ .EPERM) ∨
        (∃ cause,
          GoError.Errorf "write file: %w" (.PathError "write" (str "/data/a.txt") .ENOSPC)
            = .Errorf "write file: %w" cause ∧
          ((⟨str "hello", none⟩ : Reader).err = some cause ∨
            ∃ name errno, cause = .PathError "write" name errno)))) :=
  ⟨⟨by decide,
    (C11_errors_of_the_backend newTestStorage (str "missing.txt") ⟨[], none⟩ emptyRootFS
      storage.ErrNotFound (Or.inr (Or.inl (by decide)))).1⟩,
   ⟨by decide,
    (C11_errors_of_the_backend newTestStorage (str "a.txt") ⟨str "hello", none⟩
      { emptyRootFS with room := some (2, .ENOSPC) }
      (.Errorf "write file: %w" (.PathError "write" (str "/data/a.txt") .ENOSPC))
      (Or.inr (Or.inr (Or.inl (by decide))))).1⟩⟩

/-! ## `Chain` -/

open middleware in
theorem chainLoop_eq_foldr {σ : Type} (mws : List (Middleware σ)) :
    ∀ (n : Nat) (final : http.Handler σ), n ≤ mws.length →
      chainLoop mws n final = (mws.take n).foldr (fun mw h => mw h) final := by
  intro n
  induction n with
  | zero =>
    intro final _
    simp [chainLoop]
  | succ n ih =>
    intro final hn
    have hlt : n < mws.length := hn
    have hget : mws[n]? = some mws[n] := List.getElem?_eq_getElem hlt
    rw [chainLoop, hget]
    simp only
    rw [ih _ (Nat.le_of_lt hlt), List.take_succ, hget, Option.toList, List.foldr_append]
    rfl

open middleware in
/-- C17: for every list of middleware `[m1, ..., mn]` and every handler `h`,
`Chain(m1, ..., mn)(h)` is `m1(m2(...(mn(h))...))`, the first argument outermost; for the
empty list `Chain()(h)` is `h`; and with the recording middleware of `TestChain_Ordering`
a request passes `A`, `B`, `C`, the handler, and unwinds through `C`, `B`, `A`. -/
theorem C17_Chain_nests_first_outermost :
    (∀ (σ : Type) (mws : List (Middleware σ)) (h : http.Handler σ),
        Chain mws h = mws.foldr (fun mw inner => mw inner) h) ∧
      (∀ (σ : Type) (h : http.Handler σ), Chain [] h = h) ∧
      (∀ (σ : Type) (m1 m2 m3 : Middleware σ) (h : http.Handler σ),
        Chain [m1, m2, m3] h = m1 (m2 (m3 h))) ∧
      (Chain [orderMiddleware "A", orderMiddleware "B", orderMiddleware "C"]
          (fun w _ order => (w, order ++ ["handler"]))
          httptest.NewRecorder (httptest.NewRequest (str "GET") (str "/")) []).2
        = ["A-before", "B-before", "C-before", "handler", "C-after", "B-after", "A-after"] := by
  refine ⟨?_, ?_, ?_, ?_⟩
  · intro σ mws h
    unfold Chain
    rw [chainLoop_eq_foldr mws mws.length h (Nat.le_refl _), List.take_length]
  · intro σ h
    rfl
  · intro σ m1 m2 m3 h
    rfl
  · rfl

/-! ## `newUUIDv4` -/

theorem version_byte (b : Nat) : (b &&& 0x0f) ||| 0x40 = b % 16 + 64 := by
  have h1 : b &&& 0x0f = b % 16 := Nat.and_pow_two_sub_one_eq_mod b 4
  have h2 : ∀ x, x < 16 → (x ||| 64) = x + 64 := by decide
  rw [h1]
  exact h2 _ (Nat.mod_lt _ (by decide))

theorem variant_byte (b : Nat) : (b &&& 0x3f) ||| 0x80 = b % 64 + 128 := by
  have h1 : b &&& 0x3f = b % 64 := Nat.and_pow_two_sub_one_eq_mod b 6
  have h2 : ∀ x, x < 64 → (x ||| 128) = x + 128 := by decide
  rw [h1]
  exact h2 _ (Nat.mod_lt _ (by decide))

open middleware in
theorem lowerhex_facts : ∀ m, m < 16 →
    isLowerHex (fmt.lowerhex m) = true ∧ fmt.lowerhex m ≠ '-' ∧
      url.unhex (fmt.lowerhex m) = m := by
  decide

open middleware in
@[simp] theorem isLowerHex_lowerhex_mod (x : Nat) : isLowerHex (fmt.lowerhex (x % 16)) = true :=
  (lowerhex_facts _ (Nat.mod_lt _ (by decide))).1

open middleware in
theorem uuidBytes_hex (x y : Nat) (rest : GoString) :
    uuidBytes (fmt.lowerhex (x % 16) :: fmt.lowerhex (y % 16) :: rest)
      = (x % 16 * 16 + y % 16) :: uuidBytes rest := by
  have hx := lowerhex_facts (x % 16) (Nat.mod_lt _ (by decide))
  have hy := lowerhex_facts (y % 16) (Nat.mod_lt _ (by decide))
  rw [uuidBytes]
  · rw [hx.2.2, hy.2.2]
  · intro h
    exact hx.2.1 h

open middleware in
theorem uuidBytes_dash (rest : GoString) : uuidBytes ('-' :: rest) = uuidBytes rest := by
  rw [uuidBytes]

theorem version_digit (b : Nat) : fmt.lowerhex ((b % 16 + 64) / 16 % 16) = '4' := by
  have : (b % 16 + 64) / 16 % 16 = 4 := by omega
  rw [this]
  rfl

theorem variant_digit (b : Nat) :
    fmt.lowerhex ((b % 64 + 128) / 16 % 16) = '8' ∨ fmt.lowerhex ((b % 64 + 128) / 16 % 16) = '9' ∨
      fmt.lowerhex ((b % 64 + 128) / 16 % 16) = 'a' ∨
      fmt.lowerhex ((b % 64 + 128) / 16 % 16) = 'b' := by
  have h : ∀ m, m < 4 → (fmt.lowerhex (8 + m) = '8' ∨ fmt.lowerhex (8 + m) = '9' ∨
      fmt.lowerhex (8 + m) = 'a' ∨ fmt.lowerhex (8 + m) = 'b') := by decide
  have : (b % 64 + 128) / 16 % 16 = 8 + b % 64 / 16 := by omega
  rw [this]
  exact h _ (by omega)

open middleware in
/-- C18: for every 16 bytes the random source yields, and also when it fails, the string
`newUUIDv4` returns matches the version-4 pattern of the tests: 36 characters, lowercase
hex in groups of 8-4-4-4-12 separated by `-`, `4` first in the third group and one of
`8`, `9`, `a`, `b` first in the fourth. The bytes the string spells are the random bytes,
except for the version nibble of byte 6 and the two variant bits of byte 8. -/
theorem C18_newUUIDv4_is_a_version_4_uuid (u : List Nat) (hlen : u.length = 16)
    (hb : ∀ b ∈ u, b < 256) :
    matchesUUIDv4 (newUUIDv4 (some u)) = true ∧
      (newUUIDv4 (some u)).length = 36 ∧
      matchesUUIDv4 (newUUIDv4 none) = true ∧
      (∀ i, i < 16 → i ≠ 6 → i ≠ 8 →
        (uuidBytes (newUUIDv4 (some u))).getD i 0 = u.getD i 0) ∧
      (uuidBytes (newUUIDv4 (some u))).getD 6 0 % 16 = u.getD 6 0 % 16 ∧
      (uuidBytes (newUUIDv4 (some u))).getD 6 0 / 16 = 4 ∧
      (uuidBytes (newUUIDv4 (some u))).getD 8 0 % 64 = u.getD 8 0 % 64 ∧
      (uuidBytes (newUUIDv4 (some u))).getD 8 0 / 64 = 2 := by
  rcases u with _ | ⟨b0, u⟩
  · simp at hlen
  rcases u with _ | ⟨b1, u⟩
  · simp at hlen
  rcases u with _ | ⟨b2, u⟩
  · simp at hlen
  rcases u with _ | ⟨b3, u⟩
  · simp at hlen
  rcases u with _ | ⟨b4, u⟩
  · simp at hlen
  rcases u with _ | ⟨b5, u⟩
  · simp at hlen
  rcases u with _ | ⟨b6, u⟩
  · simp at hlen
  rcases u with _ | ⟨b7, u⟩
  · simp at hlen
  rcases u with _ | ⟨b8, u⟩
  · simp at hlen
  rcases u with _ | ⟨b9, u⟩
  · simp at hlen
  rcases u with _ | ⟨b10, u⟩
  · simp at hlen
  rcases u with _ | ⟨b11, u⟩
  · simp at hlen
  rcases u with _ | ⟨b12, u⟩
  · simp at hlen
  rcases u with _ | ⟨b13, u⟩
  · simp at hlen
  rcases u with _ | ⟨b14, u⟩
  · simp at hlen
  rcases u with _ | ⟨b15, u⟩
  · simp at hlen
  rcases u with _ | ⟨x, u⟩
  swap
  · simp at hlen
  have hout : newUUIDv4 (some [b0, b1, b2, b3, b4, b5, b6, b7, b8, b9, b10, b11, b12, b13, b14, b15])
      = fmt.hexBytes [b0, b1, b2, b3] ++ '-' :: (fmt.hexBytes [b4, b5] ++ '-' ::
        (fmt.hexBytes [b6 % 16 + 64, b7] ++ '-' :: (fmt.hexBytes [b8 % 64 + 128, b9] ++ '-' ::
          fmt.hexBytes [b10, b11, b12, b13, b14, b15]))) := by
    simp only [newUUIDv4, List.getD_cons_succ, List.getD_cons_zero, version_byte, variant_byte,
      List.set_cons_succ, List.set_cons_zero, List.drop_succ_cons, List.drop_zero,
      List.take_succ_cons, List.take_zero, fmt.padZero, fmt.hexBytes, List.length_cons,
      List.length_nil, Nat.sub_self, List.replicate_zero, List.nil_append]
    rfl
  rw [hout]
  have hbytes : uuidBytes (fmt.hexBytes [b0, b1, b2, b3] ++ '-' :: (fmt.hexBytes [b4, b5] ++ '-' ::
        (fmt.hexBytes [b6 % 16 + 64, b7] ++ '-' :: (fmt.hexBytes [b8 % 64 + 128, b9] ++ '-' ::
          fmt.hexBytes [b10, b11, b12, b13, b14, b15]))))
      = [b0, b1, b2, b3, b4, b5, b6 % 16 + 64, b7, b8 % 64 + 128, b9, b10, b11, b12, b13,
          b14, b15] := by
    have hbyte : ∀ b, b < 256 → b / 16 % 16 * 16 + b % 16 = b := by
      intro b hb
      omega
    simp only [fmt.hexBytes, List.cons_append, List.nil_append, uuidBytes_hex, uuidBytes_dash]
    have e0 := hbyte b0 (hb b0 (by simp))
    have e1 := hbyte b1 (hb b1 (by simp))
    have e2 := hbyte b2 (hb b2 (by simp))
    have e3 := hbyte b3 (hb b3 (by simp))
    have e4 := hbyte b4 (hb b4 (by simp))
    have e5 := hbyte b5 (hb b5 (by simp))
    have e6 := hbyte (b6 % 16 + 64) (by omega)
    have e7 := hbyte b7 (hb b7 (by simp))
    have e8 := hbyte (b8 % 64 + 128) (by omega)
    have e9 := hbyte b9 (hb b9 (by simp))
    have e10 := hbyte b10 (hb b10 (by simp))
    have e11 := hbyte b11 (hb b11 (by simp))
    have e12 := hbyte b12 (hb b12 (by simp))
    have e13 := hbyte b13 (hb b13 (by simp))
    have e14 := hbyte b14 (hb b14 (by simp))
    have e15 := hbyte b15 (hb b15 (by simp))
    rw [e0, e1, e2, e3, e4, e5, e6, e7, e8, e9, e10, e11, e12, e13, e14, e15]
    rfl
  rw [hbytes]
  refine ⟨?_, ?_, by decide, ?_, ?_, ?_, ?_, ?_⟩
  · have hv := variant_digit b8
    simp only [matchesUUIDv4, uuidV4Re, fmt.hexBytes, List.replicate, List.cons_append,
      List.nil_append, List.zipWith, List.all_cons, List.all_nil, id, isLowerHex_lowerhex_mod,
      version_digit, List.length_cons, List.length_nil, Bool.and_true, Bool.true_and,
      decide_True, beq_self_eq_true, Bool.or_eq_true, beq_iff_eq]
    simpa [or_assoc] using hv
  · simp [fmt.hexBytes]
  · intro i hi h6 h8
    interval_cases i <;> first | rfl | exact absurd rfl h6 | exact absurd rfl h8
  · simp only [List.getD_cons_succ, List.getD_cons_zero]
    omega
  · simp only [List.getD_cons_succ, List.getD_cons_zero]
    omega
  · simp only [List.getD_cons_succ, List.getD_cons_zero]
    omega
  · simp only [List.getD_cons_succ, List.getD_cons_zero]
    omega

open middleware in
/-- C18 at the bytes `00 11 22 ... ff`. -/
theorem C18_newUUIDv4_is_a_version_4_uuid_witness :
    matchesUUIDv4 (newUUIDv4 (some [0x00, 0x11, 0x22, 0x33, 0x44, 0x55, 0x66, 0x77, 0x88, 0x99,
        0xaa, 0xbb, 0xcc, 0xdd, 0xee, 0xff])) = true ∧
      newUUIDv4 (some [0x00, 0x11, 0x22, 0x33, 0x44, 0x55, 0x66, 0x77, 0x88, 0x99,
        0xaa, 0xbb, 0xcc, 0xdd, 0xee, 0xff]) = str "00112233-4455-4677-8899-aabbccddeeff" :=
  ⟨(C18_newUUIDv4_is_a_version_4_uuid [0x00, 0x11, 0x22, 0x33, 0x44, 0x55, 0x66, 0x77, 0x88,
      0x99, 0xaa, 0xbb, 0xcc, 0xdd, 0xee, 0xff] (by decide) (by decide)).1, by decide⟩

/-! ## `Clean` on paths without `..` elements -/

theorem outRel_cons (e : Name) (st : List Name) :
    path.outRel (e :: st) = e.reverse ++ (if st = [] then [] else '/' :: path.outRel st) := by
  simp [path.outRel]

theorem outRel_length_zero (st : List Name) (h : ∀ e ∈ st, e ≠ [] ∧ '/' ∉ e) :
    (path.outRel st).length = 0 ↔ st = [] := by
  cases st with
  | nil => simp [path.outRel]
  | cons e st =>
    have he := (h e (List.mem_cons_self _ _)).1
    have hl : 0 < e.length := List.length_pos.mpr he
    constructor
    · intro h1
      rw [outRel_cons, List.length_append, List.length_reverse] at h1
      omega
    · intro h1
      cases h1

theorem reverse_outRel (st : List Name) :
    (path.outRel st).reverse = filepath.joinSep st.reverse := by
  induction st with
  | nil => rfl
  | cons e st ih =>
    rw [outRel_cons]
    by_cases hst : st = []
    · subst hst
      simp [filepath.joinSep]
    · rw [if_neg hst, List.reverse_append, List.reverse_cons, ih, List.reverse_reverse,
        List.reverse_cons]
      have hr : st.reverse ≠ [] := by simpa using hst
      simp [joinSep_append_singleton _ _ hr]

theorem cleanLoop_relative (fuel : Nat) : ∀ (rest : GoString) (st : List Name),
    rest.length ≤ fuel → (∀ e ∈ st, e ≠ [] ∧ '/' ∉ e) → ['.', '.'] ∉ components rest →
    path.cleanLoop false fuel rest (path.outRel st) 0
      = path.outRel ((properElems rest).reverse ++ st) := by
  induction fuel with
  | zero =>
    intro rest st hl _ _
    have : rest = [] := List.length_eq_zero.mp (Nat.le_zero.mp hl)
    subst this
    simp [path.cleanLoop, properElems, components_nil]
  | succ n ih =>
    intro rest st hl hst hdd
    cases rest with
    | nil => simp [path.cleanLoop, properElems, components_nil]
    | cons c t =>
      have hlt : t.length ≤ n := by simp at hl; omega
      rw [path.cleanLoop]
      by_cases hc : c = '/'
      · rw [if_pos hc]
        subst hc
        rw [components_sep] at hdd
        have hp : properElems ('/' :: t) = properElems t := by
          simp [properElems, components_sep]
        rw [hp]
        exact ih t st hlt hst hdd
      · rw [if_neg hc]
        rw [components_cons c t hc] at hdd
        have hpe : properElems (c :: t)
            = (if c :: t.takeWhile (· != '/') = ['.'] then []
                else [c :: t.takeWhile (· != '/')]) ++ properElems (t.dropWhile (· != '/')) := by
          unfold properElems
          rw [components_cons c t hc, List.filter_cons]
          by_cases h : c :: t.takeWhile (· != '/') = ['.']
          · simp [h]
          · simp [h]
        by_cases h1 : c = '.' ∧ (t = [] ∨ t.head? = some '/')
        · rw [if_pos h1]
          rw [(takeWhile_sep_eq_nil t).mpr h1.2, dropWhile_sep_of_boundary t h1.2, h1.1] at hpe hdd
          rw [h1.1, hpe]
          simp only [if_true, List.nil_append]
          exact ih t st hlt hst (fun h => hdd (List.mem_cons_of_mem _ h))
        · rw [if_neg h1]
          by_cases h2 : c = '.' ∧ t.head? = some '.' ∧ (t.tail = [] ∨ t.tail.head? = some '/')
          · exfalso
            apply hdd
            rw [(takeWhile_sep_eq_dot t).mpr h2.2, h2.1]
            exact List.mem_cons_self _ _
          · rw [if_neg h2]
            have he1 : c :: t.takeWhile (· != '/') ≠ ['.'] := by
              intro h
              simp only [List.cons.injEq] at h
              exact h1 ⟨h.1, (takeWhile_sep_eq_nil t).mp h.2⟩
            rw [hpe, if_neg he1, takeWhile_sep_cons c t hc, dropWhile_sep_cons c t hc]
            have hout : (c :: t.takeWhile (· != '/')).reverse ++
                (if (false = true ∧ (path.outRel st).length ≠ 1) ∨
                    (false = false ∧ (path.outRel st).length ≠ 0)
                  then '/' :: path.outRel st else path.outRel st)
                = path.outRel ((c :: t.takeWhile (· != '/')) :: st) := by
              have h0 := outRel_length_zero st hst
              by_cases hst0 : st = []
              · subst hst0
                simp [path.outRel]
              · have : (path.outRel st).length ≠ 0 := fun h => hst0 (h0.mp h)
                simp [path.outRel, hst0, this]
            dsimp only
            rw [hout]
            have := ih (t.dropWhile (· != '/')) ((c :: t.takeWhile (· != '/')) :: st)
              (by have := dropWhile_sep_length t; omega)
              (by
                intro x hx
                rcases List.mem_cons.mp hx with h | h
                · subst h
                  refine ⟨by simp, ?_⟩
                  intro hm
                  rcases List.mem_cons.mp hm with h3 | h3
                  · exact hc h3.symm
                  · exact takeWhile_sep_not_mem t h3
                · exact hst x h)
              (fun h => hdd (List.mem_cons_of_mem _ h))
            rw [this]
            simp

theorem normAbs_no_dotdot (cs : List Name) : ∀ st : List Name, ['.', '.'] ∉ cs →
    path.normAbs st cs = (cs.filter (fun e => decide (e ≠ ['.']))).reverse ++ st := by
  induction cs with
  | nil =>
    intro st _
    simp [path.normAbs]
  | cons c cs ih =>
    intro st h
    have hc : c ≠ ['.', '.'] := fun hc => h (hc ▸ List.mem_cons_self _ _)
    have hcs : ['.', '.'] ∉ cs := fun hm => h (List.mem_cons_of_mem _ hm)
    unfold path.normAbs
    by_cases h1 : c = ['.']
    · rw [if_pos h1, ih st hcs]
      simp [h1]
    · rw [if_neg h1, if_neg hc, ih _ hcs]
      simp [h1]

/-- On a path without `..` elements `Clean` gives the lexically normal form. -/
theorem Clean_eq_lexicalNormal (d : GoString) (h : ['.', '.'] ∉ components d) :
    path.Clean d = lexicalNormal d := by
  cases d with
  | nil => decide
  | cons c t =>
    by_cases hc : c = '/'
    · subst hc
      rw [components_sep] at h
      rw [Clean_rooted, normAbs_no_dotdot _ _ h, reverse_outAbs]
      simp [lexicalNormal, properElems, components_sep, os.pathName]
    · have hloop := cleanLoop_relative (c :: t).length (c :: t) [] (Nat.le_refl _) (by simp) h
      have h0 : path.outRel [] = [] := rfl
      rw [h0, List.append_nil] at hloop
      have hhead : ((c :: t).head? = some '/') = False := by simp [hc]
      unfold path.Clean lexicalNormal
      simp only [List.cons_ne_nil, if_false, hhead, decide_False, Bool.false_eq_true, hloop]
      have hl := outRel_length_zero (properElems (c :: t)).reverse (by
        intro e he
        have he' : e ∈ components (c :: t) := by
          have := List.mem_reverse.mp he
          exact (List.mem_filter.mp this).1
        exact components_good _ _ (Nat.le_refl _) e he')
      by_cases hp : properElems (c :: t) = []
      · rw [if_pos (hl.mpr (by simp [hp])), if_pos hp]
      · rw [if_neg (fun h => hp (by simpa using hl.mp h)), if_neg hp, reverse_outRel,
          List.reverse_reverse]
theorem components_infix (n : Nat) : ∀ d : GoString, d.length ≤ n →
    ∀ e ∈ components d, ∃ pre suf, d = pre ++ e ++ suf := by
  induction n with
  | zero =>
    intro d hl e he
    have : d = [] := List.length_eq_zero.mp (Nat.le_zero.mp hl)
    subst this
    simp [components_nil] at he
  | succ n ih =>
    intro d hl e he
    cases d with
    | nil => simp [components_nil] at he
    | cons c t =>
      by_cases hc : c = '/'
      · subst hc
        rw [components_sep] at he
        obtain ⟨pre, suf, h⟩ := ih t (by simp at hl; omega) e he
        exact ⟨'/' :: pre, suf, by rw [h]; simp⟩
      · rw [components_cons c t hc] at he
        rcases List.mem_cons.mp he with h | h
        · refine ⟨[], t.dropWhile (· != '/'), ?_⟩
          rw [h]
          simp
        · obtain ⟨pre, suf, h1⟩ := ih (t.dropWhile (· != '/'))
            (by have := dropWhile_sep_length t; simp at hl; omega) e h
          refine ⟨c :: t.takeWhile (· != '/') ++ pre, suf, ?_⟩
          have h2 := List.takeWhile_append_dropWhile (· != '/') t
          rw [h1] at h2
          conv_lhs => rw [← h2]
          simp

open middleware in
theorem containsTraversal_append_left (pre x : GoString) (h : containsTraversal x = true) :
    containsTraversal (pre ++ x) = true := by
  induction pre with
  | nil => exact h
  | cons c pre ih =>
    rw [List.cons_append, containsTraversal_cons]
    exact Or.inr ih

open middleware in
theorem containsTraversal_append_right (x suf : GoString) (h : containsTraversal x = true) :
    containsTraversal (x ++ suf) = true := by
  induction x with
  | nil => exact absurd h (by decide)
  | cons c x ih =>
    rw [containsTraversal_cons] at h
    rw [List.cons_append, containsTraversal_cons]
    rcases h with ⟨h1, h2⟩ | h
    · left
      refine ⟨h1, ?_⟩
      cases x with
      | nil => simp at h2
      | cons a x' => simpa using h2
    · exact Or.inr (ih h)

open middleware in
/-- A path without the substring `..` has no `..` element. -/
theorem no_dotdot_element (d : GoString) (h : containsTraversal d = false) :
    ['.', '.'] ∉ components d := by
  intro hm
  obtain ⟨pre, suf, hd⟩ := components_infix d.length d (Nat.le_refl _) _ hm
  have h1 : containsTraversal (pre ++ ['.', '.'] ++ suf) = true := by
    apply containsTraversal_append_right
    apply containsTraversal_append_left
    decide
  rw [← hd, h] at h1
  cases h1

open middleware in
/-- An element of a path without the substring `..` does not hold `..` either. -/
theorem element_no_traversal (d : GoString) (h : containsTraversal d = false) (e : Name)
    (he : e ∈ components d) : containsTraversal e = false := by
  obtain ⟨pre, suf, hd⟩ := components_infix d.length d (Nat.le_refl _) _ he
  cases hc : containsTraversal e with
  | false => rfl
  | true =>
    have h1 : containsTraversal (pre ++ e ++ suf) = true := by
      apply containsTraversal_append_right
      exact containsTraversal_append_left _ _ hc
    rw [← hd, h] at h1
    cases h1

theorem mem_properElems (d : GoString) (e : Name) :
    e ∈ properElems d ↔ e ∈ components d ∧ e ≠ ['.'] := by
  simp [properElems, List.mem_filter]

open middleware in
theorem properElems_regular (d : GoString) (h : containsTraversal d = false) :
    ∀ e ∈ properElems d, Regular e := by
  intro e he
  rw [mem_properElems] at he
  have hg := components_good d.length d (Nat.le_refl _) e he.1
  refine ⟨hg.1, hg.2, he.2, ?_⟩
  intro h2
  exact no_dotdot_element d h (h2 ▸ he.1)

theorem components_regular_joinSep (es : List Name) (hes : ∀ e ∈ es, Regular e) :
    components (filepath.joinSep es) = es := by
  have := components_joinSep es [] (fun e he => (hes e he).good) (Or.inl rfl)
  simpa [components_nil] using this

theorem properElems_of_regular (es : List Name) (hes : ∀ e ∈ es, Regular e) :
    es.filter (fun e => decide (e ≠ ['.'])) = es := by
  rw [List.filter_eq_self]
  intro e he
  simpa using (hes e he).2.2.1

theorem joinSep_head_ne_sep (es : List Name) (hes : ∀ e ∈ es, Regular e) :
    (filepath.joinSep es).head? ≠ some '/' := by
  cases es with
  | nil => simp [filepath.joinSep]
  | cons e es =>
    have he := hes e (List.mem_cons_self _ _)
    cases e with
    | nil => exact absurd rfl he.1
    | cons c e' =>
      have hc : c ≠ '/' := fun h => he.2.1 (h ▸ List.mem_cons_self _ _)
      cases es with
      | nil => simpa [filepath.joinSep] using hc
      | cons e2 es2 => simpa [filepath.joinSep] using hc

/-- A relative cleaned path is a fixed point of `Clean`. -/
theorem Clean_joinSep (es : List Name) (hes : ∀ e ∈ es, Regular e) (hne : es ≠ []) :
    path.Clean (filepath.joinSep es) = filepath.joinSep es := by
  have hc := components_regular_joinSep es hes
  have hdd : ['.', '.'] ∉ components (filepath.joinSep es) := by
    rw [hc]
    intro hm
    exact (hes _ hm).2.2.2 rfl
  rw [Clean_eq_lexicalNormal _ hdd]
  unfold lexicalNormal properElems
  rw [hc, properElems_of_regular es hes, if_neg (joinSep_head_ne_sep es hes), if_neg hne]

/-- The shape of what the guard forwards: `/` and regular elements, or regular elements
alone, or `.`. -/
theorem lexicalNormal_shape (d : GoString) :
    (d.head? = some '/' ∧ lexicalNormal d = os.pathName (properElems d)) ∨
      (d.head? ≠ some '/' ∧ properElems d = [] ∧ lexicalNormal d = ['.']) ∨
      (d.head? ≠ some '/' ∧ properElems d ≠ [] ∧
        lexicalNormal d = filepath.joinSep (properElems d)) := by
  unfold lexicalNormal
  by_cases h1 : d.head? = some '/'
  · left
    exact ⟨h1, by rw [if_pos h1]; rfl⟩
  · by_cases h2 : properElems d = []
    · right; left
      exact ⟨h1, h2, by rw [if_neg h1, if_pos h2]⟩
    · right; right
      exact ⟨h1, h2, by rw [if_neg h1, if_neg h2]⟩

open middleware in
/-- C13: for every decoded path the guard accepts (it holds no `..`; nor a null byte,
which plays no part here), the normalized output is a fixed point of the normalization:
`path.Clean (path.Clean d) = path.Clean d`. -/
theorem C13_normalization_is_idempotent (d : GoString)
    (h : (containsTraversal d || containsNullByte d) = false) :
    path.Clean (path.Clean d) = path.Clean d := by
  have ht : containsTraversal d = false := by
    cases hc : containsTraversal d with
    | false => rfl
    | true => rw [hc] at h; cases h
  rw [Clean_eq_lexicalNormal d (no_dotdot_element d ht)]
  have hreg := properElems_regular d ht
  rcases lexicalNormal_shape d with ⟨_, h2⟩ | ⟨_, _, h2⟩ | ⟨_, h3, h2⟩
  · rw [h2, Clean_pathName _ hreg]
  · rw [h2]
    decide
  · rw [h2, Clean_joinSep _ hreg h3]
open middleware in
/-- C13 at the decoded path `docs//guide/./`. -/
theorem C13_normalization_is_idempotent_witness :
    (containsTraversal (str "docs//guide/./") || containsNullByte (str "docs//guide/./")) = false ∧
      path.Clean (str "docs//guide/./") = str "docs/guide" ∧
      path.Clean (path.Clean (str "docs//guide/./")) = path.Clean (str "docs//guide/./") :=
  ⟨by decide, by decide, C13_normalization_is_idempotent (str "docs//guide/./") (by decide)⟩

/-! ## The guard and the backend together -/

theorem joinSep_append (rs es : List Name) (hrs : rs ≠ []) (hes : es ≠ []) :
    filepath.joinSep (rs ++ es) = filepath.joinSep rs ++ '/' :: filepath.joinSep es := by
  induction rs with
  | nil => exact absurd rfl hrs
  | cons a rs ih =>
    cases rs with
    | nil =>
      cases es with
      | nil => exact absurd rfl hes
      | cons e es' => rfl
    | cons b rs' =>
      have h1 : filepath.joinSep (a :: b :: rs' ++ es)
          = a ++ '/' :: filepath.joinSep (b :: rs' ++ es) := rfl
      have h2 : filepath.joinSep (a :: b :: rs') = a ++ '/' :: filepath.joinSep (b :: rs') := rfl
      rw [h1, h2, ih (by simp)]
      simp

theorem pathName_append (rs es : List Name) (hes : es ≠ []) :
    os.pathName (rs ++ es)
      = (if rs = [] then [] else os.pathName rs) ++ '/' :: filepath.joinSep es := by
  by_cases h : rs = []
  · subst h
    simp [os.pathName]
  · simp [os.pathName, joinSep_append rs es h hes, h]

theorem HasPrefix_append (a b : GoString) : strings.HasPrefix (a ++ b) a = true := by
  unfold strings.HasPrefix
  rw [List.isPrefixOf_iff_prefix]
  exact List.prefix_append a b

theorem pathName_HasPrefix (rs es : List Name) :
    strings.HasPrefix (os.pathName (rs ++ es)) (os.pathName rs) = true := by
  by_cases hes : es = []
  · subst hes
    rw [List.append_nil]
    have := HasPrefix_append (os.pathName rs) []
    simpa using this
  · rw [pathName_append rs es hes]
    by_cases h : rs = []
    · subst h
      simp [os.pathName, strings.HasPrefix, filepath.joinSep, List.isPrefixOf]
    · rw [if_neg h]
      exact HasPrefix_append _ _

theorem Valid_root_pathName (s : Storage) (hs : s.Valid) :
    ∃ rs : List Name, (∀ e ∈ rs, Regular e) ∧ s.root = os.pathName rs := by
  obtain ⟨t, ht⟩ := IsAbs_cons s.root hs.1
  obtain ⟨cs, hcs, hc⟩ := Clean_rooted_pathName t
  refine ⟨cs, hcs, ?_⟩
  rw [← hs.2, filepath.Clean, ht, hc]

theorem properElems_sep : properElems ['/'] = [] := by decide

open middleware in
/-- For a valid root, `safePath` accepts every non-empty path without the substring `..`
and returns the root's elements followed by the path's proper elements. -/
theorem safePath_of_no_traversal (s : Storage) (rs : List Name) (hrs : ∀ e ∈ rs, Regular e)
    (hroot : s.root = os.pathName rs) (c : GoString) (hc : c ≠ [])
    (ht : containsTraversal c = false) :
    s.safePath c = .ok (os.pathName (rs ++ properElems c)) := by
  by_cases h1 : c = ['/']
  · rw [safePath_root s c (Or.inr h1), h1, properElems_sep, List.append_nil, hroot]
  · rw [safePath_eq s c hc h1]
    have hreg := properElems_regular c ht
    have hall : ∀ e ∈ rs ++ properElems c, Regular e := by
      intro e he
      rcases List.mem_append.mp he with h | h
      · exact hrs e h
      · exact hreg e h
    have hj : filepath.Join [s.root, filepath.FromSlash c] = os.pathName (rs ++ properElems c) := by
      have e1 : filepath.Join [s.root, filepath.FromSlash c]
          = path.Clean ('/' :: (filepath.joinSep rs ++ '/' :: c)) := by
        simp [filepath.Join, filepath.Clean, filepath.joinSep, filepath.FromSlash, hroot,
          os.pathName, filepath.Separator]
      have e2 : components (filepath.joinSep rs ++ '/' :: c) = rs ++ components c := by
        rw [components_joinSep rs ('/' :: c) (fun e he => (hrs e he).good) (Or.inr rfl),
          components_sep]
      have e3 : ['.', '.'] ∉ rs ++ components c := by
        intro hm
        rcases List.mem_append.mp hm with h | h
        · exact (hrs _ h).2.2.2 rfl
        · exact no_dotdot_element c ht h
      have e4 := properElems_of_regular rs hrs
      rw [e1, Clean_rooted, e2, normAbs_no_dotdot _ _ e3, reverse_outAbs]
      simp only [decide_not] at e4
      simp [properElems, e4]
    rw [hj, filepath.Clean, Clean_pathName _ hall, hroot, pathName_HasPrefix]
    rfl

open middleware in
theorem containsTraversal_elem_sep (e rest : GoString)
    (h : containsTraversal (e ++ '/' :: rest) = true) :
    containsTraversal e = true ∨ containsTraversal rest = true := by
  induction e with
  | nil =>
    rw [List.nil_append, containsTraversal_cons] at h
    rcases h with ⟨h1, _⟩ | h
    · exact absurd h1 (by decide)
    · exact Or.inr h
  | cons c e ih =>
    rw [List.cons_append, containsTraversal_cons] at h
    rcases h with ⟨h1, h2⟩ | h
    · left
      rw [containsTraversal_cons]
      left
      refine ⟨h1, ?_⟩
      cases e with
      | nil => simp at h2
      | cons a e' => simpa using h2
    · rcases ih h with h | h
      · left
        rw [containsTraversal_cons]
        exact Or.inr h
      · exact Or.inr h

open middleware in
theorem containsTraversal_joinSep (es : List Name)
    (h : containsTraversal (filepath.joinSep es) = true) :
    ∃ e ∈ es, containsTraversal e = true := by
  induction es with
  | nil => exact absurd h (by decide)
  | cons e es ih =>
    cases es with
    | nil => exact ⟨e, List.mem_cons_self _ _, h⟩
    | cons e2 es2 =>
      have h1 : filepath.joinSep (e :: e2 :: es2) = e ++ '/' :: filepath.joinSep (e2 :: es2) := rfl
      rw [h1] at h
      rcases containsTraversal_elem_sep _ _ h with h | h
      · exact ⟨e, List.mem_cons_self _ _, h⟩
      · obtain ⟨x, hx, hx2⟩ := ih h
        exact ⟨x, List.mem_cons_of_mem _ hx, hx2⟩

theorem mem_joinSep (es : List Name) (x : Char) (h : x ∈ filepath.joinSep es) :
    x = '/' ∨ ∃ e ∈ es, x ∈ e := by
  induction es with
  | nil => simp [filepath.joinSep] at h
  | cons e es ih =>
    cases es with
    | nil => exact Or.inr ⟨e, List.mem_cons_self _ _, h⟩
    | cons e2 es2 =>
      have h1 : filepath.joinSep (e :: e2 :: es2) = e ++ '/' :: filepath.joinSep (e2 :: es2) := rfl
      rw [h1] at h
      rcases List.mem_append.mp h with h | h
      · exact Or.inr ⟨e, List.mem_cons_self _ _, h⟩
      · rcases List.mem_cons.mp h with h | h
        · exact Or.inl h
        · rcases ih h with h | ⟨y, hy, hy2⟩
          · exact Or.inl h
          · exact Or.inr ⟨y, List.mem_cons_of_mem _ hy, hy2⟩

theorem mem_of_mem_component (d : GoString) (e : Name) (he : e ∈ components d) (x : Char)
    (hx : x ∈ e) : x ∈ d := by
  obtain ⟨pre, suf, hd⟩ := components_infix d.length d (Nat.le_refl _) e he
  rw [hd]
  simp [hx]

open middleware in
/-- What the guard forwards for an accepted path holds no `..` and no null byte. -/
theorem lexicalNormal_clean_of_checks (d : GoString)
    (ht : containsTraversal d = false) (hn : containsNullByte d = false) :
    containsTraversal (lexicalNormal d) = false ∧ containsNullByte (lexicalNormal d) = false := by
  have hj : containsTraversal (filepath.joinSep (properElems d)) = false := by
    cases hc : containsTraversal (filepath.joinSep (properElems d)) with
    | false => rfl
    | true =>
      obtain ⟨e, he, he2⟩ := containsTraversal_joinSep _ hc
      rw [element_no_traversal d ht e ((mem_properElems d e).mp he).1] at he2
      cases he2
  have hjn : Char.ofNat 0 ∉ filepath.joinSep (properElems d) := by
    intro hm
    rcases mem_joinSep _ _ hm with h | ⟨e, he, hx⟩
    · exact absurd h (by decide)
    · have := mem_of_mem_component d e ((mem_properElems d e).mp he).1 _ hx
      simp [containsNullByte, strings.ContainsRune] at hn
      exact hn this
  rcases lexicalNormal_shape d with ⟨_, h2⟩ | ⟨_, _, h2⟩ | ⟨_, _, h2⟩
  · rw [h2, os.pathName]
    constructor
    · cases hc : containsTraversal ('/' :: filepath.joinSep (properElems d)) with
      | false => rfl
      | true =>
        rw [containsTraversal_cons] at hc
        rcases hc with ⟨h, _⟩ | h
        · exact absurd h (by decide)
        · rw [hj] at h
          cases h
    · simp only [containsNullByte, strings.ContainsRune, List.elem_eq_mem, decide_eq_false_iff_not,
        List.mem_cons, not_or]
      exact ⟨by decide, hjn⟩
  · rw [h2]
    exact ⟨by decide, by decide⟩
  · rw [h2]
    refine ⟨hj, ?_⟩
    simp only [containsNullByte, strings.ContainsRune, List.elem_eq_mem, decide_eq_false_iff_not]
    exact hjn

theorem joinSep_eq_nil (es : List Name) (hes : ∀ e ∈ es, Regular e)
    (h : filepath.joinSep es = []) : es = [] := by
  cases es with
  | nil => rfl
  | cons e es =>
    have he := (hes e (List.mem_cons_self _ _)).1
    cases es with
    | nil => exact absurd h he
    | cons e2 es2 =>
      have h1 : filepath.joinSep (e :: e2 :: es2) = e ++ '/' :: filepath.joinSep (e2 :: es2) := rfl
      rw [h1] at h
      simp at h

theorem pathName_eq_sep (rs : List Name) (hrs : ∀ e ∈ rs, Regular e) :
    os.pathName rs = ['/'] ↔ rs = [] := by
  constructor
  · intro h
    apply joinSep_eq_nil rs hrs
    simpa [os.pathName] using h
  · intro h
    subst h
    rfl

theorem insideRoot_pathName (rs es : List Name) (hrs : ∀ e ∈ rs, Regular e) :
    insideRoot (os.pathName rs) (os.pathName (rs ++ es)) = true := by
  unfold insideRoot
  by_cases hes : es = []
  · subst hes
    simp
  · rw [pathName_append rs es hes]
    by_cases h : rs = []
    · subst h
      simp [os.pathName, strings.HasPrefix, filepath.joinSep, List.isPrefixOf]
    · rw [if_neg h]
      have hl : (os.pathName rs).getLast? ≠ some '/' := by
        have h2 := List.dropLast_append_getLast h
        rw [← h2]
        exact pathName_getLast _ _ (hrs _ (List.getLast_mem h)).good
      rw [if_neg hl]
      have := HasPrefix_append (os.pathName rs ++ ['/']) (filepath.joinSep es)
      simp only [List.append_assoc, List.singleton_append] at this
      simp [this]

open middleware in
/-- The proper elements of a normalised path are those of the path it came from, and they
are the elements of the normalised path unless that is `.`. -/
theorem properElems_lexicalNormal (d : GoString) (ht : containsTraversal d = false) :
    properElems (lexicalNormal d) = properElems d ∧
      (properElems d ≠ [] → components (lexicalNormal d) = properElems d) ∧
      (properElems d = [] → lexicalNormal d = ['/'] ∨ lexicalNormal d = ['.']) := by
  have hreg := properElems_regular d ht
  have hf := properElems_of_regular _ hreg
  rcases lexicalNormal_shape d with ⟨_, h2⟩ | ⟨_, h1, h2⟩ | ⟨_, h1, h2⟩
  · have hc : components (lexicalNormal d) = properElems d := by
      rw [h2, components_pathName _ (fun e he => (hreg e he).good)]
    refine ⟨?_, fun _ => hc, ?_⟩
    · conv_lhs => rw [properElems, hc]
      exact hf
    · intro h0
      left
      rw [h2, h0]
      rfl
  · refine ⟨?_, fun h => absurd h1 h, fun _ => Or.inr h2⟩
    rw [h2, h1]
    decide
  · have hc : components (lexicalNormal d) = properElems d := by
      rw [h2, components_regular_joinSep _ hreg]
    refine ⟨?_, fun _ => hc, fun h => absurd h h1⟩
    conv_lhs => rw [properElems, hc]
    exact hf

theorem lexicalNormal_ne_nil (d : GoString) : lexicalNormal d ≠ [] := by
  rcases lexicalNormal_shape d with ⟨_, h2⟩ | ⟨_, h1, h2⟩ | ⟨_, h1, h2⟩
  · rw [h2]
    exact pathName_ne_nil _
  · rw [h2]
    simp
  · rw [h2]
    intro h
    cases hp : properElems d with
    | nil => exact h1 hp
    | cons e es =>
      rw [hp] at h
      have he : e ≠ [] := by
        have := (mem_properElems d e).mp (by rw [hp]; exact List.mem_cons_self _ _)
        exact (components_good d.length d (Nat.le_refl _) e this.1).1
      cases es with
      | nil => exact he h
      | cons e2 es2 =>
        have h1 : filepath.joinSep (e :: e2 :: es2) = e ++ '/' :: filepath.joinSep (e2 :: es2) := rfl
        rw [h1] at h
        simp at h

open middleware in
/-- C19: the two layers compose. For every value the guard accepts (its decoded form `d`
holds neither `..` nor a null byte), the value `path.Clean d` the guard forwards holds no
`..` and no null byte, and for every absolute cleaned root
`safePath` succeeds on it with a path inside the root at a directory boundary: the root
itself (when the forwarded value is `/` or `.`), or the root, a separator and the elements
of the forwarded value (the root `/` supplies the separator itself). -/
theorem C19_guard_output_resolves_inside_the_root (s : Storage) (hs : s.Valid)
    (d : GoString)
    (hacc : (containsTraversal d || containsNullByte d) = false) :
    containsTraversal (path.Clean d) = false ∧ containsNullByte (path.Clean d) = false ∧
      ∃ full, s.safePath (path.Clean d) = .ok full ∧ insideRoot s.root full = true ∧
        ((full = s.root ∧ (path.Clean d = ['/'] ∨ path.Clean d = ['.'])) ∨
          (components (path.Clean d) ≠ [] ∧
            full = (if s.root = ['/'] then [] else s.root) ++
              '/' :: filepath.joinSep (components (path.Clean d)))) := by
  have ht : containsTraversal d = false := by
    cases h : containsTraversal d with
    | false => rfl
    | true => simp [h] at hacc
  have hn : containsNullByte d = false := by
    cases h : containsNullByte d with
    | false => rfl
    | true => simp [h] at hacc
  obtain ⟨rs, hrs, hroot⟩ := Valid_root_pathName s hs
  rw [Clean_eq_lexicalNormal d (no_dotdot_element d ht)]
  obtain ⟨hct, hcn⟩ := lexicalNormal_clean_of_checks d ht hn
  obtain ⟨hp, hcomp, hnil⟩ := properElems_lexicalNormal d ht
  refine ⟨hct, hcn, os.pathName (rs ++ properElems d), ?_, ?_, ?_⟩
  · rw [safePath_of_no_traversal s rs hrs hroot _ (lexicalNormal_ne_nil d) hct, hp]
  · rw [hroot]
    exact insideRoot_pathName rs _ hrs
  · by_cases he : properElems d = []
    · left
      rw [he, List.append_nil, hroot]
      exact ⟨rfl, hnil he⟩
    · right
      rw [hcomp he, pathName_append rs _ he, hroot]
      refine ⟨he, ?_⟩
      by_cases hr : rs = []
      · rw [if_pos hr, if_pos ((pathName_eq_sep rs hrs).mpr hr)]
      · rw [if_neg hr, if_neg (fun h => hr ((pathName_eq_sep rs hrs).mp h))]

open middleware in
theorem C19_guard_output_resolves_inside_the_root_witness :
    containsTraversal (path.Clean (str "docs//guide/")) = false ∧
      containsNullByte (path.Clean (str "docs//guide/")) = false ∧
      ∃ full, newTestStorage.safePath (path.Clean (str "docs//guide/")) = .ok full ∧
        insideRoot newTestStorage.root full = true ∧
        ((full = newTestStorage.root ∧
            (path.Clean (str "docs//guide/") = ['/'] ∨ path.Clean (str "docs//guide/") = ['.'])) ∨
          (components (path.Clean (str "docs//guide/")) ≠ [] ∧
            full = (if newTestStorage.root = ['/'] then [] else newTestStorage.root) ++
              '/' :: filepath.joinSep (components (path.Clean (str "docs//guide/"))))) :=
  C19_guard_output_resolves_inside_the_root newTestStorage ⟨by decide, by decide⟩
    (str "docs//guide/") (by decide)

/-! ## Escaping and parsing query strings -/

theorem upperhex_facts : ∀ n, n < 16 →
    url.ishex (url.upperhex n) = true ∧ url.unhex (url.upperhex n) = n ∧
      url.upperhex n ≠ '&' ∧ url.upperhex n ≠ ';' ∧ url.upperhex n ≠ '=' := by
  decide

theorem shouldEscape_false (c : Char) (h : url.shouldEscape c = false) :
    c ≠ '&' ∧ c ≠ ';' ∧ c ≠ '=' ∧ c ≠ '%' ∧ c ≠ '+' := by
  refine ⟨?_, ?_, ?_, ?_, ?_⟩ <;>
  · intro hc
    subst hc
    revert h
    decide

theorem QueryEscape_chars (s : GoString) :
    ∀ x ∈ url.QueryEscape s, x ≠ '&' ∧ x ≠ ';' ∧ x ≠ '=' := by
  induction s with
  | nil => simp [url.QueryEscape]
  | cons c t ih =>
    intro x hx
    rw [url.QueryEscape] at hx
    by_cases h1 : url.shouldEscape c = true
    · rw [if_pos h1] at hx
      by_cases h2 : c = ' '
      · rw [if_pos h2] at hx
        rcases List.mem_cons.mp hx with h | h
        · subst h
          decide
        · exact ih x h
      · rw [if_neg h2] at hx
        have f1 := upperhex_facts (c.toNat / 16 % 16) (Nat.mod_lt _ (by decide))
        have f2 := upperhex_facts (c.toNat % 16) (Nat.mod_lt _ (by decide))
        rcases List.mem_cons.mp hx with h | h
        · subst h
          decide
        · rcases List.mem_cons.mp h with h | h
          · subst h
            exact f1.2.2
          · rcases List.mem_cons.mp h with h | h
            · subst h
              exact f2.2.2
            · exact ih x h
    · rw [if_neg h1] at hx
      have hs := shouldEscape_false c (by simpa using h1)
      rcases List.mem_cons.mp hx with h | h
      · subst h
        exact ⟨hs.1, hs.2.1, hs.2.2.1⟩
      · exact ih x h

theorem byte_of_nibbles (c : Char) (h : c.toNat < 256) :
    Char.ofNat (c.toNat / 16 % 16 * 16 + c.toNat % 16) = c := by
  have : c.toNat / 16 % 16 * 16 + c.toNat % 16 = c.toNat := by omega
  rw [this]
  exact Char.ofNat_toNat c

theorem QueryUnescape_cons_ne (c : Char) (t : GoString) (h : c ≠ '%') :
    url.QueryUnescape (c :: t) =
      match url.QueryUnescape t with
      | .ok r => .ok ((if c = '+' then ' ' else c) :: r)
      | .error e => .error e := by
  conv_lhs => unfold url.QueryUnescape
  rw [if_neg h]

theorem QueryUnescape_cons_hex (a b : Char) (rest : GoString) (ha : url.ishex a = true)
    (hb : url.ishex b = true) :
    url.QueryUnescape ('%' :: a :: b :: rest) =
      match url.QueryUnescape rest with
      | .ok r => .ok (Char.ofNat (url.unhex a * 16 + url.unhex b) :: r)
      | .error e => .error e := by
  conv_lhs => unfold url.QueryUnescape
  simp [ha, hb]

/-- Unescaping what `QueryEscape` wrote gives the byte string back. -/
theorem QueryUnescape_QueryEscape (s : GoString) (hs : IsBytes s) :
    url.QueryUnescape (url.QueryEscape s) = .ok s := by
  induction s with
  | nil => rfl
  | cons c t ih =>
    have iht := ih (fun x hx => hs x (List.mem_cons_of_mem _ hx))
    have hc := hs c (List.mem_cons_self _ _)
    rw [url.QueryEscape]
    by_cases h1 : url.shouldEscape c = true
    · rw [if_pos h1]
      by_cases h2 : c = ' '
      · rw [if_pos h2, QueryUnescape_cons_ne _ _ (by decide), iht, h2]
        rfl
      · rw [if_neg h2]
        have f1 := upperhex_facts (c.toNat / 16 % 16) (Nat.mod_lt _ (by decide))
        have f2 := upperhex_facts (c.toNat % 16) (Nat.mod_lt _ (by decide))
        rw [QueryUnescape_cons_hex _ _ _ f1.1 f2.1, iht, f1.2.1, f2.2.1, byte_of_nibbles c hc]
    · rw [if_neg h1]
      have hs5 := shouldEscape_false c (by simpa using h1)
      rw [QueryUnescape_cons_ne _ _ hs5.2.2.2.1, iht]
      simp [hs5.2.2.2.2]

theorem toNat_ofNat_byte (m : Nat) (h : m < 256) : (Char.ofNat m).toNat = m := by
  have hv : m.isValidChar := Or.inl (by omega)
  simp only [Char.ofNat, hv, Char.toNat, Char.ofNatAux, dite_true]
  rfl

theorem QueryUnescape_bytes_aux (n : Nat) : ∀ s : GoString, s.length ≤ n → ∀ d, IsBytes s →
    url.QueryUnescape s = .ok d → IsBytes d := by
  induction n with
  | zero =>
    intro s hl d _ h
    have : s = [] := List.length_eq_zero.mp (Nat.le_zero.mp hl)
    subst this
    cases h
    intro c hc
    cases hc
  | succ n ih =>
    intro s hl d hs h
    cases s with
    | nil =>
      cases h
      intro c hc
      cases hc
    | cons c t =>
      rcases QueryUnescape_cons_ok c t d h with ⟨_, a, b, rest, r, ht, ha, hb, hr, hd⟩ |
        ⟨_, r, hr, hd⟩
      · subst hd
        have hrest : IsBytes rest := by
          intro x hx
          apply hs x
          rw [ht]
          simp [hx]
        have := ih rest (by rw [ht] at hl; simp at hl; omega) r hrest hr
        intro x hx
        rcases List.mem_cons.mp hx with h | h
        · subst h
          have ha2 : url.unhex a < 16 := by
            unfold url.unhex
            split
            · omega
            · split
              · omega
              · split <;> omega
          have hb2 : url.unhex b < 16 := by
            unfold url.unhex
            split
            · omega
            · split
              · omega
              · split <;> omega
          have hlt : url.unhex a * 16 + url.unhex b < 256 := by omega
          rw [toNat_ofNat_byte _ hlt]
          exact hlt
        · exact this x h
      · subst hd
        have ht : IsBytes t := fun x hx => hs x (List.mem_cons_of_mem _ hx)
        have := ih t (by simpa using hl) r ht hr
        intro x hx
        rcases List.mem_cons.mp hx with h | h
        · subst h
          split
          · decide
          · exact hs c (List.mem_cons_self _ _)
        · exact this x h

theorem QueryUnescape_bytes (s d : GoString) (hs : IsBytes s)
    (h : url.QueryUnescape s = .ok d) : IsBytes d :=
  QueryUnescape_bytes_aux s.length s (Nat.le_refl _) d hs h

theorem cut_no_sep (s : GoString) (sep : Char) (h : sep ∉ s) : url.cut s sep = (s, []) := by
  have h1 : s.takeWhile (· != sep) = s := by
    rw [List.takeWhile_eq_self_iff]
    intro x hx
    simp only [bne_iff_ne, ne_eq]
    intro he
    exact h (he ▸ hx)
  have h2 : s.dropWhile (· != sep) = [] := by
    rw [List.dropWhile_eq_nil_iff]
    intro x hx
    simp only [bne_iff_ne, ne_eq]
    intro he
    exact h (he ▸ hx)
  simp [url.cut, h1, h2]

theorem cut_append (a rest : GoString) (sep : Char) (h : sep ∉ a) :
    url.cut (a ++ sep :: rest) sep = (a, rest) := by
  induction a with
  | nil => simp [url.cut]
  | cons c t ih =>
    have hc : c ≠ sep := fun he => h (he ▸ List.mem_cons_self _ _)
    have ht : sep ∉ t := fun hm => h (List.mem_cons_of_mem _ hm)
    have := ih ht
    simp only [url.cut, Prod.mk.injEq] at this
    simp [url.cut, hc, this.1, this.2]

theorem parseQuery_nil (fuel : Nat) (m : url.Values) : url.parseQuery fuel m [] = m := by
  cases fuel <;> simp [url.parseQuery]

theorem parseQuery_step (fuel : Nat) (m : url.Values) (query : GoString) (h : query ≠ []) :
    url.parseQuery (fuel + 1) m query
      = url.parseQuery fuel (url.parsePair m (url.cut query '&').1) (url.cut query '&').2 := by
  rw [url.parseQuery, if_neg h]
  dsimp only
  unfold url.parsePair
  split
  · rfl
  · split
    · rfl
    · split <;> rfl

/-- The strings of a list, joined with `&`. -/
theorem join_amp_cons (a b : GoString) (l : List GoString) :
    ((a :: b :: l).intersperse ['&']).flatten = a ++ '&' :: (((b :: l).intersperse ['&']).flatten) := by
  simp [List.intersperse]

/-- Parsing items joined with `&`, none of which holds a `&`, handles them one by one. -/
theorem parseQuery_items (items : List GoString) (h : ∀ i ∈ items, '&' ∉ i) :
    ∀ (fuel : Nat) (m : url.Values), items.length ≤ fuel →
      url.parseQuery fuel m ((items.intersperse ['&']).flatten)
        = items.foldl url.parsePair m := by
  induction items with
  | nil =>
    intro fuel m _
    exact parseQuery_nil fuel m
  | cons a l ih =>
    intro fuel m hf
    have ha : '&' ∉ a := h a (List.mem_cons_self _ _)
    have hl : ∀ i ∈ l, '&' ∉ i := fun i hi => h i (List.mem_cons_of_mem _ hi)
    cases fuel with
    | zero => simp at hf
    | succ fuel =>
      cases l with
      | nil =>
        have e : (([a] : List GoString).intersperse ['&']).flatten = a := by
          simp [List.intersperse]
        rw [e]
        by_cases hq : a = []
        · subst hq
          rw [parseQuery_nil]
          rfl
        · rw [parseQuery_step _ _ _ hq, cut_no_sep a '&' ha, parseQuery_nil]
          rfl
      | cons b l2 =>
        rw [join_amp_cons]
        have hq : a ++ '&' :: (((b :: l2).intersperse ['&']).flatten) ≠ [] := by simp
        rw [parseQuery_step _ _ _ hq, cut_append a _ '&' ha]
        dsimp only
        rw [ih hl fuel _ (by simpa using hf)]
        rfl

/-- One `key=value` item written by `Values.Encode` parses to the key and the value. -/
theorem parsePair_escaped (m : url.Values) (k x : GoString) (hk : IsBytes k) (hx : IsBytes x) :
    url.parsePair m (url.QueryEscape k ++ '=' :: url.QueryEscape x)
      = m.assign k (m.index k ++ [x]) := by
  have h1 : strings.ContainsRune (url.QueryEscape k ++ '=' :: url.QueryEscape x) ';' = false := by
    simp only [strings.ContainsRune, List.elem_eq_mem, decide_eq_false_iff_not, List.mem_append,
      List.mem_cons, not_or]
    exact ⟨fun h => (QueryEscape_chars k _ h).2.1 rfl, by decide,
      fun h => (QueryEscape_chars x _ h).2.1 rfl⟩
  have h2 : url.QueryEscape k ++ '=' :: url.QueryEscape x ≠ [] := by simp
  have h3 : url.cut (url.QueryEscape k ++ '=' :: url.QueryEscape x) '='
      = (url.QueryEscape k, url.QueryEscape x) :=
    cut_append _ _ _ (fun h => (QueryEscape_chars k _ h).2.2 rfl)
  unfold url.parsePair
  rw [h1, if_neg (by simp), if_neg h2, h3]
  dsimp only
  rw [QueryUnescape_QueryEscape k hk, QueryUnescape_QueryEscape x hx]

theorem index_assign (m : url.Values) (k k2 : GoString) (vs : List GoString) :
    (m.assign k vs).index k2 = if k = k2 then vs else m.index k2 := by
  induction m with
  | nil => simp [url.Values.assign, url.Values.index]
  | cons e rest ih =>
    rw [url.Values.assign]
    by_cases h : e.1 = k
    · rw [if_pos h]
      by_cases h2 : k = k2
      · simp [url.Values.index, h2]
      · have : e.1 ≠ k2 := fun h3 => h2 (h ▸ h3)
        simp [url.Values.index, h2, this]
    · rw [if_neg h]
      by_cases h2 : k = k2
      · have : e.1 ≠ k2 := fun h3 => h (h3.trans h2.symm)
        rw [url.Values.index, if_neg this, ih, if_pos h2, if_pos h2]
      · by_cases h3 : e.1 = k2
        · simp [url.Values.index, h3, h2]
        · simp [url.Values.index, h3, ih, h2]

theorem index_mem (m : url.Values) (k x : GoString) (h : x ∈ m.index k) :
    ∃ e ∈ m, e.1 = k ∧ x ∈ e.2 := by
  induction m with
  | nil => simp [url.Values.index] at h
  | cons e rest ih =>
    rw [url.Values.index] at h
    by_cases h1 : e.1 = k
    · rw [if_pos h1] at h
      exact ⟨e, List.mem_cons_self _ _, h1, h⟩
    · rw [if_neg h1] at h
      obtain ⟨e2, he2, h2⟩ := ih h
      exact ⟨e2, List.mem_cons_of_mem _ he2, h2⟩

theorem index_absent (m : url.Values) (k : GoString) (h : k ∉ m.map (·.1)) :
    m.index k = [] := by
  induction m with
  | nil => rfl
  | cons e rest ih =>
    have h1 : e.1 ≠ k := fun he => h (by simp [he])
    have h2 : k ∉ rest.map (·.1) := fun hm => h (by simp at hm ⊢; exact Or.inr hm)
    rw [url.Values.index, if_neg h1, ih h2]

theorem keys_assign (m : url.Values) (k : GoString) (vs : List GoString) :
    ∀ k2, k2 ∈ (m.assign k vs).map (·.1) ↔ k2 = k ∨ k2 ∈ m.map (·.1) := by
  induction m with
  | nil =>
    intro k2
    simp [url.Values.assign]
  | cons e rest ih =>
    intro k2
    rw [url.Values.assign]
    by_cases h : e.1 = k
    · rw [if_pos h]
      simp only [List.map_cons, List.mem_cons, h]
      tauto
    · rw [if_neg h]
      simp only [List.map_cons, List.mem_cons, ih k2]
      tauto

theorem assign_sound (m : url.Values) (k : GoString) (vs : List GoString) (hm : m.Sound)
    (hk : IsBytes k) (hvs : ∀ x ∈ vs, IsBytes x) : (m.assign k vs).Sound := by
  induction m with
  | nil =>
    refine ⟨by simp [url.Values.assign], ?_⟩
    intro e he
    simp only [url.Values.assign, List.mem_singleton] at he
    subst he
    exact ⟨hk, hvs⟩
  | cons e rest ih =>
    have hrest : url.Values.Sound rest :=
      ⟨(List.nodup_cons.mp hm.1).2, fun x hx => hm.2 x (List.mem_cons_of_mem _ hx)⟩
    have he := hm.2 e (List.mem_cons_self _ _)
    rw [url.Values.assign]
    by_cases h : e.1 = k
    · rw [if_pos h]
      constructor
      · have := hm.1
        simp only [List.map_cons, h] at this ⊢
        exact this
      · intro x hx
        rcases List.mem_cons.mp hx with h1 | h1
        · subst h1
          exact ⟨hk, hvs⟩
        · exact hrest.2 x h1
    · rw [if_neg h]
      have ih2 := ih hrest
      constructor
      · simp only [List.map_cons, List.nodup_cons]
        refine ⟨?_, ih2.1⟩
        intro hmem
        rcases (keys_assign rest k vs e.1).mp hmem with h1 | h1
        · exact h h1
        · exact (List.nodup_cons.mp hm.1).1 h1
      · intro x hx
        rcases List.mem_cons.mp hx with h1 | h1
        · subst h1
          exact he
        · exact ih2.2 x h1

theorem index_bytes (m : url.Values) (hm : m.Sound) (k x : GoString) (h : x ∈ m.index k) :
    IsBytes x := by
  obtain ⟨e, he, _, hx⟩ := index_mem m k x h
  exact (hm.2 e he).2 x hx

theorem IsBytes_takeWhile (s : GoString) (p : Char → Bool) (h : IsBytes s) :
    IsBytes (s.takeWhile p) :=
  fun c hc => h c ((List.takeWhile_sublist p).subset hc)

theorem IsBytes_dropWhile_tail (s : GoString) (p : Char → Bool) (h : IsBytes s) :
    IsBytes (s.dropWhile p).tail :=
  fun c hc => h c ((List.dropWhile_sublist p).subset (List.mem_of_mem_tail hc))

theorem parsePair_sound (m : url.Values) (pair : GoString) (hm : m.Sound) (hp : IsBytes pair) :
    (url.parsePair m pair).Sound := by
  unfold url.parsePair
  split
  · exact hm
  · split
    · exact hm
    · split
      · rename_i key value hk hv
        have bk := QueryUnescape_bytes _ _ (IsBytes_takeWhile pair _ hp) hk
        have bv := QueryUnescape_bytes _ _ (IsBytes_dropWhile_tail pair _ hp) hv
        apply assign_sound m key _ hm bk
        intro x hx
        rcases List.mem_append.mp hx with h | h
        · exact index_bytes m hm key x h
        · rw [List.mem_singleton] at h
          rw [h]
          exact bv
      · exact hm

theorem parseQuery_sound (fuel : Nat) : ∀ (m : url.Values) (query : GoString), m.Sound →
    IsBytes query → (url.parseQuery fuel m query).Sound := by
  induction fuel with
  | zero =>
    intro m query hm _
    exact hm
  | succ fuel ih =>
    intro m query hm hq
    by_cases h : query = []
    · rw [h, parseQuery_nil]
      exact hm
    · rw [parseQuery_step _ _ _ h]
      exact ih _ _ (parsePair_sound m _ hm (IsBytes_takeWhile query _ hq))
        (IsBytes_dropWhile_tail query _ hq)

theorem Query_sound (u : url.URL) (h : IsBytes u.RawQuery) : u.Query.Sound :=
  parseQuery_sound _ [] _ ⟨List.nodup_nil, fun _ he => absurd he (List.not_mem_nil _)⟩ h

theorem insertName_perm (x : Name) (l : List Name) : (insertName x l).Perm (x :: l) := by
  induction l with
  | nil => exact List.Perm.refl _
  | cons y ys ih =>
    rw [insertName]
    split
    · exact ((List.Perm.cons y ih).trans (List.Perm.swap x y ys))
    · exact List.Perm.refl _

theorem sortNames_perm (l : List Name) : (sortNames l).Perm l := by
  induction l with
  | nil => exact List.Perm.refl _
  | cons x xs ih =>
    have : sortNames (x :: xs) = insertName x (sortNames xs) := rfl
    rw [this]
    exact (insertName_perm x _).trans (List.Perm.cons x ih)

theorem encodePairs_eq (v : url.Values) (ks : List GoString) :
    url.encodePairs v ks
      = (url.pairsOf v ks).map (fun p => url.QueryEscape p.1 ++ '=' :: url.QueryEscape p.2) := by
  induction ks with
  | nil => rfl
  | cons k ks ih =>
    rw [url.encodePairs, ih]
    simp [url.pairsOf, List.flatMap_cons, List.map_append, List.map_map, Function.comp_def]

theorem foldl_parsePair_escaped (pairs : List (GoString × GoString))
    (hb : ∀ p ∈ pairs, IsBytes p.1 ∧ IsBytes p.2) : ∀ m : url.Values,
    (pairs.map (fun p => url.QueryEscape p.1 ++ '=' :: url.QueryEscape p.2)).foldl
        url.parsePair m
      = pairs.foldl (fun m p => m.assign p.1 (m.index p.1 ++ [p.2])) m := by
  induction pairs with
  | nil =>
    intro m
    rfl
  | cons p ps ih =>
    intro m
    have hp := hb p (List.mem_cons_self _ _)
    rw [List.map_cons, List.foldl_cons, List.foldl_cons, parsePair_escaped m _ _ hp.1 hp.2]
    exact ih (fun q hq => hb q (List.mem_cons_of_mem _ hq)) _

theorem index_foldl_assign (pairs : List (GoString × GoString)) (k : GoString) :
    ∀ m : url.Values,
    (pairs.foldl (fun m p => m.assign p.1 (m.index p.1 ++ [p.2])) m).index k
      = m.index k ++ (pairs.filter (fun p => decide (p.1 = k))).map (·.2) := by
  induction pairs with
  | nil =>
    intro m
    simp
  | cons p ps ih =>
    intro m
    rw [List.foldl_cons, ih, index_assign]
    by_cases h : p.1 = k
    · simp [h, List.filter_cons]
    · simp [h, List.filter_cons]

theorem pairsOf_filter (v : url.Values) (k : GoString) (ks : List GoString)
    (hks : ks.Nodup) :
    ((url.pairsOf v ks).filter (fun p => decide (p.1 = k))).map (·.2)
      = if k ∈ ks then v.index k else [] := by
  induction ks with
  | nil => rfl
  | cons a ks ih =>
    have hn := List.nodup_cons.mp hks
    have e : url.pairsOf v (a :: ks) = (v.index a).map (fun x => (a, x)) ++ url.pairsOf v ks := by
      simp [url.pairsOf, List.flatMap_cons]
    rw [e, List.filter_append, List.map_append, ih hn.2]
    by_cases h : a = k
    · subst h
      have h1 : ((v.index a).map (fun x => (a, x))).filter (fun p => decide (p.1 = a))
          = (v.index a).map (fun x => (a, x)) := by
        rw [List.filter_eq_self]
        intro p hp
        obtain ⟨x, _, rfl⟩ := List.mem_map.mp hp
        simp
      rw [h1, if_neg hn.1]
      simp [Function.comp_def]
    · have h1 : ((v.index a).map (fun x => (a, x))).filter (fun p => decide (p.1 = k)) = [] := by
        rw [List.filter_eq_nil_iff]
        intro p hp
        obtain ⟨x, _, rfl⟩ := List.mem_map.mp hp
        simpa using h
      rw [h1]
      have h2 : (k ∈ a :: ks) ↔ k ∈ ks := by
        simp only [List.mem_cons]
        constructor
        · rintro (h3 | h3)
          · exact absurd h3.symm h
          · exact h3
        · exact Or.inr
      simp [h2]

theorem join_amp_length (items : List GoString) :
    items.length ≤ ((items.intersperse ['&']).flatten).length + 1 := by
  induction items with
  | nil => simp
  | cons a l ih =>
    cases l with
    | nil => simp
    | cons b l2 =>
      rw [join_amp_cons]
      simp only [List.length_cons, List.length_append] at ih ⊢
      omega

/-- Parsing what `Values.Encode` wrote gives every key its values back. -/
theorem Query_Encode (v : url.Values) (hv : v.Sound) (path : GoString) (k : GoString) :
    (url.URL.Query { Path := path, RawQuery := v.Encode }).index k = v.index k := by
  have hperm := sortNames_perm (v.map (·.1))
  have hnd : (sortNames (v.map (·.1))).Nodup := hperm.nodup_iff.mpr hv.1
  have hb : ∀ p ∈ url.pairsOf v (sortNames (v.map (·.1))), IsBytes p.1 ∧ IsBytes p.2 := by
    intro p hp
    simp only [url.pairsOf, List.mem_flatMap, List.mem_map] at hp
    obtain ⟨a, ha, x, hx, rfl⟩ := hp
    obtain ⟨e, he, he1, hx2⟩ := index_mem v a x hx
    have := hv.2 e he
    exact ⟨he1 ▸ this.1, this.2 x hx2⟩
  have hamp : ∀ i ∈ url.encodePairs v (sortNames (v.map (·.1))), '&' ∉ i := by
    intro i hi
    rw [encodePairs_eq] at hi
    obtain ⟨p, _, rfl⟩ := List.mem_map.mp hi
    intro hm
    rcases List.mem_append.mp hm with h | h
    · exact (QueryEscape_chars _ _ h).1 rfl
    · rcases List.mem_cons.mp h with h | h
      · exact absurd h (by decide)
      · exact (QueryEscape_chars _ _ h).1 rfl
  unfold url.URL.Query
  dsimp only
  unfold url.Values.Encode
  rw [parseQuery_items _ hamp _ _ (join_amp_length _), encodePairs_eq,
    foldl_parsePair_escaped _ hb, index_foldl_assign, pairsOf_filter v k _ hnd]
  by_cases hk : k ∈ v.map (·.1)
  · rw [if_pos (hperm.mem_iff.mpr hk)]
    rfl
  · rw [if_neg (fun h => hk (hperm.mem_iff.mp h)), index_absent v k hk]
    rfl

/-! ## What the guard forwards -/

theorem Contains_sepsep_cons (c : Char) (t : GoString) :
    strings.Contains (c :: t) ['/', '/'] = true ↔
      (c = '/' ∧ t.head? = some '/') ∨ strings.Contains t ['/', '/'] = true := by
  cases t with
  | nil => simp [strings.Contains, List.isPrefixOf]
  | cons d t' =>
    simp only [strings.Contains, List.isPrefixOf, Bool.or_eq_true,
      Bool.and_eq_true, beq_iff_eq, List.head?_cons, Option.some.injEq, Bool.and_true]
    constructor
    · rintro (⟨h1, h2⟩ | h)
      · exact Or.inl ⟨h1.symm, h2.symm⟩
      · exact Or.inr h
    · rintro (⟨h1, h2⟩ | h)
      · exact Or.inl ⟨h1.symm, h2.symm⟩
      · exact Or.inr h

theorem no_sepsep_elem (e : Name) (he : '/' ∉ e) (rest : GoString)
    (hh : rest.head? ≠ some '/') (hr : strings.Contains rest ['/', '/'] = false) :
    strings.Contains (e ++ '/' :: rest) ['/', '/'] = false := by
  induction e with
  | nil =>
    cases h : strings.Contains ([] ++ '/' :: rest) ['/', '/'] with
    | false => rfl
    | true =>
      rw [List.nil_append, Contains_sepsep_cons] at h
      rcases h with ⟨_, h⟩ | h
      · exact absurd h hh
      · rw [hr] at h
        cases h
  | cons c e ih =>
    have hc : c ≠ '/' := fun h => he (h ▸ List.mem_cons_self _ _)
    have ih2 := ih (fun h => he (List.mem_cons_of_mem _ h))
    cases h : strings.Contains (c :: e ++ '/' :: rest) ['/', '/'] with
    | false => rfl
    | true =>
      rw [List.cons_append, Contains_sepsep_cons] at h
      rcases h with ⟨h, _⟩ | h
      · exact absurd h hc
      · rw [ih2] at h
        cases h

theorem no_sepsep_name (e : Name) (he : '/' ∉ e) : strings.Contains e ['/', '/'] = false := by
  induction e with
  | nil => decide
  | cons c e ih =>
    have hc : c ≠ '/' := fun h => he (h ▸ List.mem_cons_self _ _)
    cases h : strings.Contains (c :: e) ['/', '/'] with
    | false => rfl
    | true =>
      rw [Contains_sepsep_cons] at h
      rcases h with ⟨h, _⟩ | h
      · exact absurd h hc
      · rw [ih (fun h => he (List.mem_cons_of_mem _ h))] at h
        cases h

theorem no_sepsep_joinSep (es : List Name) (hes : ∀ e ∈ es, Regular e) :
    strings.Contains (filepath.joinSep es) ['/', '/'] = false := by
  induction es with
  | nil => decide
  | cons e es ih =>
    have he := hes e (List.mem_cons_self _ _)
    have hes2 : ∀ x ∈ es, Regular x := fun x hx => hes x (List.mem_cons_of_mem _ hx)
    cases es with
    | nil => exact no_sepsep_name e he.2.1
    | cons e2 es2 =>
      have h1 : filepath.joinSep (e :: e2 :: es2) = e ++ '/' :: filepath.joinSep (e2 :: es2) := rfl
      rw [h1]
      exact no_sepsep_elem e he.2.1 _ (joinSep_head_ne_sep _ hes2) (ih hes2)

theorem joinSep_getLast (es : List Name) (hes : ∀ e ∈ es, Regular e) (hne : es ≠ []) :
    (filepath.joinSep es).getLast? ≠ some '/' := by
  have h1 := List.dropLast_append_getLast hne
  have h2 := pathName_getLast es.dropLast (es.getLast hne) (hes _ (List.getLast_mem hne)).good
  rw [h1, os.pathName] at h2
  have h3 : filepath.joinSep es ≠ [] := fun h => hne (joinSep_eq_nil es hes h)
  obtain ⟨a, l, hl⟩ := List.exists_cons_of_ne_nil h3
  rw [hl] at h2 ⊢
  simpa using h2

open middleware in
/-- The shape of a normalised path: no doubled separator, no `.` element unless the path
is `.`, and no trailing separator unless the path is `/`. -/
theorem lexicalNormal_normal (d : GoString) (ht : containsTraversal d = false) :
    strings.Contains (lexicalNormal d) ['/', '/'] = false ∧
      (lexicalNormal d = ['.'] ∨ ['.'] ∉ components (lexicalNormal d)) ∧
      (lexicalNormal d = ['/'] ∨ (lexicalNormal d).getLast? ≠ some '/') := by
  have hreg := properElems_regular d ht
  obtain ⟨_, hcomp, hnil⟩ := properElems_lexicalNormal d ht
  have hdot : lexicalNormal d = ['.'] ∨ ['.'] ∉ components (lexicalNormal d) := by
    by_cases he : properElems d = []
    · rcases hnil he with h | h
      · right
        rw [h]
        decide
      · exact Or.inl h
    · right
      rw [hcomp he]
      intro hm
      exact ((mem_properElems d _).mp hm).2 rfl
  rcases lexicalNormal_shape d with ⟨_, h2⟩ | ⟨_, _, h2⟩ | ⟨_, h1, h2⟩
  · refine ⟨?_, hdot, ?_⟩
    · rw [h2, os.pathName]
      cases h : strings.Contains ('/' :: filepath.joinSep (properElems d)) ['/', '/'] with
      | false => rfl
      | true =>
        rw [Contains_sepsep_cons] at h
        rcases h with ⟨_, h⟩ | h
        · exact absurd h (joinSep_head_ne_sep _ hreg)
        · rw [no_sepsep_joinSep _ hreg] at h
          cases h
    · by_cases he : properElems d = []
      · left
        rw [h2, he]
        rfl
      · right
        rw [h2]
        have h1 := List.dropLast_append_getLast he
        rw [← h1]
        exact pathName_getLast _ _ (hreg _ (List.getLast_mem he)).good
  · rw [h2]
    exact ⟨by decide, Or.inl rfl, Or.inr (by decide)⟩
  · rw [h2] at hdot ⊢
    exact ⟨no_sepsep_joinSep _ hreg, hdot, Or.inr (joinSep_getLast _ hreg h1)⟩

theorem lexicalNormal_bytes (d : GoString) (hd : IsBytes d) : IsBytes (lexicalNormal d) := by
  have hj : IsBytes (filepath.joinSep (properElems d)) := by
    intro x hx
    rcases mem_joinSep _ _ hx with h | ⟨e, he, hxe⟩
    · rw [h]
      decide
    · exact hd x (mem_of_mem_component d e ((mem_properElems d e).mp he).1 x hxe)
  rcases lexicalNormal_shape d with ⟨_, h2⟩ | ⟨_, _, h2⟩ | ⟨_, _, h2⟩
  · rw [h2, os.pathName]
    intro x hx
    rcases List.mem_cons.mp hx with h | h
    · rw [h]
      decide
    · exact hj x h
  · rw [h2]
    decide
  · rw [h2]
    exact hj

open middleware in
/-- An accepted request goes to the next handler with the `path` parameter set to the
cleaned form of the decoded value and the query re-encoded. -/
theorem PathGuard_forwards {σ : Type} (next : http.Handler σ) (w : http.ResponseWriter)
    (r : http.Request) (st : σ) (d : GoString)
    (hne : r.URL.Query.Get (str "path") ≠ [])
    (hdec : url.QueryUnescape (r.URL.Query.Get (str "path")) = .ok d)
    (hacc : (containsTraversal d || containsNullByte d) = false) :
    PathGuard next w r st = next w { r with URL := { r.URL with
      RawQuery := (r.URL.Query.Set (str "path") (path.Clean d)).Encode } } st := by
  simp only [PathGuard, hne, if_false, hdec, hacc, Bool.false_eq_true]

theorem Get_bytes (v : url.Values) (hv : v.Sound) (k : GoString) : IsBytes (v.Get k) := by
  unfold url.Values.Get
  cases h : v.index k with
  | nil =>
    intro c hc
    cases hc
  | cons x l => exact index_bytes v hv k x (by rw [h]; exact List.mem_cons_self _ _)

/-- The next handler reads back the value the guard set. -/
theorem Query_Set_Get (u : url.URL) (hb : IsBytes u.RawQuery) (k c : GoString)
    (hk : IsBytes k) (hc : IsBytes c) :
    (url.URL.Query { u with RawQuery := (u.Query.Set k c).Encode }).Get k = c := by
  have hs : (u.Query.Set k c).Sound := by
    apply assign_sound _ _ _ (Query_sound u hb) hk
    intro x hx
    rw [List.mem_singleton] at hx
    rw [hx]
    exact hc
  unfold url.Values.Get
  rw [Query_Encode _ hs, url.Values.Set, index_assign, if_pos rfl]

open middleware in
/-- C14: for a request whose `path` value is not empty, decodes to `d` and passes the two
checks, `PathGuard` is one call of the next handler on a request with the same method and
URL path whose `path` query parameter reads `path.Clean d`; that value is the lexically
normalized form of `d` (its elements other than `.` joined by single separators), it holds
no `//`, it has no `.` element unless it is `.`, it has no trailing separator unless it is
`/`, and a value that is already normal is forwarded as it is. -/
theorem C14_accepted_path_is_forwarded_normalized {σ : Type} (next : http.Handler σ)
    (w : http.ResponseWriter) (r : http.Request) (st : σ) (d : GoString)
    (hb : IsBytes r.URL.RawQuery)
    (hne : r.URL.Query.Get (str "path") ≠ [])
    (hdec : url.QueryUnescape (r.URL.Query.Get (str "path")) = .ok d)
    (hacc : (containsTraversal d || containsNullByte d) = false) :
    ∃ r2 : http.Request, PathGuard next w r st = next w r2 st ∧
      r2.Method = r.Method ∧ r2.URL.Path = r.URL.Path ∧
      r2.URL.Query.Get (str "path") = path.Clean d ∧
      path.Clean d = lexicalNormal d ∧
      strings.Contains (path.Clean d) ['/', '/'] = false ∧
      (path.Clean d = ['.'] ∨ ['.'] ∉ components (path.Clean d)) ∧
      (path.Clean d = ['/'] ∨ (path.Clean d).getLast? ≠ some '/') ∧
      (lexicalNormal d = d → r2.URL.Query.Get (str "path") = d) := by
  have ht : containsTraversal d = false := by
    cases h : containsTraversal d with
    | false => rfl
    | true => simp [h] at hacc
  have hcl := Clean_eq_lexicalNormal d (no_dotdot_element d ht)
  have hdb : IsBytes d :=
    QueryUnescape_bytes _ _ (Get_bytes _ (Query_sound r.URL hb) _) hdec
  have hget := Query_Set_Get r.URL hb (str "path") (path.Clean d) (by decide)
    (hcl ▸ lexicalNormal_bytes d hdb)
  obtain ⟨n1, n2, n3⟩ := lexicalNormal_normal d ht
  refine ⟨_, PathGuard_forwards next w r st d hne hdec hacc, rfl, rfl, hget, hcl, ?_, ?_, ?_, ?_⟩
  · rw [hcl]
    exact n1
  · rw [hcl]
    exact n2
  · rw [hcl]
    exact n3
  · intro hn
    rw [hget, hcl, hn]

open middleware in
/-- C14 at the three requests of `TestPathGuard_AllowsValidPaths` whose path changes, with
the handler of the test: it records the `path` parameter it sees and answers 200. -/
theorem C14_accepted_path_is_forwarded_normalized_witness :
    PathGuard (fun w r _ => (w.WriteHeader http.StatusOK, r.URL.Query.Get (str "path")))
        httptest.NewRecorder (httptest.NewRequest (str "GET") (str "/files?path=docs/guide/")) []
      = ((httptest.NewRecorder).WriteHeader http.StatusOK, str "docs/guide") ∧
    PathGuard (fun w r _ => (w.WriteHeader http.StatusOK, r.URL.Query.Get (str "path")))
        httptest.NewRecorder (httptest.NewRequest (str "GET") (str "/files?path=docs//guide")) []
      = ((httptest.NewRecorder).WriteHeader http.StatusOK, str "docs/guide") ∧
    PathGuard (fun w r _ => (w.WriteHeader http.StatusOK, r.URL.Query.Get (str "path")))
        httptest.NewRecorder (httptest.NewRequest (str "GET") (str "/files?path=./readme.txt")) []
      = ((httptest.NewRecorder).WriteHeader http.StatusOK, str "readme.txt") := by
  refine ⟨?_, ?_, ?_⟩
  · obtain ⟨r2, h1, _, _, h4, _⟩ := C14_accepted_path_is_forwarded_normalized
      (fun w r _ => (w.WriteHeader http.StatusOK, r.URL.Query.Get (str "path")))
      httptest.NewRecorder (httptest.NewRequest (str "GET") (str "/files?path=docs/guide/")) []
      (str "docs/guide/") (by decide) (by decide) (by decide) (by decide)
    rw [h1, h4]
    decide
  · obtain ⟨r2, h1, _, _, h4, _⟩ := C14_accepted_path_is_forwarded_normalized
      (fun w r _ => (w.WriteHeader http.StatusOK, r.URL.Query.Get (str "path")))
      httptest.NewRecorder (httptest.NewRequest (str "GET") (str "/files?path=docs//guide")) []
      (str "docs//guide") (by decide) (by decide) (by decide) (by decide)
    rw [h1, h4]
    decide
  · obtain ⟨r2, h1, _, _, h4, _⟩ := C14_accepted_path_is_forwarded_normalized
      (fun w r _ => (w.WriteHeader http.StatusOK, r.URL.Query.Get (str "path")))
      httptest.NewRecorder (httptest.NewRequest (str "GET") (str "/files?path=./readme.txt")) []
      (str "./readme.txt") (by decide) (by decide) (by decide) (by decide)
    rw [h1, h4]
    decide

/-! ## Decoding in the guard -/

open middleware in
/-- C15, counterexample: for `GET /files?path=%25` the value read from the request is `%`,
its decoding fails, and the body of the 400 response carries the error
`invalid path encoding`, not `invalid encoding`. -/
theorem C15_decode_failure_says_invalid_path_encoding :
    url.Values.Get (httptest.NewRequest (str "GET") (str "/files?path=%25")).URL.Query
        (str "path") = str "%" ∧
      url.QueryUnescape (str "%") = .error (.EscapeError (str "%")) ∧
      (PathGuard (fun w _ st => (w.WriteHeader http.StatusOK, st + 1)) httptest.NewRecorder
          (httptest.NewRequest (str "GET") (str "/files?path=%25")) 0)
        = ({ header := [(str "Content-Type", str "application/json")],
             status := some http.StatusBadRequest,
             body := [.json { Error := str "invalid path encoding" }] }, 0) ∧
      (PathGuard (fun w _ st => (w.WriteHeader http.StatusOK, st + 1)) httptest.NewRecorder
          (httptest.NewRequest (str "GET") (str "/files?path=%25")) 0).1.body
        ≠ [.json { Error := str "invalid encoding" }] := by
  decide

open middleware in
/-- C15, amended: `PathGuard` decodes the value it reads from the request,
`r.URL.Query().Get("path")`, once with `url.QueryUnescape`. When that fails the response is
the 400 error document with the error `invalid path encoding`, for every next handler and
with the world state untouched, so the next handler is not invoked. When it succeeds with
`d` and `d` passes the checks, the next handler is invoked on a request whose `path`
parameter reads `path.Clean d`. -/
theorem C15_decodes_once_and_rejects_bad_encoding (w : http.ResponseWriter)
    (r : http.Request) (hb : IsBytes r.URL.RawQuery)
    (hne : r.URL.Query.Get (str "path") ≠ []) :
    (∀ e, url.QueryUnescape (r.URL.Query.Get (str "path")) = .error e →
      (writeErrorJSON w http.StatusBadRequest (str "invalid path encoding")).body
          = w.body ++ [.json { Error := str "invalid path encoding" }] ∧
        (w.status = none →
          (writeErrorJSON w http.StatusBadRequest (str "invalid path encoding")).status
            = some 400) ∧
        ∀ (σ : Type) (next : http.Handler σ) (st : σ),
          PathGuard next w r st
            = (writeErrorJSON w http.StatusBadRequest (str "invalid path encoding"), st)) ∧
    (∀ d, url.QueryUnescape (r.URL.Query.Get (str "path")) = .ok d →
      (containsTraversal d || containsNullByte d) = false →
      ∀ (σ : Type) (next : http.Handler σ) (st : σ),
        ∃ r2 : http.Request, PathGuard next w r st = next w r2 st ∧
          r2.URL.Query.Get (str "path") = path.Clean d) := by
  constructor
  · intro e he
    refine ⟨writeErrorJSON_body _ _ _, fun hw => writeErrorJSON_status _ _ _ hw, ?_⟩
    intro σ next st
    simp only [PathGuard, hne, if_false, he]
  · intro d hdec hacc σ next st
    have ht : containsTraversal d = false := by
      cases h : containsTraversal d with
      | false => rfl
      | true => simp [h] at hacc
    have hdb : IsBytes d :=
      QueryUnescape_bytes _ _ (Get_bytes _ (Query_sound r.URL hb) _) hdec
    have hcl := Clean_eq_lexicalNormal d (no_dotdot_element d ht)
    exact ⟨_, PathGuard_forwards next w r st d hne hdec hacc,
      Query_Set_Get r.URL hb (str "path") (path.Clean d) (by decide)
        (hcl ▸ lexicalNormal_bytes d hdb)⟩

open middleware in
/-- C15, amended, at `GET /files?path=%25zz` (rejected: `%zz` does not decode) and at
`GET /files?path=a%252Fb` (the value read is `a%2Fb`, decoded once to `a/b`). -/
theorem C15_decodes_once_and_rejects_bad_encoding_witness :
    PathGuard (fun w r _ => (w.WriteHeader http.StatusOK, r.URL.Query.Get (str "path")))
        httptest.NewRecorder (httptest.NewRequest (str "GET") (str "/files?path=%25zz")) []
      = (writeErrorJSON httptest.NewRecorder http.StatusBadRequest
          (str "invalid path encoding"), []) ∧
    PathGuard (fun w r _ => (w.WriteHeader http.StatusOK, r.URL.Query.Get (str "path")))
        httptest.NewRecorder (httptest.NewRequest (str "GET") (str "/files?path=a%252Fb")) []
      = ((httptest.NewRecorder).WriteHeader http.StatusOK, str "a/b") := by
  constructor
  · exact ((C15_decodes_once_and_rejects_bad_encoding httptest.NewRecorder
      (httptest.NewRequest (str "GET") (str "/files?path=%25zz")) (by decide) (by decide)).1
      (.EscapeError (str "%zz")) (by decide)).2.2 _ _ _
  · obtain ⟨r2, h1, h2⟩ := (C15_decodes_once_and_rejects_bad_encoding httptest.NewRecorder
      (httptest.NewRequest (str "GET") (str "/files?path=a%252Fb")) (by decide) (by decide)).2
      (str "a/b") (by decide) (by decide) _
      (fun w r _ => (w.WriteHeader http.StatusOK, r.URL.Query.Get (str "path"))) []
    rw [h1, h2]
    decide

/-! ## The entries of a directory -/

theorem eraseDups_loop_spec (as : List Name) : ∀ bs : List Name, bs.Nodup →
    (List.eraseDups.loop as bs).Nodup ∧
      ∀ c, c ∈ List.eraseDups.loop as bs ↔ c ∈ as ∨ c ∈ bs := by
  induction as with
  | nil =>
    intro bs hbs
    simp [List.eraseDups.loop, hbs]
  | cons a as ih =>
    intro bs hbs
    rw [List.eraseDups.loop]
    by_cases h : a ∈ bs
    · have h1 : List.elem a bs = true := by simpa using h
      rw [h1]
      obtain ⟨i1, i2⟩ := ih bs hbs
      refine ⟨i1, fun c => ?_⟩
      rw [i2, List.mem_cons]
      constructor
      · rintro (h2 | h2)
        · exact Or.inl (Or.inr h2)
        · exact Or.inr h2
      · rintro ((h2 | h2) | h2)
        · exact Or.inr (h2 ▸ h)
        · exact Or.inl h2
        · exact Or.inr h2
    · have h1 : List.elem a bs = false := by simpa using h
      rw [h1]
      obtain ⟨i1, i2⟩ := ih (a :: bs) (List.nodup_cons.mpr ⟨h, hbs⟩)
      refine ⟨i1, fun c => ?_⟩
      rw [i2, List.mem_cons, List.mem_cons]
      tauto

theorem eraseDups_spec (as : List Name) :
    as.eraseDups.Nodup ∧ ∀ c, c ∈ as.eraseDups ↔ c ∈ as := by
  have := eraseDups_loop_spec as [] List.nodup_nil
  simpa [List.eraseDups] using this

theorem lookupNode_isSome (q : Path) (l : List (Path × Node)) :
    (lookupNode q l).isSome ↔ ∃ e ∈ l, e.1 = q := by
  induction l with
  | nil =>
    constructor
    · intro h
      cases h
    · rintro ⟨e, he, _⟩
      cases he
  | cons e rest ih =>
    rw [lookupNode]
    by_cases h : e.1 = q
    · rw [if_pos h]
      exact ⟨fun _ => ⟨e, List.mem_cons_self _ _, h⟩, fun _ => rfl⟩
    · rw [if_neg h, ih]
      constructor
      · rintro ⟨x, hx, hq⟩
        exact ⟨x, List.mem_cons_of_mem _ hx, hq⟩
      · rintro ⟨x, hx, hq⟩
        rcases List.mem_cons.mp hx with h1 | h1
        · exact absurd (h1 ▸ hq) h
        · exact ⟨x, h1, hq⟩

theorem dropLast_getLast_iff (q p : Path) (c : Name) :
    (q.dropLast = p ∧ q.getLast? = some c) ↔ q = p ++ [c] := by
  constructor
  · rintro ⟨h1, h2⟩
    have hq : q ≠ [] := by
      intro h
      rw [h] at h2
      simp at h2
    have h3 := List.dropLast_append_getLast hq
    rw [List.getLast?_eq_getLast _ hq] at h2
    rw [← h3, h1, Option.some.inj h2]
  · intro h
    rw [h]
    simp

/-- The children of a directory are the names under which a node is stored in it, each
once. -/
theorem children_spec (fs : FS) (p : Path) :
    (fs.children p).Nodup ∧ ∀ c, c ∈ fs.children p ↔ (fs.get (p ++ [c])).isSome := by
  unfold FS.children
  refine ⟨(eraseDups_spec _).1, fun c => ?_⟩
  rw [(eraseDups_spec _).2, List.mem_filterMap, FS.get, if_neg (by simp), lookupNode_isSome]
  constructor
  · rintro ⟨e, he, h⟩
    refine ⟨e, he, ?_⟩
    by_cases h1 : e.1.dropLast = p
    · rw [if_pos h1] at h
      exact (dropLast_getLast_iff _ _ _).mp ⟨h1, h⟩
    · rw [if_neg h1] at h
      cases h
  · rintro ⟨e, he, h⟩
    refine ⟨e, he, ?_⟩
    have := (dropLast_getLast_iff _ _ _).mpr h
    rw [if_pos this.1]
    exact this.2

theorem readDir_names (fs : FS) (p : Path) (L : List Name)
    (hL : ∀ c ∈ L, (fs.get (p ++ [c])).isSome) :
    (L.filterMap (fun c => (fs.get (p ++ [c])).map
      (fun n => ({ name := c, size := n.size, isDir := n.isDir } : os.FileStat)))).map (·.name)
      = L := by
  induction L with
  | nil => rfl
  | cons c L ih =>
    have hc := hL c (List.mem_cons_self _ _)
    obtain ⟨n, hn⟩ := Option.isSome_iff_exists.mp hc
    rw [List.filterMap_cons, hn]
    simp only [Option.map_some', List.map_cons]
    rw [ih (fun x hx => hL x (List.mem_cons_of_mem _ hx))]

theorem FS.walk_ok_regular (fs : FS) (cs : List Name) (hcs : ∀ e ∈ cs, Regular e) :
    ∀ cur q : Path, fs.walk cur cs = .ok q → q = cur ++ cs := by
  induction cs with
  | nil =>
    intro cur q h
    simp only [FS.walk, Except.ok.injEq] at h
    simp [h]
  | cons c rest ih =>
    intro cur q h
    have hc := hcs c (List.mem_cons_self _ _)
    rw [FS.walk] at h
    cases hg : fs.get cur with
    | none =>
      rw [hg] at h
      cases h
    | some n =>
      rw [hg] at h
      cases n with
      | file d => cases h
      | dir =>
        simp only [if_neg hc.2.2.1, if_neg hc.2.2.2] at h
        have := ih (fun e he => hcs e (List.mem_cons_of_mem _ he)) _ _ h
        rw [this]
        simp

/-! ## `filepath.Rel` below the base -/

theorem joinSep_cons (r : Name) (l : List Name) :
    filepath.joinSep (r :: l) = r ++ (if l = [] then [] else '/' :: filepath.joinSep l) := by
  cases l with
  | nil => simp [filepath.joinSep]
  | cons a l => rfl

theorem joinSep_length_ge (rs : List Name) (hrs : ∀ e ∈ rs, e ≠ []) :
    rs.length ≤ (filepath.joinSep rs).length := by
  induction rs with
  | nil => simp
  | cons r rs ih =>
    have hr : 0 < r.length := List.length_pos.mpr (hrs r (List.mem_cons_self _ _))
    have := ih (fun e he => hrs e (List.mem_cons_of_mem _ he))
    rw [joinSep_cons]
    by_cases h : rs = []
    · subst h
      simp
      omega
    · rw [if_neg h]
      simp only [List.length_append, List.length_cons]
      omega

theorem relLoop_prefix (rs more : List Name) (hrs : ∀ e ∈ rs, e ≠ [] ∧ '/' ∉ e)
    (hmore : more ≠ []) : ∀ fuel, rs.length ≤ fuel →
    filepath.relLoop fuel (filepath.joinSep rs) (filepath.joinSep (rs ++ more))
      = ([], [], filepath.joinSep more) := by
  induction rs with
  | nil =>
    intro fuel _
    cases fuel with
    | zero => rfl
    | succ f =>
      rw [filepath.relLoop]
      simp [filepath.joinSep]
  | cons r rs ih =>
    intro fuel hf
    have hr := hrs r (List.mem_cons_self _ _)
    cases fuel with
    | zero => simp at hf
    | succ f =>
      have hb : filepath.joinSep (r :: rs)
          = r ++ (if rs = [] then [] else '/' :: filepath.joinSep rs) := joinSep_cons r rs
      have ht : filepath.joinSep (r :: rs ++ more)
          = r ++ '/' :: filepath.joinSep (rs ++ more) := by
        rw [List.cons_append, joinSep_cons, if_neg (by simp [hmore])]
      have sb : (if rs = [] then ([] : GoString) else '/' :: filepath.joinSep rs) = [] ∨
          (if rs = [] then ([] : GoString) else '/' :: filepath.joinSep rs).head? = some '/' := by
        by_cases h : rs = []
        · exact Or.inl (if_pos h)
        · right
          rw [if_neg h]
          rfl
      have stl : (if rs = [] then ([] : GoString) else '/' :: filepath.joinSep rs).tail
          = filepath.joinSep rs := by
        by_cases h : rs = []
        · rw [if_pos h, h]
          rfl
        · rw [if_neg h]
          rfl
      rw [filepath.relLoop, hb, ht]
      have n1 : r ++ (if rs = [] then ([] : GoString) else '/' :: filepath.joinSep rs) ≠ [] := by
        simp [hr.1]
      have n2 : r ++ '/' :: filepath.joinSep (rs ++ more) ≠ [] := by simp
      rw [if_neg (by simp [hr.1])]
      simp only [filepath.Separator]
      rw [takeWhile_sep_append r _ hr.2 sb,
        takeWhile_sep_append r ('/' :: filepath.joinSep (rs ++ more)) hr.2 (Or.inr rfl),
        dropWhile_sep_append r _ hr.2 sb,
        dropWhile_sep_append r ('/' :: filepath.joinSep (rs ++ more)) hr.2 (Or.inr rfl)]
      simp only [ne_eq, not_true_eq_false, if_false, List.tail_cons, stl]
      exact ih (fun e he => hrs e (List.mem_cons_of_mem _ he)) f (by simpa using hf)

/-- The path of a location below the base, relative to the base: the elements below the
base joined by separators. -/
theorem Rel_pathName (rs more : List Name) (hrs : ∀ e ∈ rs, Regular e)
    (hm : ∀ e ∈ more, Regular e) (hmore : more ≠ []) :
    filepath.Rel (os.pathName rs) (os.pathName (rs ++ more))
      = some (filepath.joinSep more) := by
  have hall : ∀ e ∈ rs ++ more, Regular e := by
    intro e he
    rcases List.mem_append.mp he with h | h
    · exact hrs e h
    · exact hm e h
  have hne : os.pathName (rs ++ more) ≠ os.pathName rs := by
    intro h
    have h1 := congrArg components h
    rw [components_pathName _ (fun e he => (hall e he).good),
      components_pathName _ (fun e he => (hrs e he).good)] at h1
    have := congrArg List.length h1
    simp only [List.length_append] at this
    have : more.length = 0 := by omega
    exact hmore (List.length_eq_zero.mp this)
  have hloop : filepath.relLoop ((os.pathName rs).length + 1) (os.pathName rs)
      (os.pathName (rs ++ more)) = ([], [], filepath.joinSep more) := by
    rw [filepath.relLoop, if_neg (by simp [os.pathName])]
    simp only [os.pathName, filepath.Separator]
    have t1 : ∀ x : GoString, ('/' :: x).takeWhile (· != '/') = [] := by
      intro x
      simp
    have t2 : ∀ x : GoString, (('/' :: x).dropWhile (· != '/')).tail = x := by
      intro x
      simp
    rw [t1, t1, t2, t2]
    simp only [ne_eq, not_true_eq_false, if_false]
    apply relLoop_prefix rs more (fun e he => (hrs e he).good) hmore
    have := joinSep_length_ge rs (fun e he => (hrs e he).1)
    simp only [List.length_cons]
    omega
  unfold filepath.Rel
  simp only [filepath.Clean, Clean_pathName rs hrs, Clean_pathName _ hall, if_neg hne]
  have hd : os.pathName rs ≠ ['.'] := by simp [os.pathName]
  simp only [if_neg hd, pathName_head, filepath.Separator, decide_True, ne_eq,
    not_true_eq_false, if_false, hloop]
  simp

/-- Joining a file name onto a cleaned rooted path. -/
theorem Join_pathName_name (cs : List Name) (c : Name) (hcs : ∀ e ∈ cs, Regular e)
    (hc : Regular c) :
    filepath.Join [os.pathName cs, c] = os.pathName (cs ++ [c]) := by
  have hall : ∀ e ∈ cs ++ [c], Regular e := by
    intro e he
    rcases List.mem_append.mp he with h | h
    · exact hcs e h
    · rw [List.mem_singleton] at h
      exact h ▸ hc
  have e1 : filepath.Join [os.pathName cs, c]
      = path.Clean ('/' :: (filepath.joinSep cs ++ '/' :: c)) := by
    simp [filepath.Join, filepath.Clean, filepath.joinSep, os.pathName, filepath.Separator]
  have e2 : components (filepath.joinSep cs ++ '/' :: c) = cs ++ [c] := by
    rw [components_joinSep cs ('/' :: c) (fun e he => (hcs e he).good) (Or.inr rfl),
      components_sep]
    have := components_regular_joinSep [c] (by simpa using hc)
    rw [show filepath.joinSep [c] = c from rfl] at this
    rw [this]
  rw [e1, Clean_rooted, e2, normAbs_of_regular _ [] hall, reverse_outAbs]
  simp [os.pathName]

/-- C12: for a directory inside the root (`safePath` gives `full`, whose elements are those
of the root followed by `ds`, and `full` names the directory at `loc`), `loc` is the
location with these elements and `List` returns one entry for each node stored directly
in that directory and no other entry: the names of the entries are distinct and are
exactly the names of the children; for each entry `IsDir` and `Size` are those of the
child, and `Path` is the elements below the root followed by the name, joined by `/`.
The filesystem is not changed. -/
theorem C12_list_reports_each_child_once (s : Storage) (hs : s.Valid) (p full : GoString)
    (ds : List Name) (loc : Path) (fs : FS)
    (hp : s.safePath p = .ok full)
    (hin : components full = components s.root ++ ds)
    (hdir : fs.lstat full = .ok (loc, .dir))
    (hnames : fs.NamesRegular) :
    loc = components s.root ++ ds ∧
    ∃ entries, s.List p fs = (.ok entries, fs) ∧
      (entries.map (·.Name)).Nodup ∧
      (∀ c, c ∈ entries.map (·.Name) ↔ (fs.get (loc ++ [c])).isSome) ∧
      ∀ e ∈ entries, ∃ n, fs.get (loc ++ [e.Name]) = some n ∧
        e.IsDir = n.isDir ∧ e.Size = n.size ∧
        e.Path = filepath.joinSep (ds ++ [e.Name]) := by
  obtain ⟨cs, hcs, hfull⟩ := safePath_pathName s hs p full hp
  obtain ⟨rs, hrs, hroot⟩ := Valid_root_pathName s hs
  have hcomp : cs = rs ++ ds := by
    rw [hfull, hroot, components_pathName cs (fun e he => (hcs e he).good),
      components_pathName rs (fun e he => (hrs e he).good)] at hin
    exact hin
  have hds : ∀ e ∈ ds, Regular e := fun e he => hcs e (hcomp ▸ List.mem_append_right _ he)
  have hloc : loc = cs := by
    have h1 := (FS.lstat_ok fs full loc .dir hdir).1
    unfold FS.resolve at h1
    rw [hfull, if_neg (pathName_ne_nil cs), pathName_head] at h1
    simp only [if_true] at h1
    rw [components_pathName cs (fun e he => (hcs e he).good)] at h1
    simpa using FS.walk_ok_regular fs cs hcs [] loc h1
  obtain ⟨hnd, hmem⟩ := children_spec fs loc
  have hperm := sortNames_perm (fs.children loc)
  have hL : ∀ c ∈ sortNames (fs.children loc), (fs.get (loc ++ [c])).isSome :=
    fun c hc => (hmem c).mp (hperm.mem_iff.mp hc)
  have hnamesEq := readDir_names fs loc _ hL
  have hlist : s.List p fs = (.ok (((sortNames (fs.children loc)).filterMap (fun c =>
      (fs.get (loc ++ [c])).map
        (fun n => ({ name := c, size := n.size, isDir := n.isDir } : os.FileStat)))).map
      (fun e : os.FileStat =>
        ({ Name := e.name,
           Path := filepath.ToSlash ((filepath.Rel s.root (filepath.Join [full, e.name])).getD []),
           Size := e.size, IsDir := e.isDir } : storage.FileInfo))), fs) := by
    simp only [Storage.List, hp, os.ReadDir, hdir]
  have hrc : components s.root = rs := by
    rw [hroot, components_pathName rs (fun e he => (hrs e he).good)]
  refine ⟨by rw [hloc, hcomp, hrc], _, hlist, ?_, ?_, ?_⟩
  · rw [List.map_map]
    have : ((fun x : storage.FileInfo => x.Name) ∘ fun e : os.FileStat =>
        ({ Name := e.name,
           Path := filepath.ToSlash ((filepath.Rel s.root (filepath.Join [full, e.name])).getD []),
           Size := e.size, IsDir := e.isDir } : storage.FileInfo))
        = fun e : os.FileStat => e.name := rfl
    rw [this, hnamesEq]
    exact hperm.nodup_iff.mpr hnd
  · intro c
    rw [List.map_map]
    have : ((fun x : storage.FileInfo => x.Name) ∘ fun e : os.FileStat =>
        ({ Name := e.name,
           Path := filepath.ToSlash ((filepath.Rel s.root (filepath.Join [full, e.name])).getD []),
           Size := e.size, IsDir := e.isDir } : storage.FileInfo))
        = fun e : os.FileStat => e.name := rfl
    rw [this, hnamesEq, hperm.mem_iff]
    exact hmem c
  · intro e he
    obtain ⟨x, hx, hxe⟩ := List.mem_map.mp he
    obtain ⟨c, _, hgc⟩ := List.mem_filterMap.mp hx
    obtain ⟨n, hn, hnx⟩ := Option.map_eq_some'.mp hgc
    have hreg : Regular c := by
      have hm := FS.get_some_mem fs (loc ++ [c]) n (by simp) hn
      exact hnames _ hm c (by simp)
    subst hnx
    subst hxe
    refine ⟨n, hn, rfl, rfl, ?_⟩
    dsimp only
    rw [hfull, Join_pathName_name cs c hcs hreg, hroot, hcomp, List.append_assoc,
      Rel_pathName rs (ds ++ [c]) hrs ?_ (by simp)]
    · rfl
    · intro e he
      rcases List.mem_append.mp he with h | h
      · exact hds e h
      · rw [List.mem_singleton] at h
        exact h ▸ hreg

/-- C12 at `TestList_SubDir` (`List("docs")` reports `docs/readme.md`) and at
`TestList_WithFiles` (`List("/")` reports `a.txt` and `subdir`). -/
theorem C12_list_reports_each_child_once_witness :
    (newTestStorage.List (str "docs") listSubDirFS
        = (.ok [{ Name := str "readme.md", Path := str "docs/readme.md", Size := 2,
                  IsDir := false }], listSubDirFS) ∧
      [str "data", str "docs"] = components newTestStorage.root ++ [str "docs"] ∧
      ∃ entries, newTestStorage.List (str "docs") listSubDirFS = (.ok entries, listSubDirFS) ∧
        (entries.map (·.Name)).Nodup ∧
        (∀ c, c ∈ entries.map (·.Name) ↔
          (listSubDirFS.get ([str "data", str "docs"] ++ [c])).isSome) ∧
        ∀ e ∈ entries, ∃ n, listSubDirFS.get ([str "data", str "docs"] ++ [e.Name]) = some n ∧
          e.IsDir = n.isDir ∧ e.Size = n.size ∧
          e.Path = filepath.joinSep ([str "docs"] ++ [e.Name])) ∧
    (newTestStorage.List (str "/") listWithFilesFS
        = (.ok [{ Name := str "a.txt", Path := str "a.txt", Size := 3, IsDir := false },
                { Name := str "subdir", Path := str "subdir", Size := dirSize, IsDir := true }],
           listWithFilesFS) ∧
      [str "data"] = components newTestStorage.root ++ [] ∧
      ∃ entries, newTestStorage.List (str "/") listWithFilesFS = (.ok entries, listWithFilesFS) ∧
        (entries.map (·.Name)).Nodup ∧
        (∀ c, c ∈ entries.map (·.Name) ↔ (listWithFilesFS.get ([str "data"] ++ [c])).isSome) ∧
        ∀ e ∈ entries, ∃ n, listWithFilesFS.get ([str "data"] ++ [e.Name]) = some n ∧
          e.IsDir = n.isDir ∧ e.Size = n.size ∧
          e.Path = filepath.joinSep ([] ++ [e.Name])) :=
  ⟨⟨by decide,
    C12_list_reports_each_child_once newTestStorage ⟨by decide, by decide⟩ (str "docs")
      (str "/data/docs") [str "docs"] [str "data", str "docs"] listSubDirFS
      (by decide) (by decide) (by decide) (by decide)⟩,
   ⟨by decide,
    C12_list_reports_each_child_once newTestStorage ⟨by decide, by decide⟩ (str "/")
      (str "/data") [] [str "data"] listWithFilesFS
      (by decide) (by decide) (by decide) (by decide)⟩⟩

end GoStorage
